import Mathlib

/-! The device-rule compiler of devcg (`bpf.go`).

A shallow embedding of the rule model (`DeviceSpec`, `DeviceList`, `Mode`), of the
instruction sequence that `buildProgram` emits, and of the execution of that sequence
on one packed access attempt.

Go's `int32` fields are integers (`Int`); where the bit pattern of an `int32` matters
(bitwise and, immediates) it is taken with an explicit `% 2^32` or `% 2^64`.
-/

namespace Devcg

/-! ## Rule model (`bpf.go`, lines 10-110) -/

/-- Source: `type DeviceType int32`. -/
abbrev DeviceType := Int

/-- Source: `type AccessMask int32`. -/
abbrev AccessMask := Int

/-- Source: `type DeviceNumber int32`. -/
abbrev DeviceNumber := Int

/-- Source: `type Mode int` with the constants `AllowList` and `DenyList`. -/
inductive Mode where
  | AllowList
  | DenyList
  deriving DecidableEq, Repr

def MknodAccess : AccessMask := 1
def ReadAccess : AccessMask := 2
def WriteAccess : AccessMask := 4
def AllAccess : AccessMask := 7

def AnyDevice : DeviceType := 0
def BlockDevice : DeviceType := 1
def CharDevice : DeviceType := 2

def U32Size : Nat := 4

/-- The bit pattern of an `int32` as an unsigned 32-bit number (two's complement). -/
def bits32 (x : Int) : Nat := (x % 4294967296).toNat

/-- An `int32` immediate sign-extended to the 64 bits of a register. -/
def sext64 (x : Int) : Nat := (x % 18446744073709551616).toNat

/-- Go's `(a & b) == b` on two `int32` values: the and of the two bit patterns. -/
def hasBits (a b : Int) : Bool := (bits32 a &&& bits32 b) == bits32 b

/-- Source: `func (dt DeviceType) String() string`. -/
def DeviceType.String (dt : DeviceType) : String :=
  if dt = BlockDevice then "b"
  else if dt = CharDevice then "c"
  else if dt = AnyDevice then "*"
  else "?"

/-- Source: `func (am AccessMask) String() (ret string)`. -/
def AccessMask.String (am : AccessMask) : String :=
  (if hasBits am ReadAccess then "r" else "-") ++
  (if hasBits am WriteAccess then "w" else "-") ++
  (if hasBits am MknodAccess then "m" else "-")

/-- Source: `fmt.Sprintf("%d", n)` for an integer: decimal digits, with a leading minus sign
for a negative number. -/
def fmtInt : Int → String
  | Int.ofNat n => Nat.repr n
  | Int.negSucc n => "-" ++ Nat.repr (n + 1)

/-- Source: `func (dn DeviceNumber) String() string`. -/
def DeviceNumber.String (dn : DeviceNumber) : String :=
  if dn = -1 then "*" else fmtInt dn

/-- Source: `type DeviceSpec struct`. -/
structure DeviceSpec where
  Name : String
  DeviceType : DeviceType
  AccessMask : AccessMask
  Major : DeviceNumber
  Minor : DeviceNumber
  deriving DecidableEq, Repr

/-- Source: `func (dev *DeviceSpec) Label() string`: the format is `"%s:%s:%s:%s"`. -/
def DeviceSpec.Label (dev : DeviceSpec) : String :=
  DeviceType.String dev.DeviceType ++ ":" ++ DeviceNumber.String dev.Major ++ ":" ++
    DeviceNumber.String dev.Minor ++ ":" ++ AccessMask.String dev.AccessMask

/-- Source: `type DeviceList []DeviceSpec`. -/
abbrev DeviceList := List DeviceSpec

/-- Source: `var BasicDevices DeviceList`. -/
def BasicDevices : DeviceList :=
  [ DeviceSpec.mk "/dev/null" CharDevice AllAccess 1 3,
    DeviceSpec.mk "/dev/zero" CharDevice AllAccess 1 5,
    DeviceSpec.mk "/dev/full" CharDevice AllAccess 1 7,
    DeviceSpec.mk "/dev/random" CharDevice AllAccess 1 8,
    DeviceSpec.mk "/dev/urandom" CharDevice AllAccess 1 9 ]

/-- Source: `var StandardDevices DeviceList = append(BasicDevices, ...)`. -/
def StandardDevices : DeviceList :=
  BasicDevices ++
  [ DeviceSpec.mk "/dev/kmsg" CharDevice AllAccess 1 11,
    DeviceSpec.mk "/dev/tty" CharDevice AllAccess 5 0,
    DeviceSpec.mk "/dev/console" CharDevice AllAccess 5 1,
    DeviceSpec.mk "/dev/ptmx" CharDevice AllAccess 5 2,
    DeviceSpec.mk "/dev/tty*" CharDevice AllAccess 136 (-1),
    DeviceSpec.mk "" BlockDevice MknodAccess (-1) (-1),
    DeviceSpec.mk "" CharDevice MknodAccess (-1) (-1) ]

/-! ## Instructions (the constructors of `asm` that `bpf.go` calls) -/

/-- The registers `asm.R0` .. `asm.R5`, the only ones the compiler names. -/
inductive Register where
  | R0 | R1 | R2 | R3 | R4 | R5
  deriving DecidableEq, Repr

/-- One operation, named after the `asm` call that builds it. -/
inductive Op where
  /-- Built by `asm.LoadMem(dst, src, offset, asm.Word)` -/
  | LoadMemWord (dst src : Register) (offset : Nat)
  /-- Built by `asm.And.Imm(dst, value)`, 64-bit -/
  | AndImm (dst : Register) (value : Int)
  /-- Built by `asm.RSh.Imm(dst, value)`, 64-bit -/
  | RShImm (dst : Register) (value : Nat)
  /-- Built by `asm.JNE.Imm(dst, value, label)` -/
  | JNEImm (dst : Register) (value : Int) (label : String)
  /-- Built by `asm.Ja.Label(label)` -/
  | JaLabel (label : String)
  /-- Built by `asm.Mov.Reg32(dst, src)` -/
  | MovReg32 (dst src : Register)
  /-- Built by `asm.And.Imm32(dst, value)` -/
  | AndImm32 (dst : Register) (value : Int)
  /-- Built by `asm.JEq.Reg(dst, src, label)` -/
  | JEqReg (dst src : Register) (label : String)
  /-- Built by `asm.LoadImm(dst, value, asm.DWord)` -/
  | LoadImmDWord (dst : Register) (value : Int)
  /-- Built by `asm.Return()` -/
  | Return
  deriving DecidableEq, Repr

/-- An `asm.Instruction`: the operation, the symbol set by `WithSymbol` (the label this
instruction anchors) and the comment set by `WithSource(asm.Comment(..))`. -/
structure Instruction where
  op : Op
  symbol : Option String
  source : Option String
  deriving DecidableEq, Repr

/-- Source: `asm.Instructions`. -/
abbrev Instructions := List Instruction

/-- An instruction as the `asm` constructors return it: no symbol, no comment. -/
def Op.ins (op : Op) : Instruction := ⟨op, none, none⟩

def Instruction.WithSymbol (ins : Instruction) (name : String) : Instruction :=
  ⟨ins.op, some name, ins.source⟩

def Instruction.WithSource (ins : Instruction) (comment : String) : Instruction :=
  ⟨ins.op, ins.symbol, some comment⟩

/-! ## The compiler (`bpf.go`, lines 202-323) -/

/-- Source: `func initProgram() asm.Instructions`. -/
def initProgram : Instructions :=
  [ (Op.LoadMemWord .R2 .R1 (U32Size * 0)).ins.WithSource "R2 = device type",
    (Op.AndImm .R2 0xFFFF).ins,
    (Op.LoadMemWord .R3 .R1 (U32Size * 0)).ins.WithSource "R3 = access type",
    (Op.RShImm .R3 16).ins,
    (Op.LoadMemWord .R4 .R1 (U32Size * 1)).ins.WithSource "R4 = major number",
    (Op.LoadMemWord .R5 .R1 (U32Size * 2)).ins.WithSource "R5 = minor number" ]

/-- The label a matching rule branches to: `matchDst` of `addDevice`. -/
def matchDst (mode : Mode) : String :=
  if mode = Mode.AllowList then "allow" else "deny"

/-- The label the last rule branches to on a mismatch: `lastDst` of `addDevices`. -/
def lastDst (mode : Mode) : String :=
  if mode = Mode.AllowList then "deny" else "allow"

/-- The instructions of `addDevice` before the first one is given its symbol. -/
def addDeviceBody (device : DeviceSpec) (mode : Mode) (jumpDst : String) : Instructions :=
  (if device.DeviceType ≠ AnyDevice then [(Op.JNEImm .R2 device.DeviceType jumpDst).ins] else []) ++
  (if device.Major ≠ -1 then [(Op.JNEImm .R4 device.Major jumpDst).ins] else []) ++
  (if device.Minor ≠ -1 then [(Op.JNEImm .R5 device.Minor jumpDst).ins] else []) ++
  (if device.AccessMask = AllAccess then
    [(Op.JaLabel (matchDst mode)).ins]
  else
    [(Op.MovReg32 .R1 .R3).ins,
     (Op.AndImm32 .R1 device.AccessMask).ins,
     (Op.JEqReg .R1 .R3 (matchDst mode)).ins])

/-- Source: `func addDevice(device DeviceSpec, mode Mode, jumpDst string) (ins asm.Instructions)`:
the body, then `ins[0]` gets the symbol `device.Label()` and, when the rule has a name,
the name as its comment. -/
def addDevice (device : DeviceSpec) (mode : Mode) (jumpDst : String) : Instructions :=
  let ins := addDeviceBody device mode jumpDst
  let ins := ins.modifyHead (fun i => i.WithSymbol device.Label)
  if device.Name ≠ "" then ins.modifyHead (fun i => i.WithSource device.Name) else ins

/-- The `jumpDst` of `addDevices` for a rule, given the rules that follow it: `lastDst`
for the last rule (`isLast := i == deviceCount-1`), else `devices[i+1].Label()`. -/
def jumpDst (mode : Mode) : DeviceList → String
  | [] => lastDst mode
  | next :: _ => next.Label

/-- The loop of `addDevices` from rule `i` on, appending one `addDevice` per rule. -/
def addDevicesFrom (mode : Mode) : DeviceList → Instructions
  | [] => []
  | dev :: rest => addDevice dev mode (jumpDst mode rest) ++ addDevicesFrom mode rest

/-- Source: `func addDevices(ins asm.Instructions, mode Mode, devices DeviceList)`. -/
def addDevices (ins : Instructions) (mode : Mode) (devices : DeviceList) : Instructions :=
  ins ++ addDevicesFrom mode devices

/-- Source: `func addAllowRule(ins asm.Instructions) asm.Instructions`. -/
def addAllowRule (ins : Instructions) : Instructions :=
  ins ++ [(Op.LoadImmDWord .R0 1).ins.WithSymbol "allow", Op.Return.ins]

/-- Source: `func addDenyRule(ins asm.Instructions) asm.Instructions`. -/
def addDenyRule (ins : Instructions) : Instructions :=
  ins ++ [(Op.LoadImmDWord .R0 0).ins.WithSymbol "deny", Op.Return.ins]

/-- Source: `func finishProgram(ins asm.Instructions, mode Mode) asm.Instructions`. -/
def finishProgram (ins : Instructions) (mode : Mode) : Instructions :=
  if mode = Mode.AllowList then addAllowRule (addDenyRule ins)
  else addDenyRule (addAllowRule ins)

/-- Source: `func buildProgram(mode Mode, devices DeviceList) asm.Instructions`. -/
def buildProgram (mode : Mode) (devices : DeviceList) : Instructions :=
  let ins := initProgram
  let ins := addDevices ins mode devices
  let ins := finishProgram ins mode
  ins

/-! ## Variants of the compiler that the specification compares `buildProgram` with -/

/-- The general access test of `addDevice`: move, and-immediate, compare-equal. -/
def accessTest (device : DeviceSpec) (mode : Mode) : Instructions :=
  [(Op.MovReg32 .R1 .R3).ins,
   (Op.AndImm32 .R1 device.AccessMask).ins,
   (Op.JEqReg .R1 .R3 (matchDst mode)).ins]

/-- The rule block with a switch for the `AllAccess` case: with `elide = true` this is
`addDevice`, with `elide = false` the general access test is emitted for every rule. -/
def addDeviceWith (elide : Bool) (device : DeviceSpec) (mode : Mode) (jumpDst : String) :
    Instructions :=
  let ins :=
    (if device.DeviceType ≠ AnyDevice then [(Op.JNEImm .R2 device.DeviceType jumpDst).ins] else []) ++
    (if device.Major ≠ -1 then [(Op.JNEImm .R4 device.Major jumpDst).ins] else []) ++
    (if device.Minor ≠ -1 then [(Op.JNEImm .R5 device.Minor jumpDst).ins] else []) ++
    (if elide = true ∧ device.AccessMask = AllAccess then [(Op.JaLabel (matchDst mode)).ins]
     else accessTest device mode)
  let ins := ins.modifyHead (fun i => i.WithSymbol device.Label)
  if device.Name ≠ "" then ins.modifyHead (fun i => i.WithSource device.Name) else ins

/-- The loop of `addDevices` over `addDeviceWith`. -/
def addDevicesWith (elide : Bool) (mode : Mode) : DeviceList → Instructions
  | [] => []
  | dev :: rest =>
    addDeviceWith elide dev mode (jumpDst mode rest) ++ addDevicesWith elide mode rest

/-- The two terminal blocks; with `swap = false` in the order of `finishProgram`, with
`swap = true` in the opposite order. -/
def finishWith (swap : Bool) (ins : Instructions) (mode : Mode) : Instructions :=
  if swap = true then
    if mode = Mode.AllowList then addDenyRule (addAllowRule ins)
    else addAllowRule (addDenyRule ins)
  else finishProgram ins mode

/-- The compiler with both switches; `compileWith true false` is `buildProgram`. -/
def compileWith (elide swap : Bool) (mode : Mode) (devices : DeviceList) : Instructions :=
  finishWith swap (initProgram ++ addDevicesWith elide mode devices) mode

/-- The program in which `finishProgram` appends the "allow" and "deny" blocks in the
opposite order. -/
def buildProgramSwapped (mode : Mode) (devices : DeviceList) : Instructions :=
  compileWith true true mode devices

/-- The program that emits the general move / and-immediate / compare-equal sequence
also for `AllAccess` rules. -/
def buildProgramGeneral (mode : Mode) (devices : DeviceList) : Instructions :=
  compileWith false false mode devices

/-! ## Linking and execution -/

/-- The labels anchored in a sequence, in order. -/
def symbols (prog : Instructions) : List String :=
  prog.filterMap (fun i => i.symbol)

/-- The label a branch or jump refers to. -/
def Op.reference : Op → Option String
  | .JNEImm _ _ l => some l
  | .JaLabel l => some l
  | .JEqReg _ _ l => some l
  | _ => none

/-- The labels referenced in a sequence, in order. -/
def references (prog : Instructions) : List String :=
  prog.filterMap (fun i => i.op.reference)

/-- The number of instructions of a sequence that anchor a label. -/
def anchorCount (l : String) (prog : Instructions) : Nat :=
  (prog.filter (fun i => decide (i.symbol = some l))).length

/-- Modelled from the spec: the Linker's check (sections 3, 4.4 and 7), which the source
files leave to the `asm` package at load time. Duplicate labels and dangling references
are construction errors: no label anchors two instructions, and every referenced label
is anchored. -/
def linkable (prog : Instructions) : Bool :=
  decide (symbols prog).Nodup && (references prog).all (fun l => decide (l ∈ symbols prog))

/-- Modelled from the spec: resolution of a label to the position of its anchor, given
as the instructions from the anchor on. -/
def findLabel (l : String) : Instructions → Option Instructions
  | [] => none
  | i :: rest => if i.symbol = some l then some (i :: rest) else findLabel l rest

/-- The registers the program uses, each holding a 64-bit value. -/
structure Regs where
  r0 : Nat
  r1 : Nat
  r2 : Nat
  r3 : Nat
  r4 : Nat
  r5 : Nat
  deriving DecidableEq, Repr

def Regs.get (r : Regs) : Register → Nat
  | .R0 => r.r0
  | .R1 => r.r1
  | .R2 => r.r2
  | .R3 => r.r3
  | .R4 => r.r4
  | .R5 => r.r5

def Regs.set (r : Regs) (x : Register) (v : Nat) : Regs :=
  match x with
  | .R0 => ⟨v, r.r1, r.r2, r.r3, r.r4, r.r5⟩
  | .R1 => ⟨r.r0, v, r.r2, r.r3, r.r4, r.r5⟩
  | .R2 => ⟨r.r0, r.r1, v, r.r3, r.r4, r.r5⟩
  | .R3 => ⟨r.r0, r.r1, r.r2, v, r.r4, r.r5⟩
  | .R4 => ⟨r.r0, r.r1, r.r2, r.r3, v, r.r5⟩
  | .R5 => ⟨r.r0, r.r1, r.r2, r.r3, r.r4, v⟩

/-- Modelled from the spec: the runtime input (section 6), three 32-bit words: the packed
word (device type in the low 16 bits, requested access in the high 16 bits), the major
number and the minor number. -/
structure Input where
  w0 : Nat
  w1 : Nat
  w2 : Nat
  deriving DecidableEq, Repr

/-- A word load from the input. Addresses are byte offsets from the start of the input,
to which `R1` points when the program starts. -/
def Input.load (inp : Input) (addr : Nat) : Option Nat :=
  if addr = 0 then some (inp.w0 % 4294967296)
  else if addr = 4 then some (inp.w1 % 4294967296)
  else if addr = 8 then some (inp.w2 % 4294967296)
  else none

/-- What one instruction does. -/
inductive Outcome where
  /-- continue with the next instruction -/
  | fall (regs : Regs)
  /-- continue at the anchor of a label -/
  | goto (label : String) (regs : Regs)
  /-- return a verdict -/
  | exit (value : Nat)
  /-- invalid memory access -/
  | fault

/-- Modelled from the spec: the meaning of the Instruction IR (sections 3 and 4.2), which
the source files leave to the `asm` package and the kernel. Each operation has the width
of the `asm` constructor the source calls: `And.Imm`, `RSh.Imm` and the compares of
`JNE.Imm` and `JEq.Reg` work on the 64-bit registers with the immediate sign-extended;
`Mov.Reg32` and `And.Imm32` work on the low 32 bits and zero-extend their result; a word
load is zero-extended. -/
def step (inp : Input) (r : Regs) : Op → Outcome
  | .LoadMemWord dst src offset =>
    match inp.load (r.get src + offset) with
    | some w => .fall (r.set dst w)
    | none => .fault
  | .AndImm dst value => .fall (r.set dst (r.get dst &&& sext64 value))
  | .RShImm dst value => .fall (r.set dst (r.get dst >>> value))
  | .JNEImm dst value label =>
    if r.get dst ≠ sext64 value then .goto label r else .fall r
  | .JaLabel label => .goto label r
  | .MovReg32 dst src => .fall (r.set dst (r.get src % 4294967296))
  | .AndImm32 dst value => .fall (r.set dst ((r.get dst % 4294967296) &&& bits32 value))
  | .JEqReg dst src label =>
    if r.get dst = r.get src then .goto label r else .fall r
  | .LoadImmDWord dst value => .fall (r.set dst (sext64 value))
  | .Return => .exit (r.get .R0)

/-- Execution of `prog` from the instructions `cur` on, for at most `fuel` steps;
`none` when the fuel runs out, execution runs off the end, a label has no anchor or a
load faults. -/
def exec (prog : Instructions) (inp : Input) : Nat → Instructions → Regs → Option Nat
  | 0, _, _ => none
  | _ + 1, [], _ => none
  | fuel + 1, i :: rest, r =>
    match step inp r i.op with
    | .fall r1 => exec prog inp fuel rest r1
    | .goto l r1 =>
      match findLabel l prog with
      | some target => exec prog inp fuel target r1
      | none => none
    | .exit v => some v
    | .fault => none

/-- The registers when the program starts: `R1` points to the input. -/
def initRegs : Regs := ⟨0, 0, 0, 0, 0, 0⟩

/-- Modelled from the spec: the verdict of a sequence on an input. A sequence that does
not link is no Program and has no verdict; a linked one is executed from its first
instruction, for at most as many steps as it has instructions. -/
def run (prog : Instructions) (inp : Input) : Option Nat :=
  if linkable prog then exec prog inp prog.length prog initRegs else none

/-! ## Access attempts -/

/-- One access attempt: device type, major, minor and requested access. -/
structure Attempt where
  type : Nat
  major : Nat
  minor : Nat
  requested : Nat
  deriving DecidableEq, Repr

/-- The fields fit their width: 16 bits for type and requested access, 32 bits for the
device numbers. -/
def Attempt.valid (a : Attempt) : Prop :=
  a.type < 65536 ∧ a.requested < 65536 ∧ a.major < 4294967296 ∧ a.minor < 4294967296

instance (a : Attempt) : Decidable a.valid := by
  unfold Attempt.valid; infer_instance

/-- Modelled from the spec: the packed input for an attempt (section 6, runtime input
contract). -/
def pack (a : Attempt) : Input :=
  ⟨a.type + 65536 * a.requested, a.major, a.minor⟩

/-- The match verdict of a Mode: 1 (grant) for AllowList, 0 (deny) for DenyList. -/
def matchVerdict (mode : Mode) : Nat :=
  if mode = Mode.AllowList then 1 else 0

/-- The default verdict of a Mode: 0 for AllowList, 1 for DenyList. -/
def defaultVerdict (mode : Mode) : Nat :=
  if mode = Mode.AllowList then 0 else 1

/-- A rule matches an attempt: each of type, major and minor is the wildcard or equals
the attempt's value, and `requested & accessMask = requested`. -/
def DeviceSpec.Matches (d : DeviceSpec) (a : Attempt) : Prop :=
  (d.DeviceType = AnyDevice ∨ d.DeviceType = a.type) ∧
  (d.Major = -1 ∨ d.Major = a.major) ∧
  (d.Minor = -1 ∨ d.Minor = a.minor) ∧
  a.requested &&& bits32 d.AccessMask = a.requested

instance (d : DeviceSpec) (a : Attempt) : Decidable (d.Matches a) := by
  unfold DeviceSpec.Matches; infer_instance

/-- Every field of the rule is an `int32`. -/
def DeviceSpec.InRange (d : DeviceSpec) : Prop :=
  (-2147483648 ≤ d.DeviceType ∧ d.DeviceType < 2147483648) ∧
  (-2147483648 ≤ d.AccessMask ∧ d.AccessMask < 2147483648) ∧
  (-2147483648 ≤ d.Major ∧ d.Major < 2147483648) ∧
  (-2147483648 ≤ d.Minor ∧ d.Minor < 2147483648)

instance (d : DeviceSpec) : Decidable d.InRange := by
  unfold DeviceSpec.InRange; infer_instance

/-! ## The decision a compiled rule list takes, read off the registers -/

/-- The type, major and minor tests of a rule block all pass on the extracted fields. -/
def guardsPass (d : DeviceSpec) (a : Attempt) : Prop :=
  (d.DeviceType = AnyDevice ∨ a.type = sext64 d.DeviceType) ∧
  (d.Major = -1 ∨ a.major = sext64 d.Major) ∧
  (d.Minor = -1 ∨ a.minor = sext64 d.Minor)

instance (d : DeviceSpec) (a : Attempt) : Decidable (guardsPass d a) := by
  unfold guardsPass; infer_instance

/-- The access part of a rule block branches to the match label. -/
def accessPass (elide : Bool) (d : DeviceSpec) (a : Attempt) : Prop :=
  (elide = true ∧ d.AccessMask = AllAccess) ∨
  (a.requested % 4294967296) &&& bits32 d.AccessMask = a.requested

instance (elide : Bool) (d : DeviceSpec) (a : Attempt) : Decidable (accessPass elide d a) := by
  unfold accessPass; infer_instance

/-- The verdict of the terminal block that comes first, the one execution falls into
after the last rule block. -/
def fallVerdict (swap : Bool) (mode : Mode) : Nat :=
  if swap = true then matchVerdict mode else defaultVerdict mode

/-- The verdict the rule blocks lead to, following their control flow: a failed
type/major/minor test branches to the next rule (to the default block after the last
rule), a failed access test falls through. -/
def evalRules (elide swap : Bool) (mode : Mode) : DeviceList → Attempt → Nat
  | [], _ => fallVerdict swap mode
  | d :: rest, a =>
    if guardsPass d a then
      if accessPass elide d a then matchVerdict mode else evalRules elide swap mode rest a
    else
      match rest with
      | [] => defaultVerdict mode
      | _ :: _ => evalRules elide swap mode rest a

/-- The fields the prologue extracts from an input. -/
def decode (inp : Input) : Attempt :=
  ⟨(inp.w0 % 4294967296) &&& 65535, inp.w1 % 4294967296, inp.w2 % 4294967296,
   (inp.w0 % 4294967296) >>> 16⟩

/-- The registers hold the four fields of an attempt. -/
def Regs.Holds (r : Regs) (a : Attempt) : Prop :=
  r.r2 = a.type ∧ r.r3 = a.requested ∧ r.r4 = a.major ∧ r.r5 = a.minor

/-- Execution from `cur` returns `v` with any fuel of at least `f0`. -/
def Halts (prog : Instructions) (inp : Input) (cur : Instructions) (r : Regs) (f0 v : Nat) :
    Prop :=
  ∀ f, f0 ≤ f → exec prog inp f cur r = some v

/-- The two terminal blocks on their own. -/
def terminalWith (swap : Bool) (mode : Mode) : Instructions :=
  finishWith swap [] mode

/-- The untagged body of a rule block. -/
def blockBody (elide : Bool) (d : DeviceSpec) (mode : Mode) (j : String) : Instructions :=
  (if d.DeviceType ≠ AnyDevice then [(Op.JNEImm .R2 d.DeviceType j).ins] else []) ++
  ((if d.Major ≠ -1 then [(Op.JNEImm .R4 d.Major j).ins] else []) ++
  ((if d.Minor ≠ -1 then [(Op.JNEImm .R5 d.Minor j).ins] else []) ++
  (if elide = true ∧ d.AccessMask = AllAccess then [(Op.JaLabel (matchDst mode)).ins]
   else accessTest d mode)))

/-- The tagging of the first instruction of a block: symbol, then the name if any. -/
def tagHead (d : DeviceSpec) (i : Instruction) : Instruction :=
  if d.Name ≠ "" then (i.WithSymbol d.Label).WithSource d.Name else i.WithSymbol d.Label

/-- Execution leaves the rule blocks by falling through their end: no rule block branches
to the match label, and the last rule, if there is one, passes its type, major and minor
tests, so that it is left through its failed access test. -/
def FallsThrough (L : DeviceList) (a : Attempt) : Prop :=
  (∀ d ∈ L, ¬ (guardsPass d a ∧ accessPass true d a)) ∧
  (∀ d ∈ L.getLast?, guardsPass d a)

instance (L : DeviceList) (a : Attempt) : Decidable (FallsThrough L a) := by
  unfold FallsThrough; infer_instance

/-! ## Reading a label back -/

/-- The number a string of decimal digits denotes, most significant digit first. -/
def ofDigitChars (acc : Nat) (cs : List Char) : Nat :=
  cs.foldl (fun n c => 10 * n + (c.toNat - 48)) acc

/-- The characters `0` .. `9`. -/
def IsDigitChar (c : Char) : Prop := 48 ≤ c.toNat ∧ c.toNat ≤ 57

instance (c : Char) : Decidable (IsDigitChar c) := by
  unfold IsDigitChar; infer_instance

/-- The field values the rule model allows: a device type of Any, Block or Char, an
access mask that is a combination of the Mknod, Read and Write bits, and device numbers
that are -1 or non-negative. -/
def DeviceSpec.WellFormed (d : DeviceSpec) : Prop :=
  (d.DeviceType = AnyDevice ∨ d.DeviceType = BlockDevice ∨ d.DeviceType = CharDevice) ∧
  (0 ≤ d.AccessMask ∧ d.AccessMask ≤ 7) ∧
  (d.Major = -1 ∨ 0 ≤ d.Major) ∧
  (d.Minor = -1 ∨ 0 ≤ d.Minor)

instance (d : DeviceSpec) : Decidable d.WellFormed := by
  unfold DeviceSpec.WellFormed; infer_instance

/-! ## Command line (`cli.go`, `main.go`)

Go strings are sequences of characters; `int` has 64 bits. -/

/-- Modelled from the Go standard library (not under src/): `strings.Split(s, sep)` for a
one-character separator: the pieces of `s` between the occurrences of `sep`, one more
than there are occurrences. -/
def Split (sep : Char) : List Char → List (List Char)
  | [] => [[]]
  | c :: cs =>
    if c = sep then [] :: Split sep cs
    else
      match Split sep cs with
      | [] => [[c]]
      | p :: ps => (c :: p) :: ps

/-- The digits of `strconv.Atoi` after the sign: at least one decimal digit and nothing
else; the number, negated for a leading `-`, must fit the 64-bit `int`. -/
def atoiDigits (neg : Bool) (digits : List Char) : Option Int :=
  if digits = [] then none
  else if digits.all (fun c => decide (IsDigitChar c)) then
    let n : Int := ofDigitChars 0 digits
    let v : Int := if neg = true then -n else n
    if -9223372036854775808 ≤ v ∧ v ≤ 9223372036854775807 then some v else none
  else none

/-- Modelled from the Go standard library (not under src/): `strconv.Atoi`. An optional
sign `+` or `-`, then the digits. `none` stands for a non-nil `err`. -/
def Atoi (s : List Char) : Option Int :=
  match s with
  | [] => none
  | c :: rest =>
    if c = '-' then atoiDigits true rest
    else if c = '+' then atoiDigits false rest
    else atoiDigits false (c :: rest)

/-- The conversion `DeviceNumber(n)` of an `int` to `int32`: the low 32 bits, read as a
two's complement number. -/
def toDeviceNumber (n : Int) : DeviceNumber :=
  (n + 2147483648) % 4294967296 - 2147483648

/-- Go's `a |= b` on two `int32` values: the or of the two bit patterns. -/
def orBits (a b : AccessMask) : AccessMask :=
  toDeviceNumber ((bits32 a ||| bits32 b : Nat) : Int)

/-- The segment `major` or `minor` of `parseDevice`: `*` gives -1, anything else goes
through `strconv.Atoi` and the conversion to `DeviceNumber`. -/
def parseNumber (what : String) (part : List Char) : Except String DeviceNumber :=
  if part = ['*'] then .ok (-1)
  else
    match Atoi part with
    | none => .error ("invalid " ++ what ++ " number " ++ String.mk part)
    | some n => .ok (toDeviceNumber n)

/-- The loop over the access mask segment of `parseDevice`. -/
def parseAccess (am : AccessMask) : List Char → Except String AccessMask
  | [] => .ok am
  | ch :: rest =>
    if ch = 'r' then parseAccess (orBits am ReadAccess) rest
    else if ch = 'w' then parseAccess (orBits am WriteAccess) rest
    else if ch = 'm' then parseAccess (orBits am MknodAccess) rest
    else .error ("invalid access mode " ++ String.singleton ch)

/-- The type segment of `parseDevice`. -/
def parseType (part : List Char) : Except String DeviceType :=
  if part = "c".data ∨ part = "char".data then .ok CharDevice
  else if part = "b".data ∨ part = "block".data then .ok BlockDevice
  else .error ("unknown device type " ++ String.mk part)

/-- Source: `func parseDevice(s string) (DeviceSpec, error)`: the four parts are parsed
in turn and the first error is returned. -/
def parseDevice (s : String) : Except String DeviceSpec :=
  match Split ':' s.data with
  | [p0, p1, p2, p3] =>
    match parseType p0 with
    | .error e => .error e
    | .ok deviceType =>
      match parseNumber "major" p1 with
      | .error e => .error e
      | .ok major =>
        match parseNumber "minor" p2 with
        | .error e => .error e
        | .ok minor =>
          match parseAccess 0 p3 with
          | .error e => .error e
          | .ok accessMask => .ok (DeviceSpec.mk "" deviceType accessMask major minor)
  | _ => .error "bad format"

/-- The loop of `parseDevices` over the arguments, with the devices collected so far. -/
def parseDevicesFrom (devices : DeviceList) : List String → Except String DeviceList
  | [] => .ok devices
  | v :: rest =>
    if v = "basic" then parseDevicesFrom (devices ++ BasicDevices) rest
    else if v = "standard" then parseDevicesFrom (devices ++ StandardDevices) rest
    else
      match parseDevice v with
      | .error err => .error ("Invalid device " ++ v ++ ": " ++ err)
      | .ok dev => parseDevicesFrom (devices ++ [dev]) rest

/-- Source: `type action int` with its six constants, in the order of their `iota`. -/
inductive action where
  | newProg
  | delProg
  | attachProg
  | detachProg
  | replaceProg
  | setProg
  deriving DecidableEq, Repr

/-- Source: `type options struct`. -/
structure options where
  action : action
  debug : Bool
  cgroupPath : String
  progName : String
  progPin : String
  linkPin : String
  newLinkPin : String
  mode : Mode
  devices : DeviceList
  deriving DecidableEq, Repr

/-- Source: `&options{}`, the zero value: the action and the mode are the constants with
the value 0, the strings are empty and there are no devices. -/
def emptyOptions : options :=
  ⟨action.newProg, false, "", "", "", "", "", Mode.AllowList, []⟩

/-- Source: `func parseDevices(opts *options, args []string) error`. -/
def parseDevices (opts : options) (args : List String) : Except String options :=
  (parseDevicesFrom opts.devices args).map (fun ds => { opts with devices := ds })

/-- Source: `func parseProgramMode(opts *options, mode string) error`. -/
def parseProgramMode (opts : options) (mode : String) : Except String options :=
  if mode = "allow" then .ok { opts with mode := Mode.AllowList }
  else if mode = "deny" then .ok { opts with mode := Mode.DenyList }
  else .error ("Error: invalid mode " ++ mode ++ " (expected allow/deny)")

/-- Source: `func parseSet(opts *options, args []string) error`. -/
def parseSet (opts : options) (args : List String) : Except String options :=
  match args with
  | a0 :: a1 :: a2 :: a3 :: a4 :: rest =>
    parseProgramMode
      { opts with action := action.setProg, progPin := a0, cgroupPath := a1, linkPin := a2 } a3
      >>= fun o => parseDevices o (a4 :: rest)
  | _ => .error "Error: too few arguments"

/-- Source: `func parseNew(opts *options, args []string) error`. -/
def parseNew (opts : options) (args : List String) : Except String options :=
  match args with
  | a0 :: a1 :: a2 :: rest =>
    parseProgramMode { opts with action := action.newProg, progPin := a0 } a1
      >>= fun o => parseDevices o (a2 :: rest)
  | _ => .error "Error: too few arguments"

/-- Source: `func parseDel(opts *options, args []string) error`. -/
def parseDel (opts : options) (args : List String) : Except String options :=
  match args with
  | [a0] => .ok { opts with action := action.delProg, progPin := a0 }
  | _ => .error "Invalid arguments"

/-- Source: `func parseAttach(opts *options, args []string) error`. -/
def parseAttach (opts : options) (args : List String) : Except String options :=
  match args with
  | [a0, a1, a2] =>
    .ok { opts with action := action.attachProg, progPin := a0, cgroupPath := a1, linkPin := a2 }
  | _ => .error "Invalid arguments"

/-- Source: `func parseDetach(opts *options, args []string) error`. -/
def parseDetach (opts : options) (args : List String) : Except String options :=
  match args with
  | [a0] => .ok { opts with action := action.detachProg, linkPin := a0 }
  | _ => .error "Invalid arguments"

/-- Source: `func parseReplace(opts *options, args []string) error`. -/
def parseReplace (opts : options) (args : List String) : Except String options :=
  match args with
  | [a0, a1] => .ok { opts with action := action.replaceProg, linkPin := a0, progPin := a1 }
  | [a0, a1, a2] =>
    .ok { opts with action := action.replaceProg, linkPin := a0, progPin := a1, newLinkPin := a2 }
  | _ => .error "Invalid arguments"

/-- Source: `func parseOptions() *options`, from `args := flag.Args()` on; `debug` and
`progName` are the values of the two flags. An error stands for the `nil` it returns
after printing the message. -/
def parseOptions (debug : Bool) (progName : String) (args : List String) :
    Except String options :=
  let opts : options := { emptyOptions with debug := debug, progName := progName }
  match args with
  | [] => .error "Error: too few arguments"
  | cmd :: rest =>
    if cmd = "set" then parseSet opts rest
    else if cmd = "new" then parseNew opts rest
    else if cmd = "del" then parseDel opts rest
    else if cmd = "attach" then parseAttach opts rest
    else if cmd = "detach" then parseDetach opts rest
    else if cmd = "replace" then parseReplace opts rest
    else .error ("Unknown command " ++ cmd)

/-- The functions `main` dispatches to. -/
inductive Handler where
  | runSetProg
  | runNewProg
  | runDelProg
  | runAttachProg
  | runDetachProg
  deriving DecidableEq, Repr

/-- The value of an `action` as the `int` it is. -/
def action.toNat : action → Nat
  | .newProg => 0
  | .delProg => 1
  | .attachProg => 2
  | .detachProg => 3
  | .replaceProg => 4
  | .setProg => 5

/-- Source: the `switch opts.action` of `func main()`: the handler it calls, or the error
of its `default` branch. -/
def dispatch (a : action) : Except String Handler :=
  match a with
  | .setProg => .ok Handler.runSetProg
  | .newProg => .ok Handler.runNewProg
  | .delProg => .ok Handler.runDelProg
  | .attachProg => .ok Handler.runAttachProg
  | .detachProg => .ok Handler.runDetachProg
  | _ => .error ("Unknown action " ++ toString a.toNat)

/-! ## Device strings, as the specification describes them -/

/-- The characters `seg` are a decimal integer with an optional sign that denotes `n`. -/
def IsNumeral (seg : List Char) (n : Int) : Prop :=
  ∃ sign digits : List Char, seg = sign ++ digits ∧
    (sign = [] ∨ sign = ['+'] ∨ sign = ['-']) ∧
    digits ≠ [] ∧ (∀ c ∈ digits, IsDigitChar c) ∧
    n = if sign = ['-'] then -(ofDigitChars 0 digits : Int) else (ofDigitChars 0 digits : Int)

/-- A major or minor segment that `parseDevice` takes: `*`, or a numeral that fits the
64-bit `int`. -/
def NumberSegment (seg : List Char) : Prop :=
  seg = ['*'] ∨ ∃ n, IsNumeral seg n ∧ -9223372036854775808 ≤ n ∧ n ≤ 9223372036854775807

/-- A type segment that `parseDevice` takes. -/
def TypeSegment (seg : List Char) : Prop :=
  seg = "c".data ∨ seg = "char".data ∨ seg = "b".data ∨ seg = "block".data

instance (seg : List Char) : Decidable (TypeSegment seg) := by
  unfold TypeSegment; infer_instance

/-- An access segment that `parseDevice` takes: only the characters `r`, `w` and `m`. -/
def AccessSegment (seg : List Char) : Prop :=
  ∀ c ∈ seg, c = 'r' ∨ c = 'w' ∨ c = 'm'

instance (seg : List Char) : Decidable (AccessSegment seg) := by
  unfold AccessSegment; infer_instance

/-- The or of Read, Write and Mknod for the flags given. -/
def maskOf (r w m : Bool) : AccessMask :=
  orBits (orBits (if r then ReadAccess else 0) (if w then WriteAccess else 0))
    (if m then MknodAccess else 0)

/-! ## The compiler with its index operations checked -/

/-- The assignment `ins[0] = f(ins[0])`; `none` stands for the index-out-of-range panic
on an empty slice. -/
def setFirst (f : Instruction → Instruction) : Instructions → Option Instructions
  | [] => none
  | i :: rest => some (f i :: rest)

/-- Source: `func addDevice`, with `ins[0]` checked. -/
def addDeviceChecked (device : DeviceSpec) (mode : Mode) (jumpDst : String) :
    Option Instructions :=
  match setFirst (fun i => i.WithSymbol device.Label) (addDeviceBody device mode jumpDst) with
  | none => none
  | some ins =>
    if device.Name ≠ "" then setFirst (fun i => i.WithSource device.Name) ins else some ins

/-- The loop `for i, dev := range devices` of `addDevices` by index, with `remaining`
iterations to go; `devices[i+1]` is read only when `i` is not `deviceCount-1`, and
`none` stands for the panic of an index out of range. -/
def addDevicesLoop (mode : Mode) (devices : DeviceList) :
    Nat → Nat → Instructions → Option Instructions
  | 0, _, ins => some ins
  | remaining + 1, i, ins =>
    match devices[i]? with
    | none => none
    | some dev =>
      match (if (i : Int) = (devices.length : Int) - 1 then some (lastDst mode)
             else (devices[i + 1]?).map DeviceSpec.Label) with
      | none => none
      | some jumpDst =>
        match addDeviceChecked dev mode jumpDst with
        | none => none
        | some block => addDevicesLoop mode devices remaining (i + 1) (ins ++ block)

/-- Source: `func addDevices`, with its index operations checked. -/
def addDevicesChecked (ins : Instructions) (mode : Mode) (devices : DeviceList) :
    Option Instructions :=
  addDevicesLoop mode devices devices.length 0 ins

/-- Source: `func buildProgram`, with its index operations checked. -/
def buildProgramChecked (mode : Mode) (devices : DeviceList) : Option Instructions :=
  (addDevicesChecked initProgram mode devices).map (fun ins => finishProgram ins mode)

/-- The blocks of `addDevices`, one per rule. -/
def deviceBlocks (mode : Mode) : DeviceList → List Instructions
  | [] => []
  | dev :: rest => addDevice dev mode (jumpDst mode rest) :: deviceBlocks mode rest

/-! ## Execution step by step -/

/-- The register an operation writes, if it writes one. -/
def Op.writes : Op → Option Register
  | .LoadMemWord dst _ _ => some dst
  | .AndImm dst _ => some dst
  | .RShImm dst _ => some dst
  | .MovReg32 dst _ => some dst
  | .AndImm32 dst _ => some dst
  | .LoadImmDWord dst _ => some dst
  | _ => none

/-- The operation writes none of `R2`, `R3`, `R4`, `R5`. -/
def Op.KeepsFields (op : Op) : Prop :=
  op.writes ≠ some .R2 ∧ op.writes ≠ some .R3 ∧ op.writes ≠ some .R4 ∧ op.writes ≠ some .R5

instance (op : Op) : Decidable op.KeepsFields := by
  unfold Op.KeepsFields; infer_instance

/-- One step of `exec` on a configuration: the instructions from the current one on and
the registers. `none` when the program returns, faults or has run off its end. -/
def next (prog : Instructions) (inp : Input) : Instructions × Regs → Option (Instructions × Regs)
  | ([], _) => none
  | (i :: rest, r) =>
    match step inp r i.op with
    | .fall r1 => some (rest, r1)
    | .goto l r1 =>
      match findLabel l prog with
      | some target => some (target, r1)
      | none => none
    | .exit _ => none
    | .fault => none

/-- The configuration after `n` steps. -/
def stepsN (prog : Instructions) (inp : Input) :
    Nat → Instructions × Regs → Option (Instructions × Regs)
  | 0, c => some c
  | n + 1, c =>
    match next prog inp c with
    | none => none
    | some c1 => stepsN prog inp n c1

/-- Every configuration reached from `(cur, r)` that has a current instruction satisfies
`Q`, which is given the number of instructions from the current one to the end of the
program, the current operation and the registers. -/
def Always (P : Instructions) (inp : Input) (Q : Nat → Op → Regs → Prop)
    (cur : Instructions) (r : Regs) : Prop :=
  ∀ (n : Nat) (i : Instruction) (rest : Instructions) (r1 : Regs),
    stepsN P inp n (cur, r) = some (i :: rest, r1) → Q (i :: rest).length i.op r1

/-! # Theorems -/

/-! ## Shape of the output -/

theorem finishWith_eq (swap : Bool) (ins : Instructions) (mode : Mode) :
    finishWith swap ins mode = ins ++ terminalWith swap mode := by
  cases swap <;> cases mode <;>
    simp [terminalWith, finishWith, finishProgram, addAllowRule, addDenyRule]

theorem compileWith_eq (elide swap : Bool) (mode : Mode) (devices : DeviceList) :
    compileWith elide swap mode devices =
      initProgram ++ (addDevicesWith elide mode devices ++ terminalWith swap mode) := by
  unfold compileWith
  rw [finishWith_eq, List.append_assoc]

theorem addDevice_eq (d : DeviceSpec) (mode : Mode) (j : String) :
    addDevice d mode j = addDeviceWith true d mode j := by
  unfold addDevice addDeviceWith addDeviceBody accessTest
  simp

theorem addDevicesFrom_eq (mode : Mode) (devices : DeviceList) :
    addDevicesFrom mode devices = addDevicesWith true mode devices := by
  induction devices with
  | nil => rfl
  | cons d rest ih => simp only [addDevicesFrom, addDevicesWith, ih, addDevice_eq]

theorem buildProgram_eq (mode : Mode) (devices : DeviceList) :
    buildProgram mode devices = compileWith true false mode devices := by
  unfold buildProgram compileWith addDevices finishWith
  rw [addDevicesFrom_eq]
  simp

theorem blockBody_ne_nil (elide : Bool) (d : DeviceSpec) (mode : Mode) (j : String) :
    blockBody elide d mode j ≠ [] := by
  unfold blockBody accessTest
  split <;> split <;> split <;> split <;> simp

theorem addDeviceWith_eq (elide : Bool) (d : DeviceSpec) (mode : Mode) (j : String) :
    addDeviceWith elide d mode j = (blockBody elide d mode j).modifyHead (tagHead d) := by
  have h := blockBody_ne_nil elide d mode j
  unfold addDeviceWith
  simp only [List.append_assoc]
  change (if d.Name ≠ "" then _ else _) = _
  unfold blockBody at h ⊢
  generalize ((if d.DeviceType ≠ AnyDevice then [(Op.JNEImm .R2 d.DeviceType j).ins] else []) ++
    ((if d.Major ≠ -1 then [(Op.JNEImm .R4 d.Major j).ins] else []) ++
    ((if d.Minor ≠ -1 then [(Op.JNEImm .R5 d.Minor j).ins] else []) ++
    (if elide = true ∧ d.AccessMask = AllAccess then [(Op.JaLabel (matchDst mode)).ins]
     else accessTest d mode)))) = body at h ⊢
  cases body with
  | nil => exact absurd rfl h
  | cons i rest => unfold tagHead; split <;> simp [List.modifyHead]

theorem tagHead_op (d : DeviceSpec) (i : Instruction) : (tagHead d i).op = i.op := by
  unfold tagHead Instruction.WithSource Instruction.WithSymbol
  split <;> rfl

theorem tagHead_symbol (d : DeviceSpec) (i : Instruction) :
    (tagHead d i).symbol = some d.Label := by
  unfold tagHead Instruction.WithSource Instruction.WithSymbol
  split <;> rfl

/-! ## Execution of one rule block -/

theorem Halts.mono {P : Instructions} {inp : Input} {cur : Instructions} {r : Regs}
    {f0 f1 v : Nat} (h : Halts P inp cur r f0 v) (hle : f0 ≤ f1) : Halts P inp cur r f1 v :=
  fun f hf => h f (Nat.le_trans hle hf)

theorem halts_tag {P : Instructions} {inp : Input} (d : DeviceSpec) {body nxt : Instructions}
    {r : Regs} {f0 v : Nat} (h : Halts P inp (body ++ nxt) r f0 v) :
    Halts P inp (body.modifyHead (tagHead d) ++ nxt) r f0 v := by
  cases body with
  | nil => simpa using h
  | cons i rest =>
    intro f hf
    have h1 := h f hf
    cases f with
    | zero => simp [exec] at h1
    | succ n => simpa [exec, tagHead_op] using h1

theorem halts_guard {P : Instructions} {inp : Input} (c : Prop) [Decidable c]
    (reg : Register) (v : Int) (j : String) (cur tj : Instructions) (r : Regs) (f0 val : Nat)
    (hj : c → findLabel j P = some tj)
    (hpass : (¬ c ∨ r.get reg = sext64 v) → Halts P inp cur r f0 val)
    (hfail : c → r.get reg ≠ sext64 v → Halts P inp tj r f0 val) :
    Halts P inp ((if c then [(Op.JNEImm reg v j).ins] else []) ++ cur) r
      (f0 + (if c then [(Op.JNEImm reg v j).ins] else []).length) val := by
  by_cases hc : c
  · simp only [hc, if_true, List.length_singleton, List.singleton_append]
    intro f hf
    obtain ⟨n, rfl⟩ : ∃ n, f = n + 1 := ⟨f - 1, by omega⟩
    by_cases hv : r.get reg = sext64 v
    · simpa [exec, step, Op.ins, hv] using hpass (Or.inr hv) n (by omega)
    · simpa [exec, step, Op.ins, hv, hj hc] using hfail hc hv n (by omega)
  · simpa [hc] using hpass (Or.inl hc)

theorem halts_access {P : Instructions} {inp : Input} (elide : Bool) (d : DeviceSpec)
    (mode : Mode) (a : Attempt) (nxt tm : Instructions) (r : Regs) (f0 val : Nat)
    (hm : findLabel (matchDst mode) P = some tm)
    (hr : r.Holds a)
    (hhit : accessPass elide d a → ∀ r1 : Regs, r1.Holds a → Halts P inp tm r1 f0 val)
    (hmiss : ¬ accessPass elide d a → ∀ r1 : Regs, r1.Holds a → Halts P inp nxt r1 f0 val) :
    Halts P inp ((if elide = true ∧ d.AccessMask = AllAccess then
        [(Op.JaLabel (matchDst mode)).ins] else accessTest d mode) ++ nxt) r
      (f0 + (if elide = true ∧ d.AccessMask = AllAccess then
        [(Op.JaLabel (matchDst mode)).ins] else accessTest d mode).length) val := by
  obtain ⟨h2, h3, h4, h5⟩ := hr
  by_cases hc : elide = true ∧ d.AccessMask = AllAccess
  · simp only [hc, and_self, if_true, List.length_singleton, List.singleton_append]
    intro f hf
    obtain ⟨n, rfl⟩ : ∃ n, f = n + 1 := ⟨f - 1, by omega⟩
    simpa [exec, step, Op.ins, hm] using
      hhit (Or.inl hc) r ⟨h2, h3, h4, h5⟩ n (by omega)
  · simp only [hc, if_false, accessTest, List.length_cons, List.length_nil, List.cons_append,
      List.nil_append]
    intro f hf
    obtain ⟨n, rfl⟩ : ∃ n, f = n + 3 := ⟨f - 3, by omega⟩
    by_cases hv : (r.r3 % 4294967296) &&& bits32 d.AccessMask = r.r3
    · have hp : accessPass elide d a := Or.inr (by rw [← h3]; exact hv)
      simpa [exec, step, Op.ins, Regs.get, Regs.set, hv, hm] using
        hhit hp ⟨r.r0, (r.r3 % 4294967296) &&& bits32 d.AccessMask, r.r2, r.r3, r.r4, r.r5⟩
          ⟨h2, h3, h4, h5⟩ n (by omega)
    · have hp : ¬ accessPass elide d a := by
        intro h
        rcases h with h | h
        · exact hc h
        · exact hv (by rw [h3]; exact h)
      simpa [exec, step, Op.ins, Regs.get, Regs.set, hv] using
        hmiss hp ⟨r.r0, (r.r3 % 4294967296) &&& bits32 d.AccessMask, r.r2, r.r3, r.r4, r.r5⟩
          ⟨h2, h3, h4, h5⟩ n (by omega)

theorem budget_eq (f0 l1 l2 l3 l4 : Nat) :
    f0 + (l1 + (l2 + (l3 + l4))) = f0 + l4 + l3 + l2 + l1 := by omega

theorem blockBody_length (elide : Bool) (d : DeviceSpec) (mode : Mode) (j : String) :
    (addDeviceWith elide d mode j).length =
      (if d.DeviceType ≠ AnyDevice then [(Op.JNEImm .R2 d.DeviceType j).ins] else []).length +
      ((if d.Major ≠ -1 then [(Op.JNEImm .R4 d.Major j).ins] else []).length +
      ((if d.Minor ≠ -1 then [(Op.JNEImm .R5 d.Minor j).ins] else []).length +
      (if elide = true ∧ d.AccessMask = AllAccess then [(Op.JaLabel (matchDst mode)).ins]
        else accessTest d mode).length)) := by
  rw [addDeviceWith_eq, List.length_modifyHead]
  simp only [blockBody, List.length_append]

/-- One rule block: a failed guard continues at the anchor of `j`, a passed access test
at the anchor of the match label, a failed access test at the instructions after the
block. -/
theorem halts_block {P : Instructions} {inp : Input} (elide : Bool) (d : DeviceSpec)
    (mode : Mode) (j : String) (a : Attempt) (nxt tj tm : Instructions) (r : Regs)
    (f0 val : Nat)
    (hj : findLabel j P = some tj)
    (hm : findLabel (matchDst mode) P = some tm)
    (hr : r.Holds a)
    (hfail : ¬ guardsPass d a → Halts P inp tj r f0 val)
    (hhit : guardsPass d a → accessPass elide d a →
      ∀ r1 : Regs, r1.Holds a → Halts P inp tm r1 f0 val)
    (hmiss : guardsPass d a → ¬ accessPass elide d a →
      ∀ r1 : Regs, r1.Holds a → Halts P inp nxt r1 f0 val) :
    Halts P inp (addDeviceWith elide d mode j ++ nxt) r
      (f0 + (addDeviceWith elide d mode j).length) val := by
  rw [blockBody_length, addDeviceWith_eq]
  apply halts_tag
  unfold blockBody
  have h2 : r.get .R2 = a.type := hr.1
  have h4 : r.get .R4 = a.major := hr.2.2.1
  have h5 : r.get .R5 = a.minor := hr.2.2.2
  have hge : ∀ n : Nat, f0 ≤ f0 + n := fun n => Nat.le_add_right f0 n
  rw [budget_eq]
  simp only [List.append_assoc]
  refine halts_guard (d.DeviceType ≠ AnyDevice) _ _ _ _ tj _ _ _ (fun _ => hj) ?_ ?_
  · intro g1
    refine halts_guard (d.Major ≠ -1) _ _ _ _ tj _ _ _ (fun _ => hj) ?_ ?_
    · intro g2
      refine halts_guard (d.Minor ≠ -1) _ _ _ _ tj _ _ _ (fun _ => hj) ?_ ?_
      · intro g3
        have hg : guardsPass d a := by
          refine ⟨?_, ?_, ?_⟩
          · rcases g1 with g | g
            · exact Or.inl (not_not.mp g)
            · exact Or.inr (h2 ▸ g)
          · rcases g2 with g | g
            · exact Or.inl (not_not.mp g)
            · exact Or.inr (h4 ▸ g)
          · rcases g3 with g | g
            · exact Or.inl (not_not.mp g)
            · exact Or.inr (h5 ▸ g)
        exact halts_access elide d mode a nxt tm r f0 val hm hr (hhit hg) (hmiss hg)
      · intro c hne
        refine (hfail ?_).mono (hge _)
        intro hg
        rcases hg.2.2 with g | g
        · exact c g
        · exact hne (h5 ▸ g)
    · intro c hne
      refine (hfail ?_).mono (Nat.le_trans (hge _) (Nat.le_add_right _ _))
      intro hg
      rcases hg.2.1 with g | g
      · exact c g
      · exact hne (h4 ▸ g)
  · intro c hne
    refine (hfail ?_).mono (Nat.le_trans (hge _) (Nat.le_trans (Nat.le_add_right _ _) (Nat.le_add_right _ _)))
    intro hg
    rcases hg.1 with g | g
    · exact c g
    · exact hne (h2 ▸ g)

/-! ## Labels and their anchors -/

theorem symbols_append (a b : Instructions) : symbols (a ++ b) = symbols a ++ symbols b := by
  simp [symbols, List.filterMap_append]

theorem references_append (a b : Instructions) :
    references (a ++ b) = references a ++ references b := by
  simp [references, List.filterMap_append]

theorem findLabel_append_right (l : String) (a b : Instructions) (h : l ∉ symbols a) :
    findLabel l (a ++ b) = findLabel l b := by
  induction a with
  | nil => rfl
  | cons i rest ih =>
    have hi : i.symbol ≠ some l := fun hs =>
      h (List.mem_filterMap.mpr ⟨i, List.mem_cons_self _ _, hs⟩)
    have hrest : l ∉ symbols rest := by
      intro hm
      obtain ⟨x, hx, hxs⟩ := List.mem_filterMap.mp hm
      exact h (List.mem_filterMap.mpr ⟨x, List.mem_cons_of_mem _ hx, hxs⟩)
    simp [findLabel, hi, ih hrest]

theorem findLabel_suffix {P : Instructions} (hnd : (symbols P).Nodup) (l : String)
    (a b : Instructions) (hP : P = a ++ b) (hl : l ∈ symbols b) :
    findLabel l P = findLabel l b := by
  subst hP
  rw [symbols_append] at hnd
  exact findLabel_append_right l a b (fun ha => List.disjoint_of_nodup_append hnd ha hl)

theorem symbols_modifyHead_tag (d : DeviceSpec) (body : Instructions) (h : body ≠ [])
    (hs : symbols body = []) : symbols (body.modifyHead (tagHead d)) = [d.Label] := by
  cases body with
  | nil => exact absurd rfl h
  | cons i rest =>
    have hrest : symbols rest = [] := by
      cases hsym : i.symbol <;> simp [symbols, List.filterMap_cons, hsym] at hs ⊢
      exact hs
    simp only [List.modifyHead, symbols, List.filterMap_cons, tagHead_symbol]
    simpa [symbols] using hrest

theorem symbols_blockBody (elide : Bool) (d : DeviceSpec) (mode : Mode) (j : String) :
    symbols (blockBody elide d mode j) = [] := by
  unfold blockBody accessTest
  split <;> split <;> split <;> split <;> simp [symbols, Op.ins]

theorem symbols_addDeviceWith (elide : Bool) (d : DeviceSpec) (mode : Mode) (j : String) :
    symbols (addDeviceWith elide d mode j) = [d.Label] := by
  rw [addDeviceWith_eq]
  exact symbols_modifyHead_tag d _ (blockBody_ne_nil elide d mode j)
    (symbols_blockBody elide d mode j)

theorem symbols_addDevicesWith (elide : Bool) (mode : Mode) (L : DeviceList) :
    symbols (addDevicesWith elide mode L) = L.map DeviceSpec.Label := by
  induction L with
  | nil => rfl
  | cons d rest ih =>
    simp only [addDevicesWith, symbols_append, symbols_addDeviceWith, ih, List.map_cons,
      List.singleton_append]

theorem symbols_initProgram : symbols initProgram = [] := by
  simp [symbols, initProgram, Op.ins, Instruction.WithSource]

theorem symbols_terminalWith (swap : Bool) (mode : Mode) :
    symbols (terminalWith swap mode) = ["deny", "allow"] ∨
      symbols (terminalWith swap mode) = ["allow", "deny"] := by
  cases swap <;> cases mode <;>
    simp [terminalWith, finishWith, finishProgram, addAllowRule, addDenyRule, symbols, Op.ins,
      Instruction.WithSymbol]

theorem symbols_compileWith (elide swap : Bool) (mode : Mode) (L : DeviceList) :
    symbols (compileWith elide swap mode L) =
      L.map DeviceSpec.Label ++ symbols (terminalWith swap mode) := by
  rw [compileWith_eq, symbols_append, symbols_append, symbols_initProgram,
    symbols_addDevicesWith, List.nil_append]

/-- The first instruction of a non-empty run of rule blocks anchors the first rule's
label. -/
theorem findLabel_head_rules (elide : Bool) (mode : Mode) (d : DeviceSpec) (rest : DeviceList)
    (tl : Instructions) :
    findLabel d.Label (addDevicesWith elide mode (d :: rest) ++ tl) =
      some (addDevicesWith elide mode (d :: rest) ++ tl) := by
  simp only [addDevicesWith]
  generalize jumpDst mode rest = j
  rw [addDeviceWith_eq]
  have h := blockBody_ne_nil elide d mode j
  cases hb : blockBody elide d mode j with
  | nil => exact absurd hb h
  | cons i body => simp [List.modifyHead, findLabel, tagHead_symbol]

/-! ## The terminal blocks -/

theorem terminal_match (swap : Bool) (mode : Mode) :
    ∃ tm, findLabel (matchDst mode) (terminalWith swap mode) = some tm ∧
      ∀ (P : Instructions) (inp : Input) (r : Regs), Halts P inp tm r 2 (matchVerdict mode) := by
  cases swap <;> cases mode <;>
    simp only [terminalWith, finishWith, finishProgram, addAllowRule, addDenyRule, matchDst,
      matchVerdict, findLabel, Op.ins, Instruction.WithSymbol] <;>
    simp <;>
    · intro P inp r f hf
      obtain ⟨n, rfl⟩ : ∃ n, f = n + 2 := ⟨f - 2, by omega⟩
      simp [exec, step, Regs.get, Regs.set, sext64]

theorem terminal_default (swap : Bool) (mode : Mode) :
    ∃ tj, findLabel (lastDst mode) (terminalWith swap mode) = some tj ∧
      ∀ (P : Instructions) (inp : Input) (r : Regs), Halts P inp tj r 2 (defaultVerdict mode) := by
  cases swap <;> cases mode <;>
    simp only [terminalWith, finishWith, finishProgram, addAllowRule, addDenyRule, lastDst,
      defaultVerdict, findLabel, Op.ins, Instruction.WithSymbol] <;>
    simp <;>
    · intro P inp r f hf
      obtain ⟨n, rfl⟩ : ∃ n, f = n + 2 := ⟨f - 2, by omega⟩
      simp [exec, step, Regs.get, Regs.set, sext64]

theorem terminal_fall (swap : Bool) (mode : Mode) (P : Instructions) (inp : Input) (r : Regs) :
    Halts P inp (terminalWith swap mode) r 2 (fallVerdict swap mode) := by
  cases swap <;> cases mode <;>
    simp only [terminalWith, finishWith, finishProgram, addAllowRule, addDenyRule, fallVerdict,
      defaultVerdict, matchVerdict, Op.ins, Instruction.WithSymbol] <;>
    simp <;>
    · intro f hf
      obtain ⟨n, rfl⟩ : ∃ n, f = n + 2 := ⟨f - 2, by omega⟩
      simp [exec, step, Regs.get, Regs.set, sext64]

theorem matchDst_mem_terminal (swap : Bool) (mode : Mode) :
    matchDst mode ∈ symbols (terminalWith swap mode) := by
  rcases symbols_terminalWith swap mode with h | h <;> rw [h] <;> cases mode <;>
    simp [matchDst]

theorem lastDst_mem_terminal (swap : Bool) (mode : Mode) :
    lastDst mode ∈ symbols (terminalWith swap mode) := by
  rcases symbols_terminalWith swap mode with h | h <;> rw [h] <;> cases mode <;>
    simp [lastDst]

/-! ## Execution of the whole program -/

/-- From any run of rule blocks followed by the terminal blocks, execution returns the
verdict `evalRules` computes, within the length of the blocks plus two steps. -/
theorem halts_rules {P : Instructions} {inp : Input} (elide swap : Bool) (mode : Mode)
    (hnd : (symbols P).Nodup) (a : Attempt) :
    ∀ (L : DeviceList) (pre : Instructions),
      P = pre ++ (addDevicesWith elide mode L ++ terminalWith swap mode) →
      ∀ r : Regs, r.Holds a →
        Halts P inp (addDevicesWith elide mode L ++ terminalWith swap mode) r
          ((addDevicesWith elide mode L).length + 2) (evalRules elide swap mode L a) := by
  intro L
  induction L with
  | nil =>
    intro pre _ r _
    simpa [addDevicesWith, evalRules] using terminal_fall swap mode P inp r
  | cons d rest ih =>
    intro pre hP r hr
    have hP1 : P = (pre ++ addDeviceWith elide d mode (jumpDst mode rest)) ++
        (addDevicesWith elide mode rest ++ terminalWith swap mode) := by
      rw [hP]; simp [addDevicesWith]
    have hP2 : P = (pre ++ addDevicesWith elide mode (d :: rest)) ++ terminalWith swap mode := by
      rw [hP]; simp
    have ih1 := ih _ hP1
    obtain ⟨tm, htm, hHm⟩ := terminal_match swap mode
    have hm : findLabel (matchDst mode) P = some tm := by
      rw [findLabel_suffix hnd _ _ _ hP2 (matchDst_mem_terminal swap mode)]
      exact htm
    have hlen : (addDevicesWith elide mode (d :: rest)).length + 2 =
        ((addDevicesWith elide mode rest).length + 2) +
          (addDeviceWith elide d mode (jumpDst mode rest)).length := by
      simp only [addDevicesWith, List.length_append]
      omega
    have hcur : addDevicesWith elide mode (d :: rest) ++ terminalWith swap mode =
        addDeviceWith elide d mode (jumpDst mode rest) ++
          (addDevicesWith elide mode rest ++ terminalWith swap mode) := by
      simp [addDevicesWith]
    rw [hlen, hcur]
    cases rest with
    | nil =>
      obtain ⟨tj, htj, hHj⟩ := terminal_default swap mode
      have hj : findLabel (jumpDst mode []) P = some tj := by
        show findLabel (lastDst mode) P = some tj
        rw [findLabel_suffix hnd _ _ _ hP2 (lastDst_mem_terminal swap mode)]
        exact htj
      refine halts_block elide d mode _ a _ tj tm r _ _ hj hm hr ?_ ?_ ?_
      · intro hg
        simpa [evalRules, hg, addDevicesWith] using hHj P inp r
      · intro hg ha r1 _
        simpa [evalRules, hg, ha, addDevicesWith] using hHm P inp r1
      · intro hg ha r1 hr1
        simpa [evalRules, hg, ha] using ih1 r1 hr1
    | cons d1 rest1 =>
      have hj : findLabel (jumpDst mode (d1 :: rest1)) P =
          some (addDevicesWith elide mode (d1 :: rest1) ++ terminalWith swap mode) := by
        have hmem : d1.Label ∈ symbols (addDevicesWith elide mode (d1 :: rest1) ++
            terminalWith swap mode) := by
          rw [symbols_append, symbols_addDevicesWith]
          simp
        rw [jumpDst, findLabel_suffix hnd _ _ _ hP1 hmem]
        exact findLabel_head_rules elide mode d1 rest1 _
      refine halts_block elide d mode _ a _ _ tm r _ _ hj hm hr ?_ ?_ ?_
      · intro hg
        simpa [evalRules, hg] using ih1 r hr
      · intro hg ha r1 _
        refine Halts.mono ?_ (Nat.le_add_left _ _)
        simpa [evalRules, hg, ha] using hHm P inp r1
      · intro hg ha r1 hr1
        simpa [evalRules, hg, ha] using ih1 r1 hr1

/-- The six instructions of the prologue leave the decoded fields in `R2`..`R5`. -/
theorem exec_prologue (P : Instructions) (inp : Input) (rest : Instructions) (f : Nat) :
    ∃ r : Regs, r.Holds (decode inp) ∧
      exec P inp (f + 6) (initProgram ++ rest) initRegs = exec P inp f rest r := by
  refine ⟨⟨0, 0, (inp.w0 % 4294967296) &&& 65535, (inp.w0 % 4294967296) >>> 16,
    inp.w1 % 4294967296, inp.w2 % 4294967296⟩, ⟨rfl, rfl, rfl, rfl⟩, ?_⟩
  simp [initProgram, exec, step, Op.ins, Instruction.WithSource, Regs.get, Regs.set, initRegs,
    Input.load, U32Size, sext64]

/-- A linked output of the compiler returns the verdict `evalRules` computes on the
decoded input. -/
theorem run_compileWith (elide swap : Bool) (mode : Mode) (L : DeviceList) (inp : Input)
    (hl : linkable (compileWith elide swap mode L) = true) :
    run (compileWith elide swap mode L) inp =
      some (evalRules elide swap mode L (decode inp)) := by
  have hnd : (symbols (compileWith elide swap mode L)).Nodup := by
    simp only [linkable, Bool.and_eq_true, decide_eq_true_eq] at hl
    exact hl.1
  have hP := compileWith_eq elide swap mode L
  have hlen : (compileWith elide swap mode L).length =
      ((addDevicesWith elide mode L).length + 4) + 6 := by
    rw [hP]
    have : (terminalWith swap mode).length = 4 := by
      cases swap <;> cases mode <;> rfl
    simp only [List.length_append, this]
    simp [initProgram]
    omega
  obtain ⟨r, hr, hex⟩ := exec_prologue (compileWith elide swap mode L) inp
    (addDevicesWith elide mode L ++ terminalWith swap mode) ((addDevicesWith elide mode L).length + 4)
  unfold run
  rw [if_pos hl, hlen]
  conv_lhs => arg 4; rw [hP]
  rw [hex]
  exact halts_rules elide swap mode hnd (decode inp) L initProgram hP r hr _ (by omega)

/-! ## When the output links -/

theorem colon_mem_Label (d : DeviceSpec) : ':' ∈ d.Label.data := by
  simp [DeviceSpec.Label, String.data_append]

theorem Label_ne_allow (d : DeviceSpec) : d.Label ≠ "allow" := by
  intro h
  have hc := colon_mem_Label d
  rw [h] at hc
  revert hc
  decide

theorem Label_ne_deny (d : DeviceSpec) : d.Label ≠ "deny" := by
  intro h
  have hc := colon_mem_Label d
  rw [h] at hc
  revert hc
  decide

theorem mem_symbols_terminalWith (swap : Bool) (mode : Mode) (l : String) :
    l ∈ symbols (terminalWith swap mode) ↔ l = "allow" ∨ l = "deny" := by
  rcases symbols_terminalWith swap mode with h | h <;> rw [h] <;> simp [or_comm]

theorem nodup_symbols_terminalWith (swap : Bool) (mode : Mode) :
    (symbols (terminalWith swap mode)).Nodup := by
  rcases symbols_terminalWith swap mode with h | h <;> rw [h] <;> decide

theorem nodup_symbols_compileWith (elide swap : Bool) (mode : Mode) (L : DeviceList) :
    (symbols (compileWith elide swap mode L)).Nodup ↔ (L.map DeviceSpec.Label).Nodup := by
  rw [symbols_compileWith, List.nodup_append]
  constructor
  · intro h
    exact h.1
  · intro h
    refine ⟨h, nodup_symbols_terminalWith swap mode, ?_⟩
    intro l hl ht
    obtain ⟨d, _, rfl⟩ := List.mem_map.mp hl
    rcases (mem_symbols_terminalWith swap mode _).mp ht with h1 | h1
    · exact Label_ne_allow d h1
    · exact Label_ne_deny d h1

theorem references_modifyHead_tag (d : DeviceSpec) (body : Instructions) :
    references (body.modifyHead (tagHead d)) = references body := by
  cases body with
  | nil => rfl
  | cons i rest => simp [List.modifyHead, references, List.filterMap_cons, tagHead_op]

theorem mem_references_addDeviceWith (elide : Bool) (d : DeviceSpec) (mode : Mode) (j l : String)
    (h : l ∈ references (addDeviceWith elide d mode j)) : l = j ∨ l = matchDst mode := by
  rw [addDeviceWith_eq, references_modifyHead_tag] at h
  revert h
  unfold blockBody accessTest
  split <;> split <;> split <;> split <;>
    simp [references, Op.ins, Op.reference, List.filterMap_cons] <;>
    tauto

theorem jumpDst_mem (mode : Mode) (rest : DeviceList) :
    jumpDst mode rest ∈ rest.map DeviceSpec.Label ∨ jumpDst mode rest = lastDst mode := by
  cases rest with
  | nil => exact Or.inr rfl
  | cons d _ => exact Or.inl (by simp [jumpDst])

theorem mem_references_addDevicesWith (elide : Bool) (mode : Mode) (L : DeviceList) (l : String)
    (h : l ∈ references (addDevicesWith elide mode L)) :
    l ∈ L.map DeviceSpec.Label ∨ l = lastDst mode ∨ l = matchDst mode := by
  induction L with
  | nil => simp [addDevicesWith, references] at h
  | cons d rest ih =>
    rw [addDevicesWith, references_append, List.mem_append] at h
    rcases h with h | h
    · rcases mem_references_addDeviceWith elide d mode _ l h with h1 | h1
      · rcases jumpDst_mem mode rest with h2 | h2
        · exact Or.inl (by rw [h1]; exact List.mem_cons_of_mem _ h2)
        · exact Or.inr (Or.inl (by rw [h1, h2]))
      · exact Or.inr (Or.inr h1)
    · rcases ih h with h1 | h1
      · exact Or.inl (List.mem_cons_of_mem _ h1)
      · exact Or.inr h1

theorem references_initProgram : references initProgram = [] := by
  simp [references, initProgram, Op.ins, Instruction.WithSource, Op.reference]

theorem references_terminalWith (swap : Bool) (mode : Mode) :
    references (terminalWith swap mode) = [] := by
  cases swap <;> cases mode <;> rfl

theorem references_subset_symbols (elide swap : Bool) (mode : Mode) (L : DeviceList) (l : String)
    (h : l ∈ references (compileWith elide swap mode L)) :
    l ∈ symbols (compileWith elide swap mode L) := by
  rw [compileWith_eq, references_append, references_append, references_initProgram,
    references_terminalWith, List.nil_append, List.append_nil] at h
  rw [symbols_compileWith, List.mem_append]
  rcases mem_references_addDevicesWith elide mode L l h with h1 | h1 | h1
  · exact Or.inl h1
  · exact Or.inr (h1 ▸ lastDst_mem_terminal swap mode)
  · exact Or.inr (h1 ▸ matchDst_mem_terminal swap mode)

/-- The output of the compiler links exactly when the rule labels are pairwise
distinct. -/
theorem linkable_compileWith (elide swap : Bool) (mode : Mode) (L : DeviceList) :
    linkable (compileWith elide swap mode L) = true ↔ (L.map DeviceSpec.Label).Nodup := by
  simp only [linkable, Bool.and_eq_true, decide_eq_true_eq, List.all_eq_true]
  rw [nodup_symbols_compileWith]
  constructor
  · intro h
    exact h.1
  · intro h
    exact ⟨h, fun l hl => references_subset_symbols elide swap mode L l hl⟩

/-! ## From the registers back to the attempt -/

theorem decode_pack (a : Attempt) (ha : a.valid) : decode (pack a) = a := by
  obtain ⟨h1, h2, h3, h4⟩ := ha
  have e1 : ((a.type + 65536 * a.requested) % 4294967296) &&& 65535 = a.type := by
    have := Nat.and_pow_two_sub_one_eq_mod ((a.type + 65536 * a.requested) % 4294967296) 16
    norm_num at this
    rw [this]
    omega
  have e2 : ((a.type + 65536 * a.requested) % 4294967296) >>> 16 = a.requested := by
    rw [Nat.shiftRight_eq_div_pow]
    norm_num
    omega
  have e3 : a.major % 4294967296 = a.major := Nat.mod_eq_of_lt h3
  have e4 : a.minor % 4294967296 = a.minor := Nat.mod_eq_of_lt h4
  cases a
  simp only [decode, pack] at *
  rw [e1, e2, e3, e4]

theorem sext64_eq_of_cast (x : Int) (n : Nat) (h : x = (n : Int)) (hn : n < 4294967296) :
    n = sext64 x := by
  unfold sext64
  omega

theorem cast_eq_of_sext64 (x : Int) (n : Nat) (h : n = sext64 x) (hn : n < 4294967296)
    (hlo : -2147483648 ≤ x) (hhi : x < 2147483648) : x = (n : Int) := by
  unfold sext64 at h
  omega

theorem guardsPass_of_Matches (d : DeviceSpec) (a : Attempt) (ha : a.valid)
    (h : d.Matches a) : guardsPass d a := by
  obtain ⟨h1, _, h3, h4⟩ := ha
  obtain ⟨m1, m2, m3, _⟩ := h
  refine ⟨?_, ?_, ?_⟩
  · exact m1.imp id (fun e => sext64_eq_of_cast _ _ e (by omega))
  · exact m2.imp id (fun e => sext64_eq_of_cast _ _ e h3)
  · exact m3.imp id (fun e => sext64_eq_of_cast _ _ e h4)

theorem accessPass_of_Matches (elide : Bool) (d : DeviceSpec) (a : Attempt) (ha : a.valid)
    (h : d.Matches a) : accessPass elide d a := by
  obtain ⟨_, h2, _, _⟩ := ha
  refine Or.inr ?_
  rw [Nat.mod_eq_of_lt (by omega)]
  exact h.2.2.2

theorem and_seven (q : Nat) (hq : q < 8) : q &&& 7 = q := by
  have := Nat.and_pow_two_sub_one_eq_mod q 3
  norm_num at this
  rw [this]
  omega

theorem Matches_of_pass (d : DeviceSpec) (a : Attempt) (ha : a.valid) (hd : d.InRange)
    (hq : a.requested < 8) (hg : guardsPass d a) (hp : accessPass true d a) : d.Matches a := by
  obtain ⟨h1, h2, h3, h4⟩ := ha
  obtain ⟨⟨t1, t2⟩, _, ⟨j1, j2⟩, ⟨n1, n2⟩⟩ := hd
  obtain ⟨g1, g2, g3⟩ := hg
  refine ⟨?_, ?_, ?_, ?_⟩
  · exact g1.imp id (fun e => cast_eq_of_sext64 _ _ e (by omega) t1 t2)
  · exact g2.imp id (fun e => cast_eq_of_sext64 _ _ e h3 j1 j2)
  · exact g3.imp id (fun e => cast_eq_of_sext64 _ _ e h4 n1 n2)
  · rcases hp with ⟨_, hall⟩ | hp
    · rw [hall]
      exact and_seven _ hq
    · rw [Nat.mod_eq_of_lt (by omega)] at hp
      exact hp

/-! ## The verdict of the rule blocks -/

theorem evalRules_cons (elide swap : Bool) (mode : Mode) (a : Attempt) (d : DeviceSpec)
    (rest : DeviceList) :
    evalRules elide swap mode (d :: rest) a =
      if guardsPass d a then
        if accessPass elide d a then matchVerdict mode else evalRules elide swap mode rest a
      else
        match rest with
        | [] => defaultVerdict mode
        | _ :: _ => evalRules elide swap mode rest a := by
  cases rest <;> rfl

theorem evalRules_hit (elide swap : Bool) (mode : Mode) (a : Attempt) (L : DeviceList)
    (h : ∃ d ∈ L, guardsPass d a ∧ accessPass elide d a) :
    evalRules elide swap mode L a = matchVerdict mode := by
  induction L with
  | nil => simp at h
  | cons d rest ih =>
    rw [evalRules_cons]
    by_cases hd : guardsPass d a ∧ accessPass elide d a
    · rw [if_pos hd.1, if_pos hd.2]
    · have hrest : ∃ d ∈ rest, guardsPass d a ∧ accessPass elide d a := by
        obtain ⟨x, hx, hxp⟩ := h
        rcases List.mem_cons.mp hx with e | e
        · exact absurd (e ▸ hxp) hd
        · exact ⟨x, e, hxp⟩
      cases rest with
      | nil => simp at hrest
      | cons d1 rest1 =>
        by_cases hg : guardsPass d a
        · have hna : ¬ accessPass elide d a := fun h1 => hd ⟨hg, h1⟩
          rw [if_pos hg, if_neg hna]
          exact ih hrest
        · rw [if_neg hg]
          exact ih hrest

theorem evalRules_miss (elide : Bool) (mode : Mode) (a : Attempt) (L : DeviceList)
    (h : ∀ d ∈ L, ¬ (guardsPass d a ∧ accessPass elide d a)) :
    evalRules elide false mode L a = defaultVerdict mode := by
  induction L with
  | nil => simp [evalRules, fallVerdict]
  | cons d rest ih =>
    rw [evalRules_cons]
    have hd := h d (List.mem_cons_self _ _)
    have ih1 := ih (fun x hx => h x (List.mem_cons_of_mem _ hx))
    by_cases hg : guardsPass d a
    · have hna : ¬ accessPass elide d a := fun h1 => hd ⟨hg, h1⟩
      rw [if_pos hg, if_neg hna]
      exact ih1
    · rw [if_neg hg]
      cases rest with
      | nil => rfl
      | cons d1 rest1 => exact ih1

/-- The program of `buildProgram` on the packed input of a valid attempt. -/
theorem run_buildProgram (mode : Mode) (L : DeviceList) (a : Attempt)
    (hL : (L.map DeviceSpec.Label).Nodup) (ha : a.valid) :
    run (buildProgram mode L) (pack a) = some (evalRules true false mode L a) := by
  rw [buildProgram_eq, run_compileWith true false mode L (pack a)
    ((linkable_compileWith true false mode L).mpr hL), decode_pack a ha]

/-! ## Anchors -/

theorem anchorCount_eq_count (l : String) (P : Instructions) :
    anchorCount l P = (symbols P).count l := by
  induction P with
  | nil => rfl
  | cons i rest ih =>
    unfold anchorCount at ih ⊢
    cases hs : i.symbol with
    | none => simp [symbols, List.filter_cons, List.filterMap_cons, hs] at ih ⊢; exact ih
    | some s =>
      by_cases hsl : s = l
      · simp [symbols, List.filter_cons, List.filterMap_cons, hs, hsl] at ih ⊢; exact ih
      · simp [symbols, List.filter_cons, List.filterMap_cons, hs, hsl, List.count_cons] at ih ⊢
        exact ih

theorem mem_references_of_mem (P : Instructions) (ins : Instruction) (l : String)
    (hins : ins ∈ P) (hl : ins.op.reference = some l) : l ∈ references P :=
  List.mem_filterMap.mpr ⟨ins, hins, hl⟩

/-! ## The order of the terminal blocks -/

theorem fallsThrough_nil (a : Attempt) : FallsThrough [] a :=
  ⟨fun _ h => absurd h (List.not_mem_nil _), fun _ h => by simp at h⟩

theorem fallsThrough_cons_cons (d d1 : DeviceSpec) (rest : DeviceList) (a : Attempt)
    (hd : ¬ (guardsPass d a ∧ accessPass true d a)) :
    FallsThrough (d :: d1 :: rest) a ↔ FallsThrough (d1 :: rest) a := by
  unfold FallsThrough
  rw [List.getLast?_cons_cons]
  constructor
  · intro h
    exact ⟨fun x hx => h.1 x (List.mem_cons_of_mem _ hx), h.2⟩
  · intro h
    refine ⟨fun x hx => ?_, h.2⟩
    rcases List.mem_cons.mp hx with e | e
    · exact e ▸ hd
    · exact h.1 x e

theorem fallsThrough_singleton (d : DeviceSpec) (a : Attempt) :
    FallsThrough [d] a ↔ guardsPass d a ∧ ¬ accessPass true d a := by
  unfold FallsThrough
  simp only [List.mem_singleton, forall_eq, List.getLast?_singleton, Option.mem_def,
    Option.some.injEq, forall_eq']
  tauto

theorem evalRules_swapped (mode : Mode) (a : Attempt) (L : DeviceList) :
    (FallsThrough L a → evalRules true true mode L a = matchVerdict mode) ∧
    (¬ FallsThrough L a → evalRules true true mode L a = evalRules true false mode L a) := by
  induction L with
  | nil => exact ⟨fun _ => rfl, fun h => absurd (fallsThrough_nil a) h⟩
  | cons d rest ih =>
    rw [evalRules_cons, evalRules_cons]
    by_cases hg : guardsPass d a
    · by_cases hp : accessPass true d a
      · rw [if_pos hg, if_pos hp]
        exact ⟨fun _ => rfl, fun _ => by rw [if_pos hg, if_pos hp]⟩
      · rw [if_pos hg, if_neg hp, if_pos hg, if_neg hp]
        cases rest with
        | nil =>
          have hft : FallsThrough [d] a := (fallsThrough_singleton d a).mpr ⟨hg, hp⟩
          exact ⟨fun _ => rfl, fun h => absurd hft h⟩
        | cons d1 rest1 =>
          rw [fallsThrough_cons_cons d d1 rest1 a (fun h => hp h.2)]
          exact ih
    · rw [if_neg hg, if_neg hg]
      cases rest with
      | nil =>
        refine ⟨fun h => absurd ((fallsThrough_singleton d a).mp h).1 hg, fun _ => rfl⟩
      | cons d1 rest1 =>
        rw [fallsThrough_cons_cons d d1 rest1 a (fun h => hg h.1)]
        exact ih

theorem fallsThrough_miss (mode : Mode) (a : Attempt) (L : DeviceList)
    (h : FallsThrough L a) : evalRules true false mode L a = defaultVerdict mode :=
  evalRules_miss true mode a L h.1

theorem run_buildProgramSwapped (mode : Mode) (L : DeviceList) (a : Attempt)
    (hL : (L.map DeviceSpec.Label).Nodup) (ha : a.valid) :
    run (buildProgramSwapped mode L) (pack a) = some (evalRules true true mode L a) := by
  rw [buildProgramSwapped, run_compileWith true true mode L (pack a)
    ((linkable_compileWith true true mode L).mpr hL), decode_pack a ha]

/-! ## The access test -/

theorem bits32_AllAccess : bits32 AllAccess = 7 := by decide

theorem accessPass_elide_iff (d : DeviceSpec) (a : Attempt) (ha : a.valid)
    (hq : a.requested < 8) : accessPass true d a ↔ accessPass false d a := by
  obtain ⟨_, h2, _, _⟩ := ha
  unfold accessPass
  constructor
  · intro h
    rcases h with ⟨_, hall⟩ | h
    · refine Or.inr ?_
      rw [hall, bits32_AllAccess, Nat.mod_eq_of_lt (by omega)]
      exact and_seven _ hq
    · exact Or.inr h
  · intro h
    rcases h with ⟨hf, _⟩ | h
    · exact absurd hf (by decide)
    · exact Or.inr h

theorem evalRules_elide (swap : Bool) (mode : Mode) (a : Attempt) (ha : a.valid)
    (hq : a.requested < 8) (L : DeviceList) :
    evalRules true swap mode L a = evalRules false swap mode L a := by
  induction L with
  | nil => rfl
  | cons d rest ih =>
    rw [evalRules_cons, evalRules_cons, ih]
    by_cases hg : guardsPass d a
    · by_cases hp : accessPass true d a
      · rw [if_pos hg, if_pos hp, if_pos hg, if_pos ((accessPass_elide_iff d a ha hq).mp hp)]
      · rw [if_pos hg, if_neg hp, if_pos hg,
          if_neg (fun h => hp ((accessPass_elide_iff d a ha hq).mpr h))]
    · rw [if_neg hg, if_neg hg]

theorem evalRules_congr_hit (elide : Bool) (mode : Mode) (a : Attempt) (L1 L2 : DeviceList)
    (h : (∃ d ∈ L1, guardsPass d a ∧ accessPass elide d a) ↔
      (∃ d ∈ L2, guardsPass d a ∧ accessPass elide d a)) :
    evalRules elide false mode L1 a = evalRules elide false mode L2 a := by
  by_cases h1 : ∃ d ∈ L1, guardsPass d a ∧ accessPass elide d a
  · rw [evalRules_hit elide false mode a L1 h1, evalRules_hit elide false mode a L2 (h.mp h1)]
  · have h2 : ¬ ∃ d ∈ L2, guardsPass d a ∧ accessPass elide d a := fun h3 => h1 (h.mpr h3)
    rw [evalRules_miss elide mode a L1 (fun d hd hp => h1 ⟨d, hd, hp⟩),
      evalRules_miss elide mode a L2 (fun d hd hp => h2 ⟨d, hd, hp⟩)]

theorem not_accessPass_zero (z : DeviceSpec) (a : Attempt) (hz : z.AccessMask = 0)
    (hq : a.requested ≠ 0) : ¬ accessPass true z a := by
  intro h
  rcases h with ⟨_, hall⟩ | h
  · rw [hz] at hall
    exact absurd hall (by decide)
  · rw [hz] at h
    have hb : bits32 0 = 0 := by decide
    rw [hb, Nat.and_zero] at h
    exact hq h.symm

theorem run_buildProgramGeneral (mode : Mode) (L : DeviceList) (a : Attempt)
    (hL : (L.map DeviceSpec.Label).Nodup) (ha : a.valid) :
    run (buildProgramGeneral mode L) (pack a) = some (evalRules false false mode L a) := by
  rw [buildProgramGeneral, run_compileWith false false mode L (pack a)
    ((linkable_compileWith false false mode L).mpr hL), decode_pack a ha]

theorem run_of_not_nodup (elide swap : Bool) (mode : Mode) (L : DeviceList) (inp : Input)
    (hL : ¬ (L.map DeviceSpec.Label).Nodup) : run (compileWith elide swap mode L) inp = none := by
  have hlink : linkable (compileWith elide swap mode L) = false := by
    rw [← Bool.not_eq_true, linkable_compileWith]
    exact hL
  unfold run
  rw [hlink]
  rfl

/-! ## Labels identify the rule tuple -/

theorem digitChar_isDigit (k : Nat) (hk : k < 10) : IsDigitChar (Nat.digitChar k) := by
  unfold IsDigitChar
  interval_cases k <;> decide

theorem digitChar_value (k : Nat) (hk : k < 10) : (Nat.digitChar k).toNat - 48 = k := by
  interval_cases k <;> decide

theorem toDigitsCore_isDigit (fuel : Nat) :
    ∀ (n : Nat) (ds : List Char), (∀ c ∈ ds, IsDigitChar c) →
      ∀ c ∈ Nat.toDigitsCore 10 fuel n ds, IsDigitChar c := by
  induction fuel with
  | zero => intro n ds hds c hc; exact hds c (by simpa [Nat.toDigitsCore] using hc)
  | succ fuel ih =>
    intro n ds hds c hc
    have hd : ∀ x ∈ Nat.digitChar (n % 10) :: ds, IsDigitChar x := by
      intro x hx
      rcases List.mem_cons.mp hx with e | e
      · exact e ▸ digitChar_isDigit _ (Nat.mod_lt _ (by decide))
      · exact hds x e
    simp only [Nat.toDigitsCore] at hc
    split at hc
    · exact hd c hc
    · exact ih _ _ hd c hc

theorem toDigitsCore_value (fuel : Nat) :
    ∀ (n : Nat) (ds : List Char), n < fuel →
      ofDigitChars 0 (Nat.toDigitsCore 10 fuel n ds) = ofDigitChars n ds := by
  induction fuel with
  | zero => intro n ds h; omega
  | succ fuel ih =>
    intro n ds hn
    have hv := digitChar_value (n % 10) (Nat.mod_lt _ (by decide))
    simp only [Nat.toDigitsCore]
    split
    · rename_i h0
      simp only [ofDigitChars, List.foldl_cons, hv]
      congr 1
      omega
    · rename_i h0
      rw [ih (n / 10) _ (by omega)]
      simp only [ofDigitChars, List.foldl_cons, hv]
      congr 1
      omega

theorem repr_data (n : Nat) : (Nat.repr n).data = Nat.toDigits 10 n := rfl

theorem repr_isDigit (n : Nat) : ∀ c ∈ (Nat.repr n).data, IsDigitChar c := by
  rw [repr_data]
  exact toDigitsCore_isDigit _ _ _ (fun _ h => absurd h (List.not_mem_nil _))

theorem repr_value (n : Nat) : ofDigitChars 0 (Nat.repr n).data = n := by
  rw [repr_data]
  exact toDigitsCore_value _ _ _ (Nat.lt_succ_self n)

theorem repr_injective (m n : Nat) (h : Nat.repr m = Nat.repr n) : m = n := by
  rw [← repr_value m, ← repr_value n, h]

theorem numberString_of_nonneg (n : Nat) :
    DeviceNumber.String (n : Int) = Nat.repr n := by
  have hne : ¬ ((n : Int) = -1) := by omega
  unfold DeviceNumber.String
  rw [if_neg hne]
  rfl

theorem numberString_no_colon (x : Int) (hx : x = -1 ∨ 0 ≤ x) :
    ':' ∉ (DeviceNumber.String x).data := by
  rcases hx with rfl | hx
  · decide
  · obtain ⟨n, rfl⟩ := Int.eq_ofNat_of_zero_le hx
    rw [numberString_of_nonneg]
    intro hc
    exact absurd (repr_isDigit n _ hc) (by decide)

theorem numberString_injective (x y : Int) (hx : x = -1 ∨ 0 ≤ x) (hy : y = -1 ∨ 0 ≤ y)
    (h : DeviceNumber.String x = DeviceNumber.String y) : x = y := by
  have hstar : ∀ n : Nat, Nat.repr n ≠ "*" := by
    intro n hn
    have hc : '*' ∈ (Nat.repr n).data := by rw [hn]; decide
    exact absurd (repr_isDigit n _ hc) (by decide)
  rcases hx with rfl | hx <;> rcases hy with rfl | hy
  · rfl
  · obtain ⟨n, rfl⟩ := Int.eq_ofNat_of_zero_le hy
    rw [numberString_of_nonneg] at h
    exact absurd h.symm (hstar n)
  · obtain ⟨m, rfl⟩ := Int.eq_ofNat_of_zero_le hx
    rw [numberString_of_nonneg] at h
    exact absurd h (hstar m)
  · obtain ⟨m, rfl⟩ := Int.eq_ofNat_of_zero_le hx
    obtain ⟨n, rfl⟩ := Int.eq_ofNat_of_zero_le hy
    rw [numberString_of_nonneg, numberString_of_nonneg] at h
    rw [repr_injective m n h]

theorem append_colon_inj (x : List Char) :
    ∀ (x1 y y1 : List Char), ':' ∉ x → ':' ∉ x1 → x ++ ':' :: y = x1 ++ ':' :: y1 →
      x = x1 ∧ y = y1 := by
  induction x with
  | nil =>
    intro x1 y y1 _ hx1 h
    cases x1 with
    | nil => exact ⟨rfl, by simpa using h⟩
    | cons c t =>
      simp only [List.nil_append, List.cons_append, List.cons.injEq] at h
      exact absurd (h.1 ▸ List.mem_cons_self _ _) hx1
  | cons a s ih =>
    intro x1 y y1 hx hx1 h
    cases x1 with
    | nil =>
      simp only [List.nil_append, List.cons_append, List.cons.injEq] at h
      exact absurd (h.1 ▸ List.mem_cons_self _ _) hx
    | cons c t =>
      simp only [List.cons_append, List.cons.injEq] at h
      obtain ⟨e1, e2⟩ := ih t y y1 (fun hm => hx (List.mem_cons_of_mem _ hm))
        (fun hm => hx1 (List.mem_cons_of_mem _ hm)) h.2
      exact ⟨by rw [h.1, e1], e2⟩

theorem typeString_no_colon (t : Int) : ':' ∉ (DeviceType.String t).data := by
  unfold DeviceType.String
  split
  · decide
  · split
    · decide
    · split <;> decide

theorem typeString_injective (s t : Int)
    (hs : s = AnyDevice ∨ s = BlockDevice ∨ s = CharDevice)
    (ht : t = AnyDevice ∨ t = BlockDevice ∨ t = CharDevice)
    (h : DeviceType.String s = DeviceType.String t) : s = t := by
  rcases hs with rfl | rfl | rfl <;> rcases ht with rfl | rfl | rfl <;>
    first
    | rfl
    | exact absurd h (by decide)

theorem maskString_injective (s t : Int) (hs : 0 ≤ s ∧ s ≤ 7) (ht : 0 ≤ t ∧ t ≤ 7)
    (h : AccessMask.String s = AccessMask.String t) : s = t := by
  have hs1 : s = 0 ∨ s = 1 ∨ s = 2 ∨ s = 3 ∨ s = 4 ∨ s = 5 ∨ s = 6 ∨ s = 7 := by omega
  have ht1 : t = 0 ∨ t = 1 ∨ t = 2 ∨ t = 3 ∨ t = 4 ∨ t = 5 ∨ t = 6 ∨ t = 7 := by omega
  rcases hs1 with rfl | rfl | rfl | rfl | rfl | rfl | rfl | rfl <;>
    rcases ht1 with rfl | rfl | rfl | rfl | rfl | rfl | rfl | rfl <;>
    first
    | rfl
    | exact absurd h (by decide)

theorem Label_data (d : DeviceSpec) :
    d.Label.data = (DeviceType.String d.DeviceType).data ++ ':' ::
      ((DeviceNumber.String d.Major).data ++ ':' ::
        ((DeviceNumber.String d.Minor).data ++ ':' :: (AccessMask.String d.AccessMask).data)) := by
  simp [DeviceSpec.Label, String.data_append]

/-! ## The format of a label -/

theorem and_two_pow_eq_iff (x i : Nat) : x &&& 2 ^ i = 2 ^ i ↔ x.testBit i = true := by
  constructor
  · intro h
    have h1 : (x &&& 2 ^ i).testBit i = (2 ^ i).testBit i := by rw [h]
    rw [Nat.testBit_and, Nat.testBit_two_pow_self, Bool.and_true] at h1
    exact h1
  · intro h
    apply Nat.eq_of_testBit_eq
    intro j
    rw [Nat.testBit_and, Nat.testBit_two_pow]
    by_cases hj : i = j
    · subst hj
      simp [h]
    · simp [hj]

theorem hasBits_Read (am : Int) : hasBits am ReadAccess = (bits32 am).testBit 1 := by
  have h := and_two_pow_eq_iff (bits32 am) 1
  have hb : bits32 ReadAccess = 2 ^ 1 := by decide
  unfold hasBits
  rw [hb]
  cases ht : (bits32 am).testBit 1
  · simpa [ht] using h
  · simpa [ht] using h

theorem hasBits_Write (am : Int) : hasBits am WriteAccess = (bits32 am).testBit 2 := by
  have h := and_two_pow_eq_iff (bits32 am) 2
  have hb : bits32 WriteAccess = 2 ^ 2 := by decide
  unfold hasBits
  rw [hb]
  cases ht : (bits32 am).testBit 2
  · simpa [ht] using h
  · simpa [ht] using h

theorem hasBits_Mknod (am : Int) : hasBits am MknodAccess = (bits32 am).testBit 0 := by
  have h := and_two_pow_eq_iff (bits32 am) 0
  have hb : bits32 MknodAccess = 2 ^ 0 := by decide
  unfold hasBits
  rw [hb]
  cases ht : (bits32 am).testBit 0
  · simpa [ht] using h
  · simpa [ht] using h

theorem fmtInt_eq_toString (x : Int) : fmtInt x = toString x := by
  cases x <;> rfl

theorem maskString_data (am : Int) :
    (AccessMask.String am).data =
      [if (bits32 am).testBit 1 then 'r' else '-',
       if (bits32 am).testBit 2 then 'w' else '-',
       if (bits32 am).testBit 0 then 'm' else '-'] := by
  unfold AccessMask.String
  rw [hasBits_Read, hasBits_Write, hasBits_Mknod]
  cases (bits32 am).testBit 1 <;> cases (bits32 am).testBit 2 <;>
    cases (bits32 am).testBit 0 <;> rfl

/-! ## Parsing a device string -/

theorem isDigit_ne_sign (c : Char) (h : IsDigitChar c) : c ≠ '-' ∧ c ≠ '+' ∧ c ≠ '*' := by
  refine ⟨?_, ?_, ?_⟩ <;>
  · intro hc
    rw [hc] at h
    exact absurd h (by decide)

theorem all_isDigit_iff (ds : List Char) :
    ds.all (fun c => decide (IsDigitChar c)) = true ↔ ∀ c ∈ ds, IsDigitChar c := by
  simp [List.all_eq_true]

theorem atoiDigits_eq_some_iff (neg : Bool) (ds : List Char) (n : Int) :
    atoiDigits neg ds = some n ↔
      ds ≠ [] ∧ (∀ c ∈ ds, IsDigitChar c) ∧
      n = (if neg = true then -(ofDigitChars 0 ds : Int) else (ofDigitChars 0 ds : Int)) ∧
      -9223372036854775808 ≤ n ∧ n ≤ 9223372036854775807 := by
  unfold atoiDigits
  by_cases hne : ds = []
  · simp [hne]
  · by_cases hall : ds.all (fun c => decide (IsDigitChar c)) = true
    · have hd := (all_isDigit_iff ds).mp hall
      rw [if_neg hne, if_pos hall]
      simp only
      generalize (if neg = true then -(ofDigitChars 0 ds : Int) else (ofDigitChars 0 ds : Int)) = v
      by_cases hr : -9223372036854775808 ≤ v ∧ v ≤ 9223372036854775807
      · rw [if_pos hr]
        constructor
        · intro h
          have hn := Option.some.inj h
          exact ⟨hne, hd, hn.symm, hn ▸ hr⟩
        · rintro ⟨_, _, hn, _⟩
          rw [hn]
      · rw [if_neg hr]
        constructor
        · intro h
          exact absurd h (by simp)
        · rintro ⟨_, _, hn, hr1⟩
          exact absurd (hn ▸ hr1) hr
    · rw [if_neg hne, if_neg hall]
      constructor
      · intro h
        exact absurd h (by simp)
      · rintro ⟨_, hd, _⟩
        exact absurd ((all_isDigit_iff ds).mpr hd) hall

theorem Atoi_eq_some_iff (s : List Char) (n : Int) :
    Atoi s = some n ↔
      IsNumeral s n ∧ -9223372036854775808 ≤ n ∧ n ≤ 9223372036854775807 := by
  constructor
  · intro h
    cases s with
    | nil => exact absurd h (by simp [Atoi])
    | cons c rest =>
      unfold Atoi at h
      simp only at h
      split at h
      · rename_i hm
        obtain ⟨h1, h2, h3, h4⟩ := (atoiDigits_eq_some_iff _ _ _).mp h
        exact ⟨⟨['-'], rest, by rw [hm]; rfl, Or.inr (Or.inr rfl), h1, h2, by simpa using h3⟩, h4⟩
      · split at h
        · rename_i hp
          obtain ⟨h1, h2, h3, h4⟩ := (atoiDigits_eq_some_iff _ _ _).mp h
          exact ⟨⟨['+'], rest, by rw [hp]; rfl, Or.inr (Or.inl rfl), h1, h2,
            by simpa using h3⟩, h4⟩
        · obtain ⟨h1, h2, h3, h4⟩ := (atoiDigits_eq_some_iff _ _ _).mp h
          exact ⟨⟨[], c :: rest, rfl, Or.inl rfl, h1, h2, by simpa using h3⟩, h4⟩
  · rintro ⟨⟨sign, digits, rfl, hsign, hne, hd, hn⟩, hr⟩
    rcases hsign with rfl | rfl | rfl
    · obtain ⟨c, rest, rfl⟩ := List.exists_cons_of_ne_nil hne
      have hc := isDigit_ne_sign c (hd c (List.mem_cons_self _ _))
      simp only [List.nil_append, Atoi, if_neg hc.1, if_neg hc.2.1]
      exact (atoiDigits_eq_some_iff _ _ _).mpr ⟨hne, hd, by simpa using hn, hr⟩
    · have hpm : ¬ ('+' = '-') := by decide
      simp only [List.singleton_append, Atoi, if_neg hpm, if_true]
      exact (atoiDigits_eq_some_iff _ _ _).mpr ⟨hne, hd, by simpa using hn, hr⟩
    · simp only [List.singleton_append, Atoi, if_true]
      exact (atoiDigits_eq_some_iff _ _ _).mpr ⟨hne, hd, by simpa using hn, hr⟩

theorem parseType_ok_iff (p : List Char) (t : DeviceType) :
    parseType p = .ok t ↔
      ((p = "c".data ∨ p = "char".data) ∧ t = CharDevice) ∨
      ((p = "b".data ∨ p = "block".data) ∧ t = BlockDevice) := by
  unfold parseType
  by_cases hc : p = "c".data ∨ p = "char".data
  · rw [if_pos hc]
    constructor
    · intro h
      exact Or.inl ⟨hc, (Except.ok.inj h).symm⟩
    · rintro (⟨_, rfl⟩ | ⟨hb, rfl⟩)
      · rfl
      · rcases hc with rfl | rfl <;> rcases hb with hb | hb <;> exact absurd hb (by decide)
  · rw [if_neg hc]
    by_cases hb : p = "b".data ∨ p = "block".data
    · rw [if_pos hb]
      constructor
      · intro h
        exact Or.inr ⟨hb, (Except.ok.inj h).symm⟩
      · rintro (⟨h1, _⟩ | ⟨_, rfl⟩)
        · exact absurd h1 hc
        · rfl
    · rw [if_neg hb]
      constructor
      · intro h
        exact absurd h (by simp)
      · rintro (⟨h1, _⟩ | ⟨h1, _⟩)
        · exact absurd h1 hc
        · exact absurd h1 hb

theorem parseType_isOk_iff (p : List Char) :
    (∃ t, parseType p = .ok t) ↔ TypeSegment p := by
  unfold TypeSegment
  constructor
  · rintro ⟨t, h⟩
    rcases (parseType_ok_iff p t).mp h with ⟨h1, _⟩ | ⟨h1, _⟩
    · rcases h1 with h1 | h1
      · exact Or.inl h1
      · exact Or.inr (Or.inl h1)
    · rcases h1 with h1 | h1
      · exact Or.inr (Or.inr (Or.inl h1))
      · exact Or.inr (Or.inr (Or.inr h1))
  · rintro (h | h | h | h)
    · exact ⟨_, (parseType_ok_iff p _).mpr (Or.inl ⟨Or.inl h, rfl⟩)⟩
    · exact ⟨_, (parseType_ok_iff p _).mpr (Or.inl ⟨Or.inr h, rfl⟩)⟩
    · exact ⟨_, (parseType_ok_iff p _).mpr (Or.inr ⟨Or.inl h, rfl⟩)⟩
    · exact ⟨_, (parseType_ok_iff p _).mpr (Or.inr ⟨Or.inr h, rfl⟩)⟩

theorem parseNumber_ok_iff (what : String) (p : List Char) (x : DeviceNumber) :
    parseNumber what p = .ok x ↔
      (p = ['*'] ∧ x = -1) ∨ (p ≠ ['*'] ∧ ∃ n, Atoi p = some n ∧ x = toDeviceNumber n) := by
  unfold parseNumber
  by_cases hs : p = ['*']
  · rw [if_pos hs]
    constructor
    · intro h
      exact Or.inl ⟨hs, (Except.ok.inj h).symm⟩
    · rintro (⟨_, rfl⟩ | ⟨h1, _⟩)
      · rfl
      · exact absurd hs h1
  · rw [if_neg hs]
    cases ha : Atoi p with
    | none =>
      constructor
      · intro h
        exact absurd h (by simp)
      · rintro (⟨h1, _⟩ | ⟨_, n, h2, _⟩)
        · exact absurd h1 hs
        · exact absurd h2 (by simp)
    | some n =>
      constructor
      · intro h
        exact Or.inr ⟨hs, n, rfl, (Except.ok.inj h).symm⟩
      · rintro (⟨h1, _⟩ | ⟨_, k, h2, rfl⟩)
        · exact absurd h1 hs
        · rw [Option.some.inj h2]

theorem parseNumber_isOk_iff (what : String) (p : List Char) :
    (∃ x, parseNumber what p = .ok x) ↔ NumberSegment p := by
  unfold NumberSegment
  constructor
  · rintro ⟨x, h⟩
    rcases (parseNumber_ok_iff what p x).mp h with ⟨h1, _⟩ | ⟨_, n, h2, _⟩
    · exact Or.inl h1
    · exact Or.inr ⟨n, (Atoi_eq_some_iff p n).mp h2⟩
  · rintro (h | ⟨n, hn⟩)
    · exact ⟨-1, (parseNumber_ok_iff what p _).mpr (Or.inl ⟨h, rfl⟩)⟩
    · by_cases hs : p = ['*']
      · exact ⟨-1, (parseNumber_ok_iff what p _).mpr (Or.inl ⟨hs, rfl⟩)⟩
      · exact ⟨_, (parseNumber_ok_iff what p _).mpr
          (Or.inr ⟨hs, n, (Atoi_eq_some_iff p n).mpr hn, rfl⟩)⟩

theorem except_cases {α : Type} (x : Except String α) :
    (∃ e, x = .error e) ∨ (∃ a, x = .ok a) := by
  cases x with
  | error e => exact Or.inl ⟨e, rfl⟩
  | ok a => exact Or.inr ⟨a, rfl⟩

theorem except_not_both {α : Type} (x : Except String α) (e : String) (a : α)
    (h1 : x = .error e) (h2 : x = .ok a) : False := by
  rw [h1] at h2
  exact absurd h2 (by simp)

theorem orBits_maskOf_Read (r w m : Bool) : orBits (maskOf r w m) ReadAccess = maskOf true w m := by
  cases r <;> cases w <;> cases m <;> decide

theorem orBits_maskOf_Write (r w m : Bool) :
    orBits (maskOf r w m) WriteAccess = maskOf r true m := by
  cases r <;> cases w <;> cases m <;> decide

theorem orBits_maskOf_Mknod (r w m : Bool) :
    orBits (maskOf r w m) MknodAccess = maskOf r w true := by
  cases r <;> cases w <;> cases m <;> decide

theorem maskOf_value (r w m : Bool) :
    maskOf r w m = (if r then 2 else 0) + (if w then 4 else 0) + (if m then 1 else 0) := by
  cases r <;> cases w <;> cases m <;> decide

/-- The loop over the access segment: it succeeds exactly on segments of `r`, `w`, `m`,
and then returns the flags seen so far or-ed with those of the characters read. -/
theorem parseAccess_maskOf (seg : List Char) :
    ∀ r w m : Bool,
      (AccessSegment seg →
        parseAccess (maskOf r w m) seg =
          .ok (maskOf (r || decide ('r' ∈ seg)) (w || decide ('w' ∈ seg))
            (m || decide ('m' ∈ seg)))) ∧
      (¬ AccessSegment seg → ∃ e, parseAccess (maskOf r w m) seg = .error e) := by
  induction seg with
  | nil =>
    intro r w m
    refine ⟨fun _ => by simp [parseAccess], fun h => absurd (fun c hc => by simp at hc) h⟩
  | cons ch rest ih =>
    intro r w m
    have hrw : ¬ ('r' = 'w') := by decide
    have hrm : ¬ ('r' = 'm') := by decide
    have hwr : ¬ ('w' = 'r') := by decide
    have hwm : ¬ ('w' = 'm') := by decide
    have hmr : ¬ ('m' = 'r') := by decide
    have hmw : ¬ ('m' = 'w') := by decide
    have hsplit : AccessSegment (ch :: rest) ↔
        (ch = 'r' ∨ ch = 'w' ∨ ch = 'm') ∧ AccessSegment rest := by
      unfold AccessSegment
      simp [List.forall_mem_cons]
    by_cases hr : ch = 'r'
    · subst hr
      have hs : AccessSegment ('r' :: rest) ↔ AccessSegment rest := by
        rw [hsplit]; simp
      rw [parseAccess, if_pos rfl, orBits_maskOf_Read, hs]
      refine ⟨fun h => ?_, (ih true w m).2⟩
      rw [(ih true w m).1 h]
      simp [hwr, hmr]
    · by_cases hw : ch = 'w'
      · subst hw
        have hs : AccessSegment ('w' :: rest) ↔ AccessSegment rest := by
          rw [hsplit]; simp
        rw [parseAccess, if_neg hr, if_pos rfl, orBits_maskOf_Write, hs]
        refine ⟨fun h => ?_, (ih r true m).2⟩
        rw [(ih r true m).1 h]
        simp [hrw, hmw]
      · by_cases hm : ch = 'm'
        · subst hm
          have hs : AccessSegment ('m' :: rest) ↔ AccessSegment rest := by
            rw [hsplit]; simp
          rw [parseAccess, if_neg hr, if_neg hw, if_pos rfl, orBits_maskOf_Mknod, hs]
          refine ⟨fun h => ?_, (ih r w true).2⟩
          rw [(ih r w true).1 h]
          simp [hrm, hwm]
        · rw [parseAccess, if_neg hr, if_neg hw, if_neg hm]
          refine ⟨fun h => ?_, fun _ => ⟨_, rfl⟩⟩
          rcases (hsplit.mp h).1 with h1 | h1 | h1
          · exact absurd h1 hr
          · exact absurd h1 hw
          · exact absurd h1 hm

theorem maskOf_false : maskOf false false false = 0 := by decide

theorem parseAccess_ok (seg : List Char) (h : AccessSegment seg) :
    parseAccess 0 seg =
      .ok (maskOf (decide ('r' ∈ seg)) (decide ('w' ∈ seg)) (decide ('m' ∈ seg))) := by
  have := (parseAccess_maskOf seg false false false).1 h
  rw [maskOf_false] at this
  simpa using this

theorem parseAccess_error (seg : List Char) (h : ¬ AccessSegment seg) :
    ∃ e, parseAccess 0 seg = .error e := by
  have := (parseAccess_maskOf seg false false false).2 h
  rw [maskOf_false] at this
  exact this

theorem parseAccess_ok_iff (seg : List Char) (am : AccessMask) :
    parseAccess 0 seg = .ok am ↔
      AccessSegment seg ∧
        am = maskOf (decide ('r' ∈ seg)) (decide ('w' ∈ seg)) (decide ('m' ∈ seg)) := by
  by_cases h : AccessSegment seg
  · rw [parseAccess_ok seg h]
    constructor
    · intro h1
      exact ⟨h, (Except.ok.inj h1).symm⟩
    · rintro ⟨_, h2⟩
      rw [h2]
  · obtain ⟨e, he⟩ := parseAccess_error seg h
    rw [he]
    constructor
    · intro h1
      exact absurd h1 (by simp)
    · rintro ⟨h1, _⟩
      exact absurd h1 h

/-- What `parseDevice` returns, part by part. -/
theorem parseDevice_ok_iff (s : String) (d : DeviceSpec) :
    parseDevice s = .ok d ↔
      ∃ p0 p1 p2 p3, Split ':' s.data = [p0, p1, p2, p3] ∧
        parseType p0 = .ok d.DeviceType ∧ parseNumber "major" p1 = .ok d.Major ∧
        parseNumber "minor" p2 = .ok d.Minor ∧ parseAccess 0 p3 = .ok d.AccessMask ∧
        d.Name = "" := by
  unfold parseDevice
  constructor
  · intro h
    split at h
    · rename_i p0 p1 p2 p3 hsp
      refine ⟨p0, p1, p2, p3, hsp, ?_⟩
      split at h
      · exact absurd h (by simp)
      · rename_i t ht
        split at h
        · exact absurd h (by simp)
        · rename_i M hM
          split at h
          · exact absurd h (by simp)
          · rename_i m hm
            split at h
            · exact absurd h (by simp)
            · rename_i a ha
              have hd := Except.ok.inj h
              subst hd
              exact ⟨ht, hM, hm, ha, rfl⟩
    · exact absurd h (by simp)
  · rintro ⟨p0, p1, p2, p3, hsp, ht, hM, hm, ha, hn⟩
    rw [hsp]
    simp only [ht, hM, hm, ha]
    cases d
    simp only at hn
    rw [hn]

theorem toDeviceNumber_of_inRange (n : Int) (hlo : -2147483648 ≤ n) (hhi : n < 2147483648) :
    toDeviceNumber n = n := by
  show ((n + 2147483648) % 4294967296 - 2147483648 : Int) = n
  omega

theorem IsNumeral_unique (seg : List Char) (n k : Int) (hn : IsNumeral seg n)
    (hk : IsNumeral seg k) : n = k := by
  obtain ⟨s1, d1, e1, hs1, hne1, hd1, hv1⟩ := hn
  obtain ⟨s2, d2, e2, hs2, hne2, hd2, hv2⟩ := hk
  obtain ⟨c1, r1, rfl⟩ := List.exists_cons_of_ne_nil hne1
  obtain ⟨c2, r2, rfl⟩ := List.exists_cons_of_ne_nil hne2
  have hc1 := isDigit_ne_sign c1 (hd1 c1 (List.mem_cons_self _ _))
  have hc2 := isDigit_ne_sign c2 (hd2 c2 (List.mem_cons_self _ _))
  have hpm : ¬ ('+' = '-') := by decide
  rw [e1] at e2
  rcases hs1 with rfl | rfl | rfl <;> rcases hs2 with rfl | rfl | rfl <;>
    simp only [List.nil_append, List.singleton_append, List.cons.injEq] at e2 <;>
    first
    | exact absurd e2.1 hc1.2.1
    | exact absurd e2.1 hc1.1
    | exact absurd e2.1.symm hc2.2.1
    | exact absurd e2.1.symm hc2.1
    | exact absurd e2.1 hpm
    | exact absurd e2.1.symm hpm
    | rw [hv1, hv2, e2.1, e2.2]
    | rw [hv1, hv2, e2.2.1, e2.2.2]

/-- A segment that is not `*` and denotes an integer of the `int32` range is parsed to
that integer. -/
theorem parseNumber_of_numeral (what : String) (p : List Char) (n : Int) (x : DeviceNumber)
    (h : parseNumber what p = .ok x) (hs : p ≠ ['*']) (hn : IsNumeral p n)
    (hlo : -2147483648 ≤ n) (hhi : n < 2147483648) : x = n := by
  rcases (parseNumber_ok_iff what p x).mp h with ⟨h1, _⟩ | ⟨_, k, hk, hx⟩
  · exact absurd h1 hs
  · have hkn : k = n := IsNumeral_unique p k n ((Atoi_eq_some_iff p k).mp hk).1 hn
    rw [hx, hkn, toDeviceNumber_of_inRange n hlo hhi]

theorem parseNumber_numeral (what : String) (p : List Char) (x : DeviceNumber)
    (h : parseNumber what p = .ok x) : p = ['*'] ∨ ∃ n, IsNumeral p n := by
  rcases (parseNumber_ok_iff what p x).mp h with ⟨h1, _⟩ | ⟨_, k, hk, _⟩
  · exact Or.inl h1
  · exact Or.inr ⟨k, ((Atoi_eq_some_iff p k).mp hk).1⟩

theorem parseNumber_nonneg (what : String) (p : List Char) (x : DeviceNumber)
    (h : parseNumber what p = .ok x)
    (hp : p = ['*'] ∨ ∃ n, IsNumeral p n ∧ 0 ≤ n ∧ n < 2147483648) : x = -1 ∨ 0 ≤ x := by
  by_cases hs : p = ['*']
  · rcases (parseNumber_ok_iff what p x).mp h with ⟨_, h2⟩ | ⟨h1, _⟩
    · exact Or.inl h2
    · exact absurd hs h1
  · rcases hp with h1 | ⟨n, hn, h0, h1⟩
    · exact absurd h1 hs
    · have := parseNumber_of_numeral what p n x h hs hn (by omega) h1
      exact Or.inr (by rw [this]; exact h0)

/-! ## The index operations never fail -/

theorem addDeviceBody_eq (d : DeviceSpec) (mode : Mode) (j : String) :
    addDeviceBody d mode j = blockBody true d mode j := by
  unfold addDeviceBody blockBody accessTest
  simp

theorem addDeviceChecked_eq (d : DeviceSpec) (mode : Mode) (j : String) :
    addDeviceChecked d mode j = some (addDevice d mode j) := by
  have hne := blockBody_ne_nil true d mode j
  unfold addDeviceChecked addDevice
  rw [addDeviceBody_eq]
  cases hb : blockBody true d mode j with
  | nil => exact absurd hb hne
  | cons i rest =>
    simp only [setFirst, List.modifyHead]
    split <;> rfl

theorem addDevice_length (d : DeviceSpec) (mode : Mode) (j : String) :
    1 ≤ (addDevice d mode j).length ∧ (addDevice d mode j).length ≤ 6 := by
  rw [addDevice_eq, blockBody_length]
  unfold accessTest
  split <;> split <;> split <;> split <;> simp

theorem addDevicesFrom_eq_join (mode : Mode) (L : DeviceList) :
    addDevicesFrom mode L = (deviceBlocks mode L).flatten := by
  induction L with
  | nil => rfl
  | cons d rest ih => simp [addDevicesFrom, deviceBlocks, ih]

theorem deviceBlocks_length (mode : Mode) (L : DeviceList) :
    (deviceBlocks mode L).length = L.length := by
  induction L with
  | nil => rfl
  | cons d rest ih => simp [deviceBlocks, ih]

theorem deviceBlocks_bounds (mode : Mode) (L : DeviceList) :
    ∀ b ∈ deviceBlocks mode L, 1 ≤ b.length ∧ b.length ≤ 6 := by
  induction L with
  | nil => intro b hb; simp [deviceBlocks] at hb
  | cons d rest ih =>
    intro b hb
    simp only [deviceBlocks, List.mem_cons] at hb
    rcases hb with rfl | hb
    · exact addDevice_length d mode _
    · exact ih b hb

theorem addDevicesLoop_eq (mode : Mode) (L2 : DeviceList) :
    ∀ (L1 : DeviceList) (ins : Instructions),
      addDevicesLoop mode (L1 ++ L2) L2.length L1.length ins =
        some (ins ++ addDevicesFrom mode L2) := by
  induction L2 with
  | nil => intro L1 ins; simp [addDevicesLoop, addDevicesFrom]
  | cons d rest ih =>
    intro L1 ins
    have hget : (L1 ++ d :: rest)[L1.length]? = some d := by
      rw [List.getElem?_append_right (Nat.le_refl _)]
      simp
    have hjd : (if (L1.length : Int) = ((L1 ++ d :: rest).length : Int) - 1 then
          some (lastDst mode)
        else ((L1 ++ d :: rest)[L1.length + 1]?).map DeviceSpec.Label) =
        some (jumpDst mode rest) := by
      cases rest with
      | nil =>
        rw [if_pos (by simp)]
        rfl
      | cons d1 rest1 =>
        have hne : ¬ ((L1.length : Int) = ((L1 ++ d :: d1 :: rest1).length : Int) - 1) := by
          simp only [List.length_append, List.length_cons]
          push_cast
          omega
        rw [if_neg hne, List.getElem?_append_right (Nat.le_succ _)]
        simp [jumpDst]
    have hrec := ih (L1 ++ [d]) (ins ++ addDevice d mode (jumpDst mode rest))
    simp only [List.append_assoc, List.singleton_append, List.length_append,
      List.length_singleton] at hrec
    simp only [List.length_cons, addDevicesLoop, hget, hjd, addDeviceChecked_eq, hrec,
      addDevicesFrom]

theorem buildProgramChecked_eq (mode : Mode) (L : DeviceList) :
    buildProgramChecked mode L = some (buildProgram mode L) := by
  unfold buildProgramChecked addDevicesChecked buildProgram addDevices
  have h := addDevicesLoop_eq mode L [] initProgram
  simp only [List.nil_append, List.length_nil] at h
  rw [h]
  rfl

/-! ## The fields in the registers -/

theorem exec_of_next (P : Instructions) (inp : Input) (f : Nat) (cur cur1 : Instructions)
    (r r1 : Regs) (h : next P inp (cur, r) = some (cur1, r1)) :
    exec P inp (f + 1) cur r = exec P inp f cur1 r1 := by
  cases cur with
  | nil => simp [next] at h
  | cons i rest =>
    simp only [next] at h
    simp only [exec]
    cases hs : step inp r i.op with
    | fall r2 =>
      rw [hs] at h
      simp only [Option.some.injEq, Prod.mk.injEq] at h
      simp only [h.1, h.2]
    | goto l r2 =>
      rw [hs] at h
      simp only at h
      cases hf : findLabel l P with
      | none => rw [hf] at h; simp at h
      | some t =>
        rw [hf] at h
        simp only [Option.some.injEq, Prod.mk.injEq] at h
        simp only [hf, h.1, h.2]
    | exit v => rw [hs] at h; simp at h
    | fault => rw [hs] at h; simp at h

theorem stepsN_add (P : Instructions) (inp : Input) (a b : Nat) (c : Instructions × Regs) :
    stepsN P inp (a + b) c =
      match stepsN P inp a c with
      | none => none
      | some c1 => stepsN P inp b c1 := by
  induction a generalizing c with
  | zero => simp [stepsN]
  | succ a ih =>
    rw [Nat.add_right_comm]
    simp only [stepsN]
    cases next P inp c with
    | none => rfl
    | some c1 => exact ih c1

theorem set_keepsFields (r : Regs) (dst : Register) (v : Nat)
    (h2 : some dst ≠ some Register.R2) (h3 : some dst ≠ some Register.R3)
    (h4 : some dst ≠ some Register.R4) (h5 : some dst ≠ some Register.R5) :
    (r.set dst v).r2 = r.r2 ∧ (r.set dst v).r3 = r.r3 ∧ (r.set dst v).r4 = r.r4 ∧
      (r.set dst v).r5 = r.r5 := by
  cases dst
  · exact ⟨rfl, rfl, rfl, rfl⟩
  · exact ⟨rfl, rfl, rfl, rfl⟩
  · exact absurd rfl h2
  · exact absurd rfl h3
  · exact absurd rfl h4
  · exact absurd rfl h5

/-- An operation that does not write `R2`..`R5` leaves them as they are, whether
execution falls through or branches. -/
theorem step_keepsFields (inp : Input) (r r1 : Regs) (op : Op) (hop : op.KeepsFields)
    (h : step inp r op = .fall r1 ∨ ∃ l, step inp r op = .goto l r1) :
    r1.r2 = r.r2 ∧ r1.r3 = r.r3 ∧ r1.r4 = r.r4 ∧ r1.r5 = r.r5 := by
  obtain ⟨h2, h3, h4, h5⟩ := hop
  cases op with
  | LoadMemWord dst src off =>
    simp only [step] at h
    cases hl : inp.load (r.get src + off) with
    | none =>
      rw [hl] at h
      rcases h with h | ⟨l, h⟩ <;> cases h
    | some w =>
      rw [hl] at h
      rcases h with h | ⟨l, h⟩
      · cases h
        exact set_keepsFields r dst w h2 h3 h4 h5
      · cases h
  | AndImm dst v =>
    simp only [step] at h
    rcases h with h | ⟨l, h⟩
    · cases h
      exact set_keepsFields r dst _ h2 h3 h4 h5
    · cases h
  | RShImm dst v =>
    simp only [step] at h
    rcases h with h | ⟨l, h⟩
    · cases h
      exact set_keepsFields r dst _ h2 h3 h4 h5
    · cases h
  | MovReg32 dst src =>
    simp only [step] at h
    rcases h with h | ⟨l, h⟩
    · cases h
      exact set_keepsFields r dst _ h2 h3 h4 h5
    · cases h
  | AndImm32 dst v =>
    simp only [step] at h
    rcases h with h | ⟨l, h⟩
    · cases h
      exact set_keepsFields r dst _ h2 h3 h4 h5
    · cases h
  | LoadImmDWord dst v =>
    simp only [step] at h
    rcases h with h | ⟨l, h⟩
    · cases h
      exact set_keepsFields r dst _ h2 h3 h4 h5
    · cases h
  | JNEImm dst v l =>
    simp only [step] at h
    by_cases hc : r.get dst ≠ sext64 v
    · rw [if_pos hc] at h
      rcases h with h | ⟨l1, h⟩ <;> cases h
      exact ⟨rfl, rfl, rfl, rfl⟩
    · rw [if_neg hc] at h
      rcases h with h | ⟨l1, h⟩ <;> cases h
      exact ⟨rfl, rfl, rfl, rfl⟩
  | JaLabel l =>
    simp only [step] at h
    rcases h with h | ⟨l1, h⟩ <;> cases h
    exact ⟨rfl, rfl, rfl, rfl⟩
  | JEqReg dst src l =>
    simp only [step] at h
    by_cases hc : r.get dst = r.get src
    · rw [if_pos hc] at h
      rcases h with h | ⟨l1, h⟩ <;> cases h
      exact ⟨rfl, rfl, rfl, rfl⟩
    · rw [if_neg hc] at h
      rcases h with h | ⟨l1, h⟩ <;> cases h
      exact ⟨rfl, rfl, rfl, rfl⟩
  | Return =>
    simp only [step] at h
    rcases h with h | ⟨l, h⟩ <;> cases h

theorem mem_modifyHead_tag (d : DeviceSpec) (body : Instructions) (ins : Instruction)
    (h : ins ∈ body.modifyHead (tagHead d)) : ∃ i0 ∈ body, ins.op = i0.op := by
  cases body with
  | nil => simp [List.modifyHead] at h
  | cons i rest =>
    simp only [List.modifyHead, List.mem_cons] at h
    rcases h with rfl | h
    · exact ⟨i, List.mem_cons_self _ _, tagHead_op d i⟩
    · exact ⟨ins, List.mem_cons_of_mem _ h, rfl⟩

theorem keepsFields_blockBody (elide : Bool) (d : DeviceSpec) (mode : Mode) (j : String) :
    ∀ ins ∈ blockBody elide d mode j, ins.op.KeepsFields := by
  intro ins h
  unfold blockBody accessTest at h
  simp only [List.mem_append] at h
  rcases h with h | h | h | h
  · split at h
    · rw [List.mem_singleton.mp h]; simp [Op.KeepsFields, Op.ins, Op.writes]
    · simp at h
  · split at h
    · rw [List.mem_singleton.mp h]; simp [Op.KeepsFields, Op.ins, Op.writes]
    · simp at h
  · split at h
    · rw [List.mem_singleton.mp h]; simp [Op.KeepsFields, Op.ins, Op.writes]
    · simp at h
  · split at h
    · rw [List.mem_singleton.mp h]; simp [Op.KeepsFields, Op.ins, Op.writes]
    · simp only [List.mem_cons, List.mem_singleton, List.not_mem_nil, or_false] at h
      rcases h with rfl | rfl | rfl <;> simp [Op.KeepsFields, Op.ins, Op.writes]

theorem keepsFields_addDevicesWith (elide : Bool) (mode : Mode) (L : DeviceList) :
    ∀ ins ∈ addDevicesWith elide mode L, ins.op.KeepsFields := by
  induction L with
  | nil => intro ins h; simp [addDevicesWith] at h
  | cons d rest ih =>
    intro ins h
    rw [addDevicesWith, List.mem_append] at h
    rcases h with h | h
    · rw [addDeviceWith_eq] at h
      obtain ⟨i0, hi0, hop⟩ := mem_modifyHead_tag d _ ins h
      rw [hop]
      exact keepsFields_blockBody elide d mode _ i0 hi0
    · exact ih ins h

theorem keepsFields_terminalWith (swap : Bool) (mode : Mode) :
    ∀ ins ∈ terminalWith swap mode, ins.op.KeepsFields := by
  cases swap <;> cases mode <;> decide

theorem findLabel_mem (l : String) (X t : Instructions) (h : findLabel l X = some t) :
    ∀ ins ∈ t, ins ∈ X := by
  induction X with
  | nil => simp [findLabel] at h
  | cons i rest ih =>
    simp only [findLabel] at h
    split at h
    · rw [← Option.some.inj h]
      exact fun ins hi => hi
    · exact fun ins hi => List.mem_cons_of_mem _ (ih h ins hi)

theorem findLabel_initProgram (l : String) (X : Instructions) :
    findLabel l (initProgram ++ X) = findLabel l X :=
  findLabel_append_right l initProgram X (by rw [symbols_initProgram]; simp)

/-- After the prologue every configuration holds only instructions that keep `R2`..`R5`,
and the registers keep the fields. -/
theorem next_keeps (X : Instructions) (inp : Input) (a : Attempt)
    (hX : ∀ ins ∈ X, ins.op.KeepsFields) (c c1 : Instructions × Regs)
    (hc : (∀ ins ∈ c.1, ins ∈ X) ∧ c.2.Holds a)
    (h : next (initProgram ++ X) inp c = some c1) :
    (∀ ins ∈ c1.1, ins ∈ X) ∧ c1.2.Holds a := by
  obtain ⟨cur, r⟩ := c
  obtain ⟨hcur, hr⟩ := hc
  cases cur with
  | nil => simp [next] at h
  | cons i rest =>
    have hi : i.op.KeepsFields := hX i (hcur i (List.mem_cons_self _ _))
    simp only [next] at h
    cases hs : step inp r i.op with
    | fall r1 =>
      rw [hs] at h
      obtain ⟨k2, k3, k4, k5⟩ := step_keepsFields inp r r1 i.op hi (Or.inl hs)
      rw [← Option.some.inj h]
      exact ⟨fun ins hm => hcur ins (List.mem_cons_of_mem _ hm),
        ⟨k2.trans hr.1, k3.trans hr.2.1, k4.trans hr.2.2.1, k5.trans hr.2.2.2⟩⟩
    | goto l r1 =>
      rw [hs] at h
      simp only at h
      obtain ⟨k2, k3, k4, k5⟩ := step_keepsFields inp r r1 i.op hi (Or.inr ⟨l, hs⟩)
      cases hf : findLabel l (initProgram ++ X) with
      | none => rw [hf] at h; simp at h
      | some t =>
        rw [hf] at h
        rw [findLabel_initProgram] at hf
        rw [← Option.some.inj h]
        exact ⟨findLabel_mem l X t hf,
          ⟨k2.trans hr.1, k3.trans hr.2.1, k4.trans hr.2.2.1, k5.trans hr.2.2.2⟩⟩
    | exit v => rw [hs] at h; simp at h
    | fault => rw [hs] at h; simp at h

theorem stepsN_keeps (X : Instructions) (inp : Input) (a : Attempt)
    (hX : ∀ ins ∈ X, ins.op.KeepsFields) (n : Nat) :
    ∀ c c1 : Instructions × Regs, ((∀ ins ∈ c.1, ins ∈ X) ∧ c.2.Holds a) →
      stepsN (initProgram ++ X) inp n c = some c1 →
      (∀ ins ∈ c1.1, ins ∈ X) ∧ c1.2.Holds a := by
  induction n with
  | zero =>
    intro c c1 hc h
    rw [← Option.some.inj h]
    exact hc
  | succ n ih =>
    intro c c1 hc h
    simp only [stepsN] at h
    cases hn : next (initProgram ++ X) inp c with
    | none => rw [hn] at h; simp at h
    | some c2 =>
      rw [hn] at h
      exact ih c2 c1 (next_keeps X inp a hX c c2 hc hn) h

theorem stepsN_prologue (X : Instructions) (inp : Input) :
    stepsN (initProgram ++ X) inp 6 (initProgram ++ X, initRegs) =
      some (X, ⟨0, 0, (inp.w0 % 4294967296) &&& 65535, (inp.w0 % 4294967296) >>> 16,
        inp.w1 % 4294967296, inp.w2 % 4294967296⟩) := by
  simp [initProgram, stepsN, next, step, Op.ins, Instruction.WithSource, Regs.get, Regs.set,
    initRegs, Input.load, U32Size, sext64]

theorem buildProgram_split (mode : Mode) (L : DeviceList) :
    buildProgram mode L = initProgram ++ (addDevicesFrom mode L ++ finishProgram [] mode) := by
  unfold buildProgram addDevices finishProgram addAllowRule addDenyRule
  split <;> simp

/-! ## Branches go forward -/

theorem findLabel_some_split (l : String) (X t : Instructions) (h : findLabel l X = some t) :
    ∃ X1, X = X1 ++ t ∧ t ≠ [] := by
  induction X with
  | nil => simp [findLabel] at h
  | cons i rest ih =>
    simp only [findLabel] at h
    split at h
    · rw [← Option.some.inj h]
      exact ⟨[], rfl, List.cons_ne_nil _ _⟩
    · obtain ⟨X1, hX, hne⟩ := ih h
      exact ⟨i :: X1, by rw [List.cons_append, ← hX], hne⟩

theorem findLabel_of_mem_symbols (l : String) (X : Instructions) (h : l ∈ symbols X) :
    ∃ t, findLabel l X = some t := by
  induction X with
  | nil => simp [symbols] at h
  | cons i rest ih =>
    simp only [findLabel]
    by_cases hs : i.symbol = some l
    · rw [if_pos hs]
      exact ⟨_, rfl⟩
    · rw [if_neg hs]
      apply ih
      obtain ⟨x, hx, hxs⟩ := List.mem_filterMap.mp h
      rcases List.mem_cons.mp hx with e | e
      · exact absurd (e ▸ hxs) hs
      · exact List.mem_filterMap.mpr ⟨x, e, hxs⟩

/-- A label anchored in the part `B` of `P = A ++ B` resolves to a position in `B`. -/
theorem target_in_suffix {P : Instructions} (hnd : (symbols P).Nodup) (l : String)
    (A B : Instructions) (hP : P = A ++ B) (hl : l ∈ symbols B) :
    ∃ t, A.length ≤ t ∧ t < P.length ∧ findLabel l P = some (P.drop t) := by
  obtain ⟨tm, htm⟩ := findLabel_of_mem_symbols l B hl
  obtain ⟨B1, hB, hne⟩ := findLabel_some_split l B tm htm
  refine ⟨A.length + B1.length, Nat.le_add_right _ _, ?_, ?_⟩
  · rw [hP, hB]
    have : 0 < tm.length := List.length_pos.mpr hne
    simp only [List.length_append]
    omega
  · rw [findLabel_suffix hnd l A B hP hl, htm, hP, hB, ← List.append_assoc,
      List.drop_left' (by simp)]

theorem jumpDst_mem_symbols (elide swap : Bool) (mode : Mode) (rest : DeviceList) :
    jumpDst mode rest ∈ symbols (addDevicesWith elide mode rest ++ terminalWith swap mode) := by
  rw [symbols_append, symbols_addDevicesWith, List.mem_append]
  rcases jumpDst_mem mode rest with h | h
  · exact Or.inl h
  · exact Or.inr (h ▸ lastDst_mem_terminal swap mode)

theorem forward_rules {P : Instructions} (elide swap : Bool) (mode : Mode)
    (hnd : (symbols P).Nodup) :
    ∀ (L : DeviceList) (pre : Instructions),
      P = pre ++ (addDevicesWith elide mode L ++ terminalWith swap mode) →
      ∀ (j : Nat) (ins : Instruction) (l : String),
        (addDevicesWith elide mode L)[j]? = some ins → ins.op.reference = some l →
        ∃ t, pre.length + j < t ∧ t < P.length ∧ findLabel l P = some (P.drop t) := by
  intro L
  induction L with
  | nil =>
    intro pre _ j ins l hj _
    simp [addDevicesWith] at hj
  | cons d rest ih =>
    intro pre hP j ins l hj hl
    have hP1 : P = (pre ++ addDeviceWith elide d mode (jumpDst mode rest)) ++
        (addDevicesWith elide mode rest ++ terminalWith swap mode) := by
      rw [hP]; simp [addDevicesWith]
    rw [addDevicesWith] at hj
    by_cases hlt : j < (addDeviceWith elide d mode (jumpDst mode rest)).length
    · rw [List.getElem?_append_left hlt] at hj
      have hmem : l ∈ symbols (addDevicesWith elide mode rest ++ terminalWith swap mode) := by
        rcases mem_references_addDeviceWith elide d mode _ l
          (mem_references_of_mem _ ins l (List.getElem?_mem hj) hl) with h | h
        · rw [h]
          exact jumpDst_mem_symbols elide swap mode rest
        · rw [h, symbols_append, List.mem_append]
          exact Or.inr (matchDst_mem_terminal swap mode)
      obtain ⟨t, ht1, ht2, ht3⟩ := target_in_suffix hnd l _ _ hP1 hmem
      refine ⟨t, ?_, ht2, ht3⟩
      rw [List.length_append] at ht1
      omega
    · have hge : (addDeviceWith elide d mode (jumpDst mode rest)).length ≤ j :=
        Nat.le_of_not_lt hlt
      rw [List.getElem?_append_right hge] at hj
      obtain ⟨t, ht1, ht2, ht3⟩ := ih _ hP1 _ ins l hj hl
      refine ⟨t, ?_, ht2, ht3⟩
      rw [List.length_append] at ht1
      omega

/-- Every branch of the compiler's output targets a later position. -/
theorem forward_compileWith (elide swap : Bool) (mode : Mode) (L : DeviceList)
    (hL : (L.map DeviceSpec.Label).Nodup) (i : Nat) (ins : Instruction) (l : String)
    (hi : (compileWith elide swap mode L)[i]? = some ins) (hl : ins.op.reference = some l) :
    ∃ t, i < t ∧ t < (compileWith elide swap mode L).length ∧
      findLabel l (compileWith elide swap mode L) =
        some ((compileWith elide swap mode L).drop t) := by
  have hnd := (nodup_symbols_compileWith elide swap mode L).mpr hL
  have hP := compileWith_eq elide swap mode L
  have hnoref : ∀ X : Instructions, references X = [] → ins ∈ X → False := by
    intro X hX hm
    have := mem_references_of_mem X ins l hm hl
    rw [hX] at this
    exact absurd this (List.not_mem_nil _)
  rw [hP] at hi
  by_cases h6 : i < initProgram.length
  · rw [List.getElem?_append_left h6] at hi
    exact absurd (List.getElem?_mem hi) (fun hm => hnoref _ references_initProgram hm)
  · have h6' : initProgram.length ≤ i := Nat.le_of_not_lt h6
    rw [List.getElem?_append_right h6'] at hi
    by_cases hb : i - initProgram.length < (addDevicesWith elide mode L).length
    · rw [List.getElem?_append_left hb] at hi
      obtain ⟨t, ht1, ht2, ht3⟩ := forward_rules elide swap mode hnd L initProgram hP _ ins l hi hl
      exact ⟨t, by omega, ht2, ht3⟩
    · rw [List.getElem?_append_right (Nat.le_of_not_lt hb)] at hi
      exact absurd (List.getElem?_mem hi)
        (fun hm => hnoref _ (references_terminalWith swap mode) hm)

theorem evalRules_range (elide swap : Bool) (mode : Mode) (a : Attempt) (L : DeviceList) :
    evalRules elide swap mode L a = 0 ∨ evalRules elide swap mode L a = 1 := by
  have hm : matchVerdict mode = 0 ∨ matchVerdict mode = 1 := by cases mode <;> decide
  have hd : defaultVerdict mode = 0 ∨ defaultVerdict mode = 1 := by cases mode <;> decide
  induction L with
  | nil =>
    cases swap <;> cases mode <;>
      simp [evalRules, fallVerdict, matchVerdict, defaultVerdict]
  | cons d rest ih =>
    rw [evalRules_cons]
    split
    · split
      · exact hm
      · exact ih
    · cases rest with
      | nil => exact hd
      | cons d1 rest1 => exact ih

theorem getLast_buildProgram (mode : Mode) (L : DeviceList) :
    (buildProgram mode L).getLast? = some Op.Return.ins := by
  rw [buildProgram_split, ← List.append_assoc]
  cases mode <;>
    simp [finishProgram, addAllowRule, addDenyRule, List.getLast?_append]

/-! ## What holds in every configuration of a run -/

theorem always_nil {P : Instructions} {inp : Input} {Q : Nat → Op → Regs → Prop} (r : Regs) :
    Always P inp Q [] r := by
  intro n i rest r1 h
  cases n with
  | zero => simp [stepsN] at h
  | succ n => simp [stepsN, next] at h

theorem always_step {P : Instructions} {inp : Input} {Q : Nat → Op → Regs → Prop}
    (i : Instruction) (rest : Instructions) (r : Regs)
    (hq : Q (i :: rest).length i.op r)
    (hnext : ∀ cur1 r1, next P inp (i :: rest, r) = some (cur1, r1) → Always P inp Q cur1 r1) :
    Always P inp Q (i :: rest) r := by
  intro n i1 rest1 r1 h
  cases n with
  | zero =>
    simp only [stepsN, Option.some.injEq, Prod.mk.injEq, List.cons.injEq] at h
    obtain ⟨⟨rfl, rfl⟩, rfl⟩ := h
    exact hq
  | succ n =>
    simp only [stepsN] at h
    cases hn : next P inp (i :: rest, r) with
    | none => rw [hn] at h; simp at h
    | some c1 =>
      rw [hn] at h
      exact hnext c1.1 c1.2 hn n i1 rest1 r1 h

theorem always_tag {P : Instructions} {inp : Input} {Q : Nat → Op → Regs → Prop}
    (d : DeviceSpec) {body nxt : Instructions} {r : Regs}
    (h : Always P inp Q (body ++ nxt) r) :
    Always P inp Q (body.modifyHead (tagHead d) ++ nxt) r := by
  cases body with
  | nil => simpa using h
  | cons i rest =>
    intro n i1 rest1 r1 hs
    cases n with
    | zero =>
      simp only [stepsN, List.modifyHead, List.cons_append, Option.some.injEq, Prod.mk.injEq,
        List.cons.injEq] at hs
      obtain ⟨⟨rfl, rfl⟩, rfl⟩ := hs
      have h0 := h 0 i (rest ++ nxt) r rfl
      simpa [tagHead_op] using h0
    | succ n =>
      have hn : next P inp (List.modifyHead (tagHead d) (i :: rest) ++ nxt, r) =
          next P inp ((i :: rest) ++ nxt, r) := by
        simp [List.modifyHead, next, tagHead_op]
      refine h (n + 1) i1 rest1 r1 ?_
      simp only [stepsN] at hs ⊢
      rw [← hn]
      exact hs

theorem always_guard {P : Instructions} {inp : Input} {Q : Nat → Op → Regs → Prop}
    (c : Prop) [Decidable c] (reg : Register) (v : Int) (j : String) (cur : Instructions)
    (r : Regs)
    (hq : c → Q (cur.length + 1) (Op.JNEImm reg v j) r)
    (hpass : (¬ c ∨ r.get reg = sext64 v) → Always P inp Q cur r)
    (hfail : c → r.get reg ≠ sext64 v → ∀ tj, findLabel j P = some tj → Always P inp Q tj r) :
    Always P inp Q ((if c then [(Op.JNEImm reg v j).ins] else []) ++ cur) r := by
  by_cases hc : c
  · simp only [hc, if_true, List.singleton_append]
    refine always_step _ _ _ (by simpa [Op.ins] using hq hc) ?_
    intro cur1 r1 hn
    by_cases hv : r.get reg = sext64 v
    · simp only [next, step, Op.ins, hv, ne_eq, not_true_eq_false, if_false, Option.some.injEq,
        Prod.mk.injEq] at hn
      obtain ⟨rfl, rfl⟩ := hn
      exact hpass (Or.inr hv)
    · simp only [next, step, Op.ins, hv, ne_eq, not_false_eq_true, if_true] at hn
      cases hf : findLabel j P with
      | none => rw [hf] at hn; simp at hn
      | some tj =>
        rw [hf] at hn
        simp only [Option.some.injEq, Prod.mk.injEq] at hn
        obtain ⟨rfl, rfl⟩ := hn
        exact hfail hc hv tj hf
  · simpa [hc] using hpass (Or.inl hc)

theorem always_access {P : Instructions} {inp : Input} {Q : Nat → Op → Regs → Prop}
    (elide : Bool) (d : DeviceSpec) (mode : Mode) (a : Attempt) (nxt : Instructions) (r : Regs)
    (hr : r.Holds a)
    (hq : ∀ (k : Nat) (op : Op) (r1 : Regs), nxt.length < k →
      k ≤ nxt.length + (if elide = true ∧ d.AccessMask = AllAccess then
        [(Op.JaLabel (matchDst mode)).ins] else accessTest d mode).length → r1.Holds a →
      (∀ l r2, step inp r1 op = .goto l r2 → l = matchDst mode ∧ accessPass elide d a) →
      Q k op r1)
    (hhit : accessPass elide d a → ∀ r1 : Regs, r1.Holds a →
      ∀ tm, findLabel (matchDst mode) P = some tm → Always P inp Q tm r1)
    (hmiss : ¬ accessPass elide d a → ∀ r1 : Regs, r1.Holds a → Always P inp Q nxt r1) :
    Always P inp Q ((if elide = true ∧ d.AccessMask = AllAccess then
        [(Op.JaLabel (matchDst mode)).ins] else accessTest d mode) ++ nxt) r := by
  obtain ⟨h2, h3, h4, h5⟩ := hr
  by_cases hc : elide = true ∧ d.AccessMask = AllAccess
  · simp only [if_pos hc, List.length_singleton] at hq
    simp only [hc, and_self, if_true, List.singleton_append]
    refine always_step _ _ _ ?_ ?_
    · refine hq _ _ _ (by simp only [List.length_cons]; omega)
        (by simp only [List.length_cons]; omega) ⟨h2, h3, h4, h5⟩ ?_
      intro l r2 hs
      simp only [Op.ins, step, Outcome.goto.injEq] at hs
      exact ⟨hs.1.symm, Or.inl hc⟩
    · intro cur1 r1 hn
      simp only [next, step, Op.ins] at hn
      cases hf : findLabel (matchDst mode) P with
      | none => rw [hf] at hn; simp at hn
      | some tm =>
        rw [hf] at hn
        simp only [Option.some.injEq, Prod.mk.injEq] at hn
        obtain ⟨rfl, rfl⟩ := hn
        exact hhit (Or.inl hc) r ⟨h2, h3, h4, h5⟩ tm hf
  · simp only [if_neg hc, accessTest, List.length_cons, List.length_nil] at hq
    simp only [hc, if_false, accessTest, List.cons_append, List.nil_append]
    refine always_step _ _ _ ?_ ?_
    · refine hq _ _ _ (by simp only [List.length_cons]; omega)
        (by simp only [List.length_cons]; omega) ⟨h2, h3, h4, h5⟩ ?_
      intro l r2 hs
      simp [Op.ins, step] at hs
    · intro cur1 r1 hn
      simp only [next, step, Op.ins, Option.some.injEq, Prod.mk.injEq] at hn
      obtain ⟨rfl, rfl⟩ := hn
      refine always_step _ _ _ ?_ ?_
      · refine hq _ _ _ (by simp only [List.length_cons]; omega)
          (by simp only [List.length_cons]; omega) ⟨h2, h3, h4, h5⟩ ?_
        intro l r2 hs
        simp [Op.ins, step] at hs
      · intro cur2 r2 hn
        simp only [next, step, Op.ins, Option.some.injEq, Prod.mk.injEq] at hn
        obtain ⟨rfl, rfl⟩ := hn
        by_cases hv : (r.r3 % 4294967296) &&& bits32 d.AccessMask = r.r3
        · have hp : accessPass elide d a := Or.inr (by rw [← h3]; exact hv)
          refine always_step _ _ _ ?_ ?_
          · refine hq _ _ _ (by simp only [List.length_cons]; omega)
              (by simp only [List.length_cons]; omega) ⟨h2, h3, h4, h5⟩ ?_
            intro l r2 hs
            simp only [step, Regs.get, Regs.set, Nat.mod_mod, hv, if_true,
              Outcome.goto.injEq] at hs
            exact ⟨hs.1.symm, hp⟩
          · intro cur3 r3 hn
            simp only [next, step, Regs.get, Regs.set, Nat.mod_mod, hv, if_true] at hn
            cases hf : findLabel (matchDst mode) P with
            | none => rw [hf] at hn; simp at hn
            | some tm =>
              rw [hf] at hn
              simp only [Option.some.injEq, Prod.mk.injEq] at hn
              obtain ⟨rfl, rfl⟩ := hn
              refine hhit hp _ ?_ tm hf
              exact ⟨h2, h3, h4, h5⟩
        · have hp : ¬ accessPass elide d a := by
            intro h
            rcases h with h | h
            · exact hc h
            · exact hv (by rw [h3]; exact h)
          refine always_step _ _ _ ?_ ?_
          · refine hq _ _ _ (by simp only [List.length_cons]; omega)
              (by simp only [List.length_cons]; omega) ⟨h2, h3, h4, h5⟩ ?_
            intro l r2 hs
            simp [step, Regs.get, Regs.set, hv] at hs
          · intro cur3 r3 hn
            simp only [next, step, Regs.get, Regs.set, Nat.mod_mod, hv, if_false,
              Option.some.injEq, Prod.mk.injEq] at hn
            obtain ⟨rfl, rfl⟩ := hn
            refine hmiss hp _ ?_
            exact ⟨h2, h3, h4, h5⟩

/-- One rule block: every configuration inside the block satisfies `Q` as soon as `Q`
holds of the operations that branch to `j` only when a guard fails and to the match label
only when the guards and the access test pass. -/
theorem always_block {P : Instructions} {inp : Input} {Q : Nat → Op → Regs → Prop}
    (elide : Bool) (d : DeviceSpec) (mode : Mode) (j : String) (a : Attempt)
    (nxt : Instructions) (r : Regs)
    (hr : r.Holds a)
    (hq : ∀ (k : Nat) (op : Op) (r1 : Regs), nxt.length < k →
      k ≤ nxt.length + (addDeviceWith elide d mode j).length → r1.Holds a →
      (∀ l r2, step inp r1 op = .goto l r2 →
        (l = j ∧ ¬ guardsPass d a) ∨
          (l = matchDst mode ∧ guardsPass d a ∧ accessPass elide d a)) →
      Q k op r1)
    (hfail : ¬ guardsPass d a → ∀ tj, findLabel j P = some tj → Always P inp Q tj r)
    (hhit : guardsPass d a → accessPass elide d a → ∀ r1 : Regs, r1.Holds a →
      ∀ tm, findLabel (matchDst mode) P = some tm → Always P inp Q tm r1)
    (hmiss : guardsPass d a → ¬ accessPass elide d a → ∀ r1 : Regs, r1.Holds a →
      Always P inp Q nxt r1) :
    Always P inp Q (addDeviceWith elide d mode j ++ nxt) r := by
  have hlen := blockBody_length elide d mode j
  have l1 : d.DeviceType ≠ AnyDevice →
      (if d.DeviceType ≠ AnyDevice then [(Op.JNEImm .R2 d.DeviceType j).ins] else []).length = 1 :=
    fun h => by rw [if_pos h]; rfl
  have l2 : d.Major ≠ -1 →
      (if d.Major ≠ -1 then [(Op.JNEImm .R4 d.Major j).ins] else []).length = 1 :=
    fun h => by rw [if_pos h]; rfl
  have l3 : d.Minor ≠ -1 →
      (if d.Minor ≠ -1 then [(Op.JNEImm .R5 d.Minor j).ins] else []).length = 1 :=
    fun h => by rw [if_pos h]; rfl
  have h2 : r.get .R2 = a.type := hr.1
  have h4 : r.get .R4 = a.major := hr.2.2.1
  have h5 : r.get .R5 = a.minor := hr.2.2.2
  have hgoto : ∀ (reg : Register) (v : Int), (guardsPass d a → r.get reg = sext64 v) →
      ∀ l r2, step inp r (Op.JNEImm reg v j) = .goto l r2 →
        (l = j ∧ ¬ guardsPass d a) ∨
          (l = matchDst mode ∧ guardsPass d a ∧ accessPass elide d a) := by
    intro reg v hg l r2 hs
    simp only [step] at hs
    split at hs
    · rename_i hne
      simp only [Outcome.goto.injEq] at hs
      exact Or.inl ⟨hs.1.symm, fun h => hne (hg h)⟩
    · cases hs
  rw [addDeviceWith_eq]
  apply always_tag
  unfold blockBody
  simp only [List.append_assoc]
  refine always_guard (d.DeviceType ≠ AnyDevice) _ _ _ _ _ ?_ ?_ ?_
  · intro c
    refine hq _ _ _ ?_ ?_ hr (hgoto _ _ ?_)
    · simp only [List.length_append]; omega
    · rw [hlen, l1 c]; simp only [List.length_append]; omega
    · intro hg
      rcases hg.1 with g | g
      · exact absurd g c
      · rw [h2]; exact g
  · intro g1
    refine always_guard (d.Major ≠ -1) _ _ _ _ _ ?_ ?_ ?_
    · intro c
      refine hq _ _ _ ?_ ?_ hr (hgoto _ _ ?_)
      · simp only [List.length_append]; omega
      · rw [hlen, l2 c]; simp only [List.length_append]; omega
      · intro hg
        rcases hg.2.1 with g | g
        · exact absurd g c
        · rw [h4]; exact g
    · intro g2
      refine always_guard (d.Minor ≠ -1) _ _ _ _ _ ?_ ?_ ?_
      · intro c
        refine hq _ _ _ ?_ ?_ hr (hgoto _ _ ?_)
        · simp only [List.length_append]; omega
        · rw [hlen, l3 c]; simp only [List.length_append]; omega
        · intro hg
          rcases hg.2.2 with g | g
          · exact absurd g c
          · rw [h5]; exact g
      · intro g3
        have hg : guardsPass d a := by
          refine ⟨?_, ?_, ?_⟩
          · rcases g1 with g | g
            · exact Or.inl (not_not.mp g)
            · exact Or.inr (h2 ▸ g)
          · rcases g2 with g | g
            · exact Or.inl (not_not.mp g)
            · exact Or.inr (h4 ▸ g)
          · rcases g3 with g | g
            · exact Or.inl (not_not.mp g)
            · exact Or.inr (h5 ▸ g)
        refine always_access elide d mode a nxt r hr ?_ (hhit hg) (hmiss hg)
        intro k op r1 hk1 hk2 hr1 hch
        refine hq k op r1 hk1 ?_ hr1 ?_
        · rw [hlen]; omega
        · intro l r2 hs
          exact Or.inr ⟨(hch l r2 hs).1, hg, (hch l r2 hs).2⟩
      · intro c hne tj hj
        refine hfail ?_ tj hj
        intro hg
        rcases hg.2.2 with g | g
        · exact c g
        · exact hne (h5 ▸ g)
    · intro c hne tj hj
      refine hfail ?_ tj hj
      intro hg
      rcases hg.2.1 with g | g
      · exact c g
      · exact hne (h4 ▸ g)
  · intro c hne tj hj
    refine hfail ?_ tj hj
    intro hg
    rcases hg.1 with g | g
    · exact c g
    · exact hne (h2 ▸ g)

/-! ## Execution moves forward -/

theorem step_goto_reference (inp : Input) (r : Regs) (op : Op) (l : String) (r1 : Regs)
    (h : step inp r op = .goto l r1) : op.reference = some l := by
  cases op with
  | LoadMemWord dst src off =>
    simp only [step] at h
    split at h <;> cases h
  | AndImm dst v => cases h
  | RShImm dst v => cases h
  | MovReg32 dst src => cases h
  | AndImm32 dst v => cases h
  | LoadImmDWord dst v => cases h
  | JNEImm dst v l1 =>
    simp only [step] at h
    split at h
    · simp only [Outcome.goto.injEq] at h
      rw [Op.reference, h.1]
    · cases h
  | JaLabel l1 =>
    simp only [step, Outcome.goto.injEq] at h
    rw [Op.reference, h.1]
  | JEqReg dst src l1 =>
    simp only [step] at h
    split at h
    · simp only [Outcome.goto.injEq] at h
      rw [Op.reference, h.1]
    · cases h
  | Return => cases h

/-- One step of the compiler's output leads to a strictly later position. -/
theorem next_shorter (elide swap : Bool) (mode : Mode) (L : DeviceList)
    (hL : (L.map DeviceSpec.Label).Nodup) (inp : Input) (pre cur cur1 : Instructions)
    (r r1 : Regs) (hP : compileWith elide swap mode L = pre ++ cur)
    (h : next (compileWith elide swap mode L) inp (cur, r) = some (cur1, r1)) :
    (∃ pre1, compileWith elide swap mode L = pre1 ++ cur1) ∧ cur1.length < cur.length := by
  cases cur with
  | nil => simp [next] at h
  | cons i rest =>
    simp only [next] at h
    cases hs : step inp r i.op with
    | fall r2 =>
      rw [hs] at h
      simp only [Option.some.injEq, Prod.mk.injEq] at h
      obtain ⟨rfl, rfl⟩ := h
      exact ⟨⟨pre ++ [i], by rw [hP]; simp⟩, by simp⟩
    | goto l r2 =>
      rw [hs] at h
      simp only at h
      have hi : (compileWith elide swap mode L)[pre.length]? = some i := by
        rw [hP, List.getElem?_append_right (Nat.le_refl _)]; simp
      obtain ⟨t, ht1, ht2, ht3⟩ := forward_compileWith elide swap mode L hL pre.length i l hi
        (step_goto_reference inp r i.op l r2 hs)
      rw [ht3] at h
      simp only [Option.some.injEq, Prod.mk.injEq] at h
      obtain ⟨rfl, rfl⟩ := h
      refine ⟨⟨(compileWith elide swap mode L).take t, (List.take_append_drop t _).symm⟩, ?_⟩
      have hl : (compileWith elide swap mode L).length = pre.length + (rest.length + 1) := by
        rw [hP]; simp
      simp only [List.length_drop, List.length_cons]
      omega
    | exit v => rw [hs] at h; simp at h
    | fault => rw [hs] at h; simp at h

theorem stepsN_shorter (elide swap : Bool) (mode : Mode) (L : DeviceList)
    (hL : (L.map DeviceSpec.Label).Nodup) (inp : Input) (n : Nat) :
    ∀ (pre cur cur1 : Instructions) (r r1 : Regs),
      compileWith elide swap mode L = pre ++ cur →
      stepsN (compileWith elide swap mode L) inp n (cur, r) = some (cur1, r1) →
      (∃ pre1, compileWith elide swap mode L = pre1 ++ cur1) ∧ cur1.length ≤ cur.length := by
  induction n with
  | zero =>
    intro pre cur cur1 r r1 hP h
    simp only [stepsN, Option.some.injEq, Prod.mk.injEq] at h
    obtain ⟨rfl, rfl⟩ := h
    exact ⟨⟨pre, hP⟩, Nat.le_refl _⟩
  | succ n ih =>
    intro pre cur cur1 r r1 hP h
    simp only [stepsN] at h
    cases hn : next (compileWith elide swap mode L) inp (cur, r) with
    | none => rw [hn] at h; simp at h
    | some c2 =>
      rw [hn] at h
      obtain ⟨⟨pre2, hP2⟩, hlt⟩ := next_shorter elide swap mode L hL inp pre cur c2.1 r c2.2 hP hn
      obtain ⟨hs, hle⟩ := ih pre2 c2.1 cur1 c2.2 r1 hP2 h
      exact ⟨hs, by omega⟩

theorem always_of_short {Q : Nat → Op → Regs → Prop} (elide swap : Bool) (mode : Mode)
    (L : DeviceList) (hL : (L.map DeviceSpec.Label).Nodup) (inp : Input)
    (pre cur : Instructions) (r : Regs) (hP : compileWith elide swap mode L = pre ++ cur)
    (hQ : ∀ k op r1, k ≤ cur.length → Q k op r1) :
    Always (compileWith elide swap mode L) inp Q cur r := by
  intro n i rest r1 h
  exact hQ _ _ _ (stepsN_shorter elide swap mode L hL inp n pre cur _ r r1 hP h).2

theorem length_terminalWith (swap : Bool) (mode : Mode) :
    (terminalWith swap mode).length = 4 := by
  cases swap <;> cases mode <;> rfl

theorem findLabel_in_suffix {P : Instructions} (hnd : (symbols P).Nodup) (l : String)
    (A B t : Instructions) (hP : P = A ++ B) (hl : l ∈ symbols B)
    (h : findLabel l P = some t) : ∃ X, B = X ++ t := by
  rw [findLabel_suffix hnd l A B hP hl] at h
  obtain ⟨X, hX, _⟩ := findLabel_some_split l B t h
  exact ⟨X, hX⟩

/-- The `jumpDst` of a rule that is not the last one is anchored at the first instruction
of the next rule's block. -/
theorem findLabel_next_block {P : Instructions} (elide swap : Bool) (mode : Mode)
    (hnd : (symbols P).Nodup) (M : DeviceList) (hM : M ≠ []) (pre : Instructions)
    (hP : P = pre ++ (addDevicesWith elide mode M ++ terminalWith swap mode)) :
    findLabel (jumpDst mode M) P =
      some (addDevicesWith elide mode M ++ terminalWith swap mode) := by
  cases M with
  | nil => exact absurd rfl hM
  | cons d1 rest1 =>
    have hmem : d1.Label ∈ symbols (addDevicesWith elide mode (d1 :: rest1) ++
        terminalWith swap mode) := by
      rw [symbols_append, symbols_addDevicesWith]
      simp
    rw [jumpDst, findLabel_suffix hnd _ _ _ hP hmem]
    exact findLabel_head_rules elide mode d1 rest1 _

theorem addDevicesWith_append (elide : Bool) (mode : Mode) (A B : DeviceList) :
    ∃ X, addDevicesWith elide mode (A ++ B) = X ++ addDevicesWith elide mode B := by
  induction A with
  | nil => exact ⟨[], rfl⟩
  | cons d rest ih =>
    obtain ⟨X, hX⟩ := ih
    refine ⟨addDeviceWith elide d mode (jumpDst mode (rest ++ B)) ++ X, ?_⟩
    show addDeviceWith elide d mode (jumpDst mode (rest ++ B)) ++
        addDevicesWith elide mode (rest ++ B) = _
    rw [hX, List.append_assoc]

/-- After a branch to a label anchored in the part `B` of the program, every
configuration lies in `B`. -/
theorem always_target {Q : Nat → Op → Regs → Prop} (elide swap : Bool) (mode : Mode)
    (L : DeviceList) (hL : (L.map DeviceSpec.Label).Nodup) (inp : Input) (l : String)
    (A B t : Instructions) (r : Regs)
    (hP : compileWith elide swap mode L = A ++ B) (hl : l ∈ symbols B)
    (h : findLabel l (compileWith elide swap mode L) = some t)
    (hQ : ∀ k op r1, k ≤ B.length → Q k op r1) :
    Always (compileWith elide swap mode L) inp Q t r := by
  have hnd := (nodup_symbols_compileWith elide swap mode L).mpr hL
  obtain ⟨X, hX⟩ := findLabel_in_suffix hnd l A B t hP hl h
  refine always_of_short elide swap mode L hL inp (A ++ X) t r
    (by rw [hP, hX, List.append_assoc]) ?_
  intro k op r1 hk
  exact hQ k op r1 (by rw [hX, List.length_append]; omega)

/-- The blocks of the rules `L1` in front of the rules `M`: `Q` holds in every
configuration from the first block of `L1` on, when it holds at every position before the
blocks of `M`, in the terminal blocks, and from the first block of `M` on. -/
theorem always_prefix {inp : Input} {Q : Nat → Op → Regs → Prop} (elide swap : Bool)
    (mode : Mode) (L : DeviceList) (hL : (L.map DeviceSpec.Label).Nodup) (a : Attempt)
    (M : DeviceList) (hM : M ≠ [])
    (hQhi : ∀ k op r1,
      (addDevicesWith elide mode M ++ terminalWith swap mode).length < k → Q k op r1)
    (hQ4 : ∀ k op r1, k ≤ 4 → Q k op r1)
    (hpiv : ∀ pre r,
      compileWith elide swap mode L =
        pre ++ (addDevicesWith elide mode M ++ terminalWith swap mode) →
      r.Holds a →
      Always (compileWith elide swap mode L) inp Q
        (addDevicesWith elide mode M ++ terminalWith swap mode) r) :
    ∀ (L1 : DeviceList) (pre : Instructions),
      compileWith elide swap mode L =
        pre ++ (addDevicesWith elide mode (L1 ++ M) ++ terminalWith swap mode) →
      ∀ r : Regs, r.Holds a →
        Always (compileWith elide swap mode L) inp Q
          (addDevicesWith elide mode (L1 ++ M) ++ terminalWith swap mode) r := by
  have hnd := (nodup_symbols_compileWith elide swap mode L).mpr hL
  intro L1
  induction L1 with
  | nil =>
    intro pre hP r hr
    exact hpiv pre r hP hr
  | cons d1 rest ih =>
    intro pre hP r hr
    have hcur : addDevicesWith elide mode (d1 :: rest ++ M) ++ terminalWith swap mode =
        addDeviceWith elide d1 mode (jumpDst mode (rest ++ M)) ++
          (addDevicesWith elide mode (rest ++ M) ++ terminalWith swap mode) := by
      simp [addDevicesWith]
    have hP1 : compileWith elide swap mode L =
        (pre ++ addDeviceWith elide d1 mode (jumpDst mode (rest ++ M))) ++
          (addDevicesWith elide mode (rest ++ M) ++ terminalWith swap mode) := by
      rw [hP, hcur]
      simp
    have hP2 : compileWith elide swap mode L =
        (pre ++ addDevicesWith elide mode (d1 :: rest ++ M)) ++ terminalWith swap mode := by
      rw [hP]
      simp
    have hne : rest ++ M ≠ [] := by simp [hM]
    obtain ⟨X, hX⟩ := addDevicesWith_append elide mode rest M
    rw [hcur]
    refine always_block elide d1 mode _ a _ r hr ?_ ?_ ?_ ?_
    · intro k op r1 hk1 _ _ _
      refine hQhi k op r1 ?_
      rw [hX] at hk1
      simp only [List.length_append] at hk1 ⊢
      omega
    · intro _ tj hj
      rw [findLabel_next_block elide swap mode hnd (rest ++ M) hne _ hP1] at hj
      rw [← Option.some.inj hj]
      exact ih _ hP1 r hr
    · intro _ _ r1 _ tm htm
      exact always_target elide swap mode L hL inp _ _ _ tm r1 hP2
        (matchDst_mem_terminal swap mode) htm
        (fun k op r2 hk => hQ4 k op r2 (by rw [length_terminalWith] at hk; exact hk))
    · intro _ _ r1 hr1
      exact ih _ hP1 r1 hr1

theorem stepsN_in_prologue (X : Instructions) (inp : Input) (n : Nat) (hn : n < 6) :
    ∃ r, stepsN (initProgram ++ X) inp n (initProgram ++ X, initRegs) =
      some (initProgram.drop n ++ X, r) := by
  interval_cases n <;>
    simp [initProgram, stepsN, next, step, Op.ins, Instruction.WithSource, Regs.get, Regs.set,
      initRegs, Input.load, U32Size, sext64]

/-- The whole program: `Q` holds in every configuration when it holds in the prologue and
in every configuration from the first rule block on. -/
theorem always_program {Q : Nat → Op → Regs → Prop} (X : Instructions) (inp : Input)
    (hQ : ∀ k op r1, X.length < k → Q k op r1)
    (h : ∀ r : Regs, r.Holds (decode inp) → Always (initProgram ++ X) inp Q X r) :
    Always (initProgram ++ X) inp Q (initProgram ++ X) initRegs := by
  intro n i rest r1 hs
  by_cases hn : n < 6
  · obtain ⟨r, hr⟩ := stepsN_in_prologue X inp n hn
    rw [hr] at hs
    simp only [Option.some.injEq, Prod.mk.injEq] at hs
    refine hQ _ _ _ ?_
    rw [← hs.1, List.length_append, List.length_drop]
    have h6 : initProgram.length = 6 := rfl
    omega
  · obtain ⟨m, rfl⟩ : ∃ m, n = 6 + m := ⟨n - 6, by omega⟩
    rw [stepsN_add, stepsN_prologue] at hs
    exact h _ ⟨rfl, rfl, rfl, rfl⟩ m i rest r1 hs

/-- Every configuration of a run is a position of the program. -/
theorem stepsN_position (elide swap : Bool) (mode : Mode) (L : DeviceList)
    (hL : (L.map DeviceSpec.Label).Nodup) (inp : Input) (n : Nat) (cur : Instructions)
    (r : Regs)
    (h : stepsN (compileWith elide swap mode L) inp n (compileWith elide swap mode L, initRegs) =
      some (cur, r)) :
    ∃ k, cur = (compileWith elide swap mode L).drop k ∧
      k + cur.length = (compileWith elide swap mode L).length := by
  obtain ⟨⟨pre1, hP1⟩, _⟩ := stepsN_shorter elide swap mode L hL inp n [] _ cur initRegs r
    (List.nil_append _).symm h
  refine ⟨pre1.length, ?_, ?_⟩
  · rw [hP1, List.drop_left]
  · rw [hP1, List.length_append]

theorem jumpDst_ne_matchDst (mode : Mode) (rest : DeviceList) :
    jumpDst mode rest ≠ matchDst mode := by
  intro h
  rcases jumpDst_mem mode rest with hm | hm
  · rw [h] at hm
    obtain ⟨d, _, hd⟩ := List.mem_map.mp hm
    cases mode
    · exact Label_ne_allow d hd
    · exact Label_ne_deny d hd
  · rw [h] at hm
    cases mode <;> exact absurd hm (by decide)

theorem terminalWith_false (mode : Mode) : terminalWith false mode = finishProgram [] mode :=
  rfl

/-- When the rule `d` matches, every configuration of the run is at a position before the
end of the block of `d` or in the terminal blocks. -/
theorem always_after_match (mode : Mode) (L1 : DeviceList) (d : DeviceSpec) (L2 : DeviceList)
    (a : Attempt) (hL : ((L1 ++ d :: L2).map DeviceSpec.Label).Nodup) (ha : a.valid)
    (hm : d.Matches a) :
    Always (compileWith true false mode (L1 ++ d :: L2)) (pack a)
      (fun k _ _ =>
        k ≤ 4 ∨ (addDevicesWith true mode L2 ++ terminalWith false mode).length < k)
      (compileWith true false mode (L1 ++ d :: L2)) initRegs := by
  have hP := compileWith_eq true false mode (L1 ++ d :: L2)
  obtain ⟨X, hX⟩ := addDevicesWith_append true mode L1 (d :: L2)
  have hd : addDevicesWith true mode (d :: L2) =
      addDeviceWith true d mode (jumpDst mode L2) ++ addDevicesWith true mode L2 := rfl
  rw [hP]
  refine always_program _ _ ?_ ?_
  · intro k op r1 hk
    refine Or.inr ?_
    rw [hX, hd] at hk
    simp only [List.length_append] at hk ⊢
    omega
  · intro r hr
    rw [decode_pack a ha] at hr
    rw [← hP]
    refine always_prefix true false mode _ hL a (d :: L2) (List.cons_ne_nil _ _) ?_ ?_ ?_
      L1 initProgram hP r hr
    · intro k op r1 hk
      refine Or.inr ?_
      rw [hd] at hk
      simp only [List.length_append] at hk ⊢
      omega
    · intro k op r1 hk
      exact Or.inl hk
    · intro pre r1 hP1 hr1
      have hP2 : compileWith true false mode (L1 ++ d :: L2) =
          (pre ++ addDevicesWith true mode (d :: L2)) ++ terminalWith false mode := by
        rw [hP1, List.append_assoc]
      rw [hd, List.append_assoc]
      refine always_block true d mode _ a _ r1 hr1 ?_ ?_ ?_ ?_
      · intro k op r2 hk _ _ _
        exact Or.inr hk
      · intro hg
        exact absurd (guardsPass_of_Matches d a ha hm) hg
      · intro _ _ r2 _ tm htm
        exact always_target true false mode _ hL (pack a) _ _ _ tm r2 hP2
          (matchDst_mem_terminal false mode) htm
          (fun k op r3 hk => Or.inl (by rw [length_terminalWith] at hk; exact hk))
      · intro _ hacc
        exact absurd (accessPass_of_Matches true d a ha hm) hacc

/-- The rules after a matching rule are not consulted: no configuration of the run is at a
position in their blocks. -/
theorem rules_after_match_skipped (mode : Mode) (L1 : DeviceList) (d : DeviceSpec)
    (L2 : DeviceList) (a : Attempt) (hL : ((L1 ++ d :: L2).map DeviceSpec.Label).Nodup)
    (ha : a.valid) (hm : d.Matches a) :
    ∃ head : Instructions,
      buildProgram mode (L1 ++ d :: L2) =
        head ++ (addDevicesFrom mode L2 ++ finishProgram [] mode) ∧
      ∀ (n : Nat) (cur : Instructions) (r : Regs),
        stepsN (buildProgram mode (L1 ++ d :: L2)) (pack a) n
          (buildProgram mode (L1 ++ d :: L2), initRegs) = some (cur, r) →
        ∃ k, cur = (buildProgram mode (L1 ++ d :: L2)).drop k ∧
          (k < head.length ∨ head.length + (addDevicesFrom mode L2).length ≤ k) := by
  have hP := compileWith_eq true false mode (L1 ++ d :: L2)
  obtain ⟨X, hX⟩ := addDevicesWith_append true mode L1 (d :: L2)
  have hd : addDevicesWith true mode (d :: L2) =
      addDeviceWith true d mode (jumpDst mode L2) ++ addDevicesWith true mode L2 := rfl
  have hal := always_after_match mode L1 d L2 a hL ha hm
  rw [buildProgram_eq, addDevicesFrom_eq, ← terminalWith_false]
  have hsplit : compileWith true false mode (L1 ++ d :: L2) =
      (initProgram ++ (X ++ addDeviceWith true d mode (jumpDst mode L2))) ++
        (addDevicesWith true mode L2 ++ terminalWith false mode) := by
    rw [hP, hX, hd]
    simp only [List.append_assoc]
  refine ⟨initProgram ++ (X ++ addDeviceWith true d mode (jumpDst mode L2)), hsplit, ?_⟩
  intro n cur r h
  obtain ⟨k, hk, hlen⟩ := stepsN_position true false mode _ hL (pack a) n cur r h
  refine ⟨k, hk, ?_⟩
  have hPl := congrArg List.length hsplit
  rw [List.length_append, List.length_append _ (terminalWith false mode),
    length_terminalWith] at hPl
  cases cur with
  | nil =>
    simp only [List.length_nil] at hlen
    omega
  | cons i rest =>
    have hq := hal n i rest r h
    simp only [List.length_append, length_terminalWith] at hq
    rcases hq with hq | hq <;> omega

/-- A rule whose access test fails for the attempt: in no configuration of the run does an
instruction of its block branch to the match label. -/
theorem always_failed_access (mode : Mode) (L1 : DeviceList) (z : DeviceSpec)
    (L2 : DeviceList) (a : Attempt) (hL : ((L1 ++ z :: L2).map DeviceSpec.Label).Nodup)
    (ha : a.valid) (hz : ¬ accessPass true z a) :
    Always (compileWith true false mode (L1 ++ z :: L2)) (pack a)
      (fun k op r1 =>
        (addDevicesWith true mode L2 ++ terminalWith false mode).length < k →
        k ≤ (addDevicesWith true mode L2 ++ terminalWith false mode).length +
          (addDeviceWith true z mode (jumpDst mode L2)).length →
        ∀ l r2, step (pack a) r1 op = .goto l r2 → l ≠ matchDst mode)
      (compileWith true false mode (L1 ++ z :: L2)) initRegs := by
  have hP := compileWith_eq true false mode (L1 ++ z :: L2)
  obtain ⟨X, hX⟩ := addDevicesWith_append true mode L1 (z :: L2)
  have hd : addDevicesWith true mode (z :: L2) =
      addDeviceWith true z mode (jumpDst mode L2) ++ addDevicesWith true mode L2 := rfl
  rw [hP]
  refine always_program _ _ ?_ ?_
  · intro k op r1 hk _ hk2
    rw [hX, hd] at hk
    simp only [List.length_append] at hk hk2
    omega
  · intro r hr
    rw [decode_pack a ha] at hr
    rw [← hP]
    refine always_prefix true false mode _ hL a (z :: L2) (List.cons_ne_nil _ _) ?_ ?_ ?_
      L1 initProgram hP r hr
    · intro k op r1 hk _ hk2
      rw [hd] at hk
      simp only [List.length_append] at hk hk2
      omega
    · intro k op r1 hk hk1
      simp only [List.length_append, length_terminalWith] at hk1
      omega
    · intro pre r1 hP1 hr1
      have hP2 : compileWith true false mode (L1 ++ z :: L2) =
          (pre ++ addDeviceWith true z mode (jumpDst mode L2)) ++
            (addDevicesWith true mode L2 ++ terminalWith false mode) := by
        rw [hP1, hd]
        simp only [List.append_assoc]
      rw [hd, List.append_assoc]
      refine always_block true z mode _ a _ r1 hr1 ?_ ?_ ?_ ?_
      · intro k op r2 _ _ _ hch _ _ l r3 hs hl
        rcases hch l r3 hs with ⟨hj, _⟩ | ⟨_, _, hacc⟩
        · exact jumpDst_ne_matchDst mode L2 (hj ▸ hl)
        · exact hz hacc
      · intro _ tj hj
        exact always_target true false mode _ hL (pack a) _ _ _ tj r1 hP2
          (jumpDst_mem_symbols true false mode L2) hj
          (fun k op r3 hk hk1 => absurd hk1 (by omega))
      · intro _ hacc
        exact absurd hacc hz
      · intro _ _ r2 _
        exact always_of_short true false mode _ hL (pack a) _ _ r2 hP2
          (fun k op r3 hk hk1 => absurd hk1 (by omega))

/-- In the program for `L1 ++ z :: L2`, where the access test of `z` fails for the
attempt, no instruction of the block of `z` branches to the match label in any
configuration of the run. -/
theorem failed_access_block_no_match (mode : Mode) (L1 : DeviceList) (z : DeviceSpec)
    (L2 : DeviceList) (a : Attempt) (hL : ((L1 ++ z :: L2).map DeviceSpec.Label).Nodup)
    (ha : a.valid) (hz : ¬ accessPass true z a) :
    ∃ head : Instructions,
      buildProgram mode (L1 ++ z :: L2) =
        head ++ (addDevice z mode (jumpDst mode L2) ++
          (addDevicesFrom mode L2 ++ finishProgram [] mode)) ∧
      ∀ (n k : Nat) (i : Instruction) (rest : Instructions) (r : Regs),
        stepsN (buildProgram mode (L1 ++ z :: L2)) (pack a) n
          (buildProgram mode (L1 ++ z :: L2), initRegs) = some (i :: rest, r) →
        (buildProgram mode (L1 ++ z :: L2)).drop k = i :: rest →
        head.length ≤ k → k < head.length + (addDevice z mode (jumpDst mode L2)).length →
        ∀ l r1, step (pack a) r i.op = .goto l r1 → l ≠ matchDst mode := by
  have hP := compileWith_eq true false mode (L1 ++ z :: L2)
  obtain ⟨X, hX⟩ := addDevicesWith_append true mode L1 (z :: L2)
  have hd : addDevicesWith true mode (z :: L2) =
      addDeviceWith true z mode (jumpDst mode L2) ++ addDevicesWith true mode L2 := rfl
  have hal := always_failed_access mode L1 z L2 a hL ha hz
  rw [buildProgram_eq, addDevicesFrom_eq, addDevice_eq, ← terminalWith_false]
  have hsplit : compileWith true false mode (L1 ++ z :: L2) =
      (initProgram ++ X) ++ (addDeviceWith true z mode (jumpDst mode L2) ++
        (addDevicesWith true mode L2 ++ terminalWith false mode)) := by
    rw [hP, hX, hd]
    simp only [List.append_assoc]
  refine ⟨initProgram ++ X, hsplit, ?_⟩
  intro n k i rest r h hk hk1 hk2 l r1 hs
  have hPl := congrArg List.length hsplit
  rw [List.length_append, List.length_append (addDeviceWith true z mode (jumpDst mode L2))] at hPl
  have hdl := congrArg List.length hk
  rw [List.length_drop] at hdl
  refine hal n i rest r h ?_ ?_ l r1 hs
  · omega
  · omega

/-! ## Verdicts of the compiled program -/

/-- C1: for every Mode, every DeviceList with pairwise distinct labels and every access
attempt, if some rule of the list matches the attempt then the program of `buildProgram`
returns the Mode's match verdict on the packed input: 1 for AllowList, 0 for DenyList.
The rules after a matching rule `d` (in particular after the first matching one) are
never consulted: writing the list as `L1 ++ d :: L2`, the program is `head` (the prologue
and the blocks of `L1` and `d`) followed by the blocks of `L2` and the terminal blocks,
and in every configuration of the run the current instruction is at a position `k` inside
`head` or in the terminal blocks, never in a block of `L2`. -/
theorem buildProgram_returns_match (mode : Mode) (L : DeviceList) (a : Attempt)
    (hL : (L.map DeviceSpec.Label).Nodup) (ha : a.valid)
    (hm : ∃ d ∈ L, d.Matches a) :
    run (buildProgram mode L) (pack a) = some (if mode = Mode.AllowList then 1 else 0) ∧
    ∀ (L1 : DeviceList) (d : DeviceSpec) (L2 : DeviceList), L = L1 ++ d :: L2 → d.Matches a →
      ∃ head : Instructions,
        buildProgram mode L = head ++ (addDevicesFrom mode L2 ++ finishProgram [] mode) ∧
        ∀ (n : Nat) (cur : Instructions) (r : Regs),
          stepsN (buildProgram mode L) (pack a) n (buildProgram mode L, initRegs) =
            some (cur, r) →
          ∃ k, cur = (buildProgram mode L).drop k ∧
            (k < head.length ∨ head.length + (addDevicesFrom mode L2).length ≤ k) := by
  constructor
  · rw [run_buildProgram mode L a hL ha]
    obtain ⟨d, hd, hdm⟩ := hm
    exact congrArg some (evalRules_hit true false mode a L
      ⟨d, hd, guardsPass_of_Matches d a ha hdm, accessPass_of_Matches true d a ha hdm⟩)
  · intro L1 d L2 hsplit hdm
    subst hsplit
    exact rules_after_match_skipped mode L1 d L2 a hL ha hdm

/-- The ordering scenario: `[(Char,1,*,Write), (Char,1,3,AllAccess)]` under AllowList
grants `(Char,1,3,Write)` through its first rule, and no configuration of the run is at a
position in the block of the second rule. -/
theorem buildProgram_returns_match_witness :
    (([DeviceSpec.mk "" CharDevice WriteAccess 1 (-1),
        DeviceSpec.mk "" CharDevice AllAccess 1 3] : DeviceList).map DeviceSpec.Label).Nodup ∧
    (Attempt.mk 2 1 3 4).valid ∧
    (∃ d ∈ ([DeviceSpec.mk "" CharDevice WriteAccess 1 (-1),
        DeviceSpec.mk "" CharDevice AllAccess 1 3] : DeviceList), d.Matches (Attempt.mk 2 1 3 4)) ∧
    run (buildProgram Mode.AllowList
        [DeviceSpec.mk "" CharDevice WriteAccess 1 (-1), DeviceSpec.mk "" CharDevice AllAccess 1 3])
      (pack (Attempt.mk 2 1 3 4)) = some 1 ∧
    ∃ head : Instructions,
      buildProgram Mode.AllowList
          [DeviceSpec.mk "" CharDevice WriteAccess 1 (-1),
            DeviceSpec.mk "" CharDevice AllAccess 1 3] =
        head ++ (addDevicesFrom Mode.AllowList [DeviceSpec.mk "" CharDevice AllAccess 1 3] ++
          finishProgram [] Mode.AllowList) ∧
      ∀ (n : Nat) (cur : Instructions) (r : Regs),
        stepsN (buildProgram Mode.AllowList
            [DeviceSpec.mk "" CharDevice WriteAccess 1 (-1),
              DeviceSpec.mk "" CharDevice AllAccess 1 3]) (pack (Attempt.mk 2 1 3 4)) n
          (buildProgram Mode.AllowList
            [DeviceSpec.mk "" CharDevice WriteAccess 1 (-1),
              DeviceSpec.mk "" CharDevice AllAccess 1 3], initRegs) = some (cur, r) →
        ∃ k, cur = (buildProgram Mode.AllowList
              [DeviceSpec.mk "" CharDevice WriteAccess 1 (-1),
                DeviceSpec.mk "" CharDevice AllAccess 1 3]).drop k ∧
          (k < head.length ∨
            head.length +
              (addDevicesFrom Mode.AllowList [DeviceSpec.mk "" CharDevice AllAccess 1 3]).length ≤
              k) :=
  have h := buildProgram_returns_match Mode.AllowList
    [DeviceSpec.mk "" CharDevice WriteAccess 1 (-1), DeviceSpec.mk "" CharDevice AllAccess 1 3]
    (Attempt.mk 2 1 3 4) (by decide) (by decide) ⟨_, List.mem_cons_self _ _, by decide⟩
  ⟨by decide, by decide, ⟨_, List.mem_cons_self _ _, by decide⟩, h.1,
   h.2 [] (DeviceSpec.mk "" CharDevice WriteAccess 1 (-1))
     [DeviceSpec.mk "" CharDevice AllAccess 1 3] rfl (by decide)⟩

/-- C2: for every Mode, every DeviceList (the empty one included) with pairwise distinct
labels and `int32` fields, and every access attempt whose requested access is a
combination of the Mknod, Read and Write bits, if no rule of the list matches the
attempt then the program of `buildProgram` returns the Mode's default verdict: 0 for
AllowList, 1 for DenyList. -/
theorem buildProgram_returns_default (mode : Mode) (L : DeviceList) (a : Attempt)
    (hL : (L.map DeviceSpec.Label).Nodup) (hR : ∀ d ∈ L, d.InRange) (ha : a.valid)
    (hq : a.requested < 8) (hno : ∀ d ∈ L, ¬ d.Matches a) :
    run (buildProgram mode L) (pack a) = some (if mode = Mode.AllowList then 0 else 1) := by
  rw [run_buildProgram mode L a hL ha]
  exact congrArg some (evalRules_miss true mode a L
    (fun d hd hp => hno d hd (Matches_of_pass d a ha (hR d hd) hq hp.1 hp.2)))

/-- Scenario 2: `[(Char,*,*,Mknod)]` under DenyList allows `(Char,7,7,Read)`. -/
theorem buildProgram_returns_default_witness :
    (([DeviceSpec.mk "" CharDevice MknodAccess (-1) (-1)] : DeviceList).map
      DeviceSpec.Label).Nodup ∧
    (∀ d ∈ ([DeviceSpec.mk "" CharDevice MknodAccess (-1) (-1)] : DeviceList), d.InRange) ∧
    (Attempt.mk 2 7 7 2).valid ∧ (Attempt.mk 2 7 7 2).requested < 8 ∧
    (∀ d ∈ ([DeviceSpec.mk "" CharDevice MknodAccess (-1) (-1)] : DeviceList),
      ¬ d.Matches (Attempt.mk 2 7 7 2)) ∧
    run (buildProgram Mode.DenyList [DeviceSpec.mk "" CharDevice MknodAccess (-1) (-1)])
      (pack (Attempt.mk 2 7 7 2)) = some 1 :=
  ⟨by decide, by decide, by decide, by decide, by decide,
   buildProgram_returns_default Mode.DenyList _ _ (by decide) (by decide) (by decide)
     (by decide) (by decide)⟩

/-- C3: for every Mode and every DeviceList with pairwise distinct labels, a label
referenced by a branch or jump instruction of the output of `buildProgram` is the symbol
of exactly one instruction of that output. -/
theorem buildProgram_reference_anchored_once (mode : Mode) (L : DeviceList)
    (hL : (L.map DeviceSpec.Label).Nodup) (ins : Instruction) (l : String)
    (hins : ins ∈ buildProgram mode L) (hl : ins.op.reference = some l) :
    anchorCount l (buildProgram mode L) = 1 := by
  rw [buildProgram_eq] at hins ⊢
  rw [anchorCount_eq_count]
  exact List.count_eq_one_of_mem ((nodup_symbols_compileWith true false mode L).mpr hL)
    (references_subset_symbols true false mode L l (mem_references_of_mem _ ins l hins hl))

/-- In the program for the basic preset, the first instruction branches to the label of
`/dev/zero`, which anchors one instruction. -/
theorem buildProgram_reference_anchored_once_witness :
    (BasicDevices.map DeviceSpec.Label).Nodup ∧
    ((Op.JNEImm .R2 2 "c:1:5:rwm").ins.WithSymbol "c:1:3:rwm").WithSource "/dev/null" ∈
      buildProgram Mode.AllowList BasicDevices ∧
    (((Op.JNEImm .R2 2 "c:1:5:rwm").ins.WithSymbol "c:1:3:rwm").WithSource
      "/dev/null").op.reference = some "c:1:5:rwm" ∧
    anchorCount "c:1:5:rwm" (buildProgram Mode.AllowList BasicDevices) = 1 :=
  ⟨by decide, by decide, rfl,
   buildProgram_reference_anchored_once Mode.AllowList BasicDevices (by decide)
     (((Op.JNEImm .R2 2 "c:1:5:rwm").ins.WithSymbol "c:1:3:rwm").WithSource "/dev/null")
     "c:1:5:rwm" (by decide) rfl⟩

/-- C4, as stated, fails: for two rules with the same label `c:1:3:rwm`, `buildProgram`
(which has no error result) returns the full eighteen-instruction sequence, in which
both rule blocks carry that label. -/
theorem buildProgram_duplicate_returns_sequence :
    ¬ (([DeviceSpec.mk "a" CharDevice AllAccess 1 3,
        DeviceSpec.mk "b" CharDevice AllAccess 1 3] : DeviceList).map DeviceSpec.Label).Nodup ∧
    buildProgram Mode.AllowList
        [DeviceSpec.mk "a" CharDevice AllAccess 1 3, DeviceSpec.mk "b" CharDevice AllAccess 1 3] =
      initProgram ++
      [⟨Op.JNEImm .R2 2 "c:1:3:rwm", some "c:1:3:rwm", some "a"⟩,
       ⟨Op.JNEImm .R4 1 "c:1:3:rwm", none, none⟩,
       ⟨Op.JNEImm .R5 3 "c:1:3:rwm", none, none⟩,
       ⟨Op.JaLabel "allow", none, none⟩,
       ⟨Op.JNEImm .R2 2 "deny", some "c:1:3:rwm", some "b"⟩,
       ⟨Op.JNEImm .R4 1 "deny", none, none⟩,
       ⟨Op.JNEImm .R5 3 "deny", none, none⟩,
       ⟨Op.JaLabel "allow", none, none⟩,
       ⟨Op.LoadImmDWord .R0 0, some "deny", none⟩,
       ⟨Op.Return, none, none⟩,
       ⟨Op.LoadImmDWord .R0 1, some "allow", none⟩,
       ⟨Op.Return, none, none⟩] := by
  constructor
  · decide
  · decide

/-- C4, amended: for every Mode and every DeviceList in which two rules have the same
label, `buildProgram` still returns the whole sequence (prologue, one block per rule,
both terminal blocks); every label that two or more rules of the list share anchors at
least two instructions of it, so the sequence does not link and has no verdict on any
input. -/
theorem buildProgram_duplicate_labels (mode : Mode) (L : DeviceList)
    (hdup : ¬ (L.map DeviceSpec.Label).Nodup) :
    buildProgram mode L = initProgram ++ addDevicesFrom mode L ++ finishProgram [] mode ∧
    (∃ l, 2 ≤ (L.map DeviceSpec.Label).count l) ∧
    (∀ l, 2 ≤ (L.map DeviceSpec.Label).count l → 2 ≤ anchorCount l (buildProgram mode L)) ∧
    linkable (buildProgram mode L) = false ∧
    ∀ inp, run (buildProgram mode L) inp = none := by
  have hlink : linkable (buildProgram mode L) = false := by
    rw [buildProgram_eq, ← Bool.not_eq_true, linkable_compileWith]
    exact hdup
  refine ⟨?_, ?_, ?_, hlink, ?_⟩
  · unfold buildProgram addDevices finishProgram addAllowRule addDenyRule
    split <;> simp
  · rw [List.nodup_iff_count_le_one] at hdup
    simp only [not_forall, not_le] at hdup
    obtain ⟨l, hl⟩ := hdup
    exact ⟨l, hl⟩
  · intro l hl
    rw [buildProgram_eq, anchorCount_eq_count, symbols_compileWith, List.count_append]
    omega
  · intro inp
    unfold run
    rw [hlink]
    rfl

/-- Two rules for `(Char,1,3,AllAccess)` with different names share the label
`c:1:3:rwm`, which then anchors two instructions. -/
theorem buildProgram_duplicate_labels_witness :
    ¬ (([DeviceSpec.mk "a" CharDevice AllAccess 1 3,
        DeviceSpec.mk "b" CharDevice AllAccess 1 3] : DeviceList).map DeviceSpec.Label).Nodup ∧
    2 ≤ (([DeviceSpec.mk "a" CharDevice AllAccess 1 3,
        DeviceSpec.mk "b" CharDevice AllAccess 1 3] : DeviceList).map DeviceSpec.Label).count
          "c:1:3:rwm" ∧
    2 ≤ anchorCount "c:1:3:rwm" (buildProgram Mode.DenyList
      [DeviceSpec.mk "a" CharDevice AllAccess 1 3, DeviceSpec.mk "b" CharDevice AllAccess 1 3]) ∧
    linkable (buildProgram Mode.DenyList
      [DeviceSpec.mk "a" CharDevice AllAccess 1 3, DeviceSpec.mk "b" CharDevice AllAccess 1 3]) =
      false :=
  ⟨by decide, by decide,
   (buildProgram_duplicate_labels Mode.DenyList _ (by decide)).2.2.1 "c:1:3:rwm" (by decide),
   (buildProgram_duplicate_labels Mode.DenyList _ (by decide)).2.2.2.1⟩

/-- C5, as stated, fails: for the single rule `(Char,1,3,Read)` under AllowList and the
attempt `(Char,1,3,Write)`, the failed access test falls through into the first terminal
block; `buildProgram` puts "deny" there and returns 0, the program with the two blocks
in the opposite order returns 1. -/
theorem swapped_terminal_blocks_differ :
    (([DeviceSpec.mk "" CharDevice ReadAccess 1 3] : DeviceList).map DeviceSpec.Label).Nodup ∧
    (Attempt.mk 2 1 3 4).valid ∧
    run (buildProgram Mode.AllowList [DeviceSpec.mk "" CharDevice ReadAccess 1 3])
      (pack (Attempt.mk 2 1 3 4)) = some 0 ∧
    run (buildProgramSwapped Mode.AllowList [DeviceSpec.mk "" CharDevice ReadAccess 1 3])
      (pack (Attempt.mk 2 1 3 4)) = some 1 := by
  decide

/-- C5, amended: the order of the two terminal blocks matters exactly when execution
falls through the end of the rule blocks. For every Mode, every DeviceList with pairwise
distinct labels and every access attempt: if execution falls through (no rule block
branches to the match label, and the list is empty or its last rule passes its type,
major and minor tests), `buildProgram` returns the default verdict and the program with
the blocks in the opposite order returns the match verdict; otherwise both return the
same verdict. -/
theorem swapped_terminal_blocks (mode : Mode) (L : DeviceList) (a : Attempt)
    (hL : (L.map DeviceSpec.Label).Nodup) (ha : a.valid) :
    (FallsThrough L a →
      run (buildProgram mode L) (pack a) = some (if mode = Mode.AllowList then 0 else 1) ∧
      run (buildProgramSwapped mode L) (pack a) =
        some (if mode = Mode.AllowList then 1 else 0)) ∧
    (¬ FallsThrough L a →
      ∃ v, run (buildProgram mode L) (pack a) = some v ∧
        run (buildProgramSwapped mode L) (pack a) = some v) := by
  rw [run_buildProgram mode L a hL ha, run_buildProgramSwapped mode L a hL ha]
  constructor
  · intro h
    exact ⟨congrArg some (fallsThrough_miss mode a L h),
      congrArg some ((evalRules_swapped mode a L).1 h)⟩
  · intro h
    exact ⟨_, rfl, congrArg some ((evalRules_swapped mode a L).2 h)⟩

/-- The basic preset ends in an `AllAccess` rule: nothing falls through, and both orders
deny `(Char,1,4,Read)`. The single rule `(Char,*,*,Mknod)` under DenyList lets a Read
request fall through: `buildProgram` allows it, the opposite order denies it. -/
theorem swapped_terminal_blocks_witness :
    ((BasicDevices.map DeviceSpec.Label).Nodup ∧ (Attempt.mk 2 1 4 2).valid ∧
      ¬ FallsThrough BasicDevices (Attempt.mk 2 1 4 2) ∧
      ∃ v, run (buildProgram Mode.AllowList BasicDevices) (pack (Attempt.mk 2 1 4 2)) = some v ∧
        run (buildProgramSwapped Mode.AllowList BasicDevices) (pack (Attempt.mk 2 1 4 2)) =
          some v) ∧
    (FallsThrough [DeviceSpec.mk "" CharDevice MknodAccess (-1) (-1)] (Attempt.mk 2 7 7 2) ∧
      run (buildProgram Mode.DenyList [DeviceSpec.mk "" CharDevice MknodAccess (-1) (-1)])
        (pack (Attempt.mk 2 7 7 2)) = some 1 ∧
      run (buildProgramSwapped Mode.DenyList [DeviceSpec.mk "" CharDevice MknodAccess (-1) (-1)])
        (pack (Attempt.mk 2 7 7 2)) = some 0) :=
  have hnf : ¬ FallsThrough BasicDevices (Attempt.mk 2 1 4 2) := by decide
  have hft : FallsThrough [DeviceSpec.mk "" CharDevice MknodAccess (-1) (-1)]
      (Attempt.mk 2 7 7 2) := by decide
  ⟨⟨by decide, by decide, hnf,
    (swapped_terminal_blocks Mode.AllowList BasicDevices (Attempt.mk 2 1 4 2) (by decide)
      (by decide)).2 hnf⟩,
   ⟨hft,
    (swapped_terminal_blocks Mode.DenyList [DeviceSpec.mk "" CharDevice MknodAccess (-1) (-1)]
      (Attempt.mk 2 7 7 2) (by decide) (by decide)).1 hft⟩⟩

/-- C6, as stated, fails: the high 16 bits of the input word can hold 8, and
`8 & AllAccess = 0`; for the rule `(Char,1,3,AllAccess)` under AllowList and the attempt
`(Char,1,3,8)` the unconditional branch grants, the general sequence denies. -/
theorem allAccess_elision_differs :
    (Attempt.mk 2 1 3 8).valid ∧
    (Attempt.mk 2 1 3 8).requested &&& bits32 AllAccess ≠ (Attempt.mk 2 1 3 8).requested ∧
    run (buildProgram Mode.AllowList [DeviceSpec.mk "/dev/null" CharDevice AllAccess 1 3])
      (pack (Attempt.mk 2 1 3 8)) = some 1 ∧
    run (buildProgramGeneral Mode.AllowList [DeviceSpec.mk "/dev/null" CharDevice AllAccess 1 3])
      (pack (Attempt.mk 2 1 3 8)) = some 0 := by
  decide

/-- C6, amended: for every requested-access value that is a combination of the Mknod,
Read and Write bits, `requested & AllAccess = requested`, and for every Mode, every
DeviceList and every access attempt with such a requested access the program with the
unconditional branch for `AllAccess` rules and the program with the general sequence
for them return the same verdict (both return one when the labels are pairwise
distinct). -/
theorem allAccess_elision (mode : Mode) (L : DeviceList) (a : Attempt)
    (ha : a.valid) (hq : a.requested < 8) :
    a.requested &&& bits32 AllAccess = a.requested ∧
    run (buildProgram mode L) (pack a) = run (buildProgramGeneral mode L) (pack a) ∧
    ((L.map DeviceSpec.Label).Nodup → ∃ v, run (buildProgram mode L) (pack a) = some v) := by
  refine ⟨?_, ?_, ?_⟩
  · rw [bits32_AllAccess]
    exact and_seven _ hq
  · by_cases hL : (L.map DeviceSpec.Label).Nodup
    · rw [run_buildProgram mode L a hL ha, run_buildProgramGeneral mode L a hL ha,
        evalRules_elide false mode a ha hq L]
    · rw [buildProgram_eq, buildProgramGeneral, run_of_not_nodup true false mode L _ hL,
        run_of_not_nodup false false mode L _ hL]
  · intro hL
    exact ⟨_, run_buildProgram mode L a hL ha⟩

/-- The standard preset and a request for Read and Write on `/dev/tty`. -/
theorem allAccess_elision_witness :
    (Attempt.mk 2 5 0 6).valid ∧ (Attempt.mk 2 5 0 6).requested < 8 ∧
    run (buildProgram Mode.AllowList StandardDevices) (pack (Attempt.mk 2 5 0 6)) =
      run (buildProgramGeneral Mode.AllowList StandardDevices) (pack (Attempt.mk 2 5 0 6)) :=
  ⟨by decide, by decide,
   (allAccess_elision Mode.AllowList StandardDevices (Attempt.mk 2 5 0 6) (by decide)
     (by decide)).2.1⟩

/-- C7: access matching is a subset test. For a list of one rule whose accessMask is
Read only and any attempt that satisfies the rule's type, major and minor criteria, the
program returns the default verdict when the requested access is Read|Write (6), and
the match verdict when it is Read alone (2) or has no access bits set (0). -/
theorem read_only_rule_subset_test (mode : Mode) (d : DeviceSpec) (a : Attempt)
    (hd : d.AccessMask = ReadAccess) (ha : a.valid)
    (ht : d.DeviceType = AnyDevice ∨ d.DeviceType = a.type)
    (hM : d.Major = -1 ∨ d.Major = a.major)
    (hm : d.Minor = -1 ∨ d.Minor = a.minor) :
    (a.requested = 6 →
      run (buildProgram mode [d]) (pack a) = some (if mode = Mode.AllowList then 0 else 1)) ∧
    (a.requested = 2 ∨ a.requested = 0 →
      run (buildProgram mode [d]) (pack a) = some (if mode = Mode.AllowList then 1 else 0)) := by
  have hL : (([d] : DeviceList).map DeviceSpec.Label).Nodup := by simp
  have hb : bits32 ReadAccess = 2 := by decide
  rw [run_buildProgram mode [d] a hL ha]
  constructor
  · intro hq
    refine congrArg some (evalRules_miss true mode a [d] ?_)
    intro x hx hp
    rw [List.mem_singleton.mp hx] at hp
    rcases hp.2 with ⟨_, hall⟩ | h
    · rw [hd] at hall
      exact absurd hall (by decide)
    · rw [hd, hb, hq] at h
      exact absurd h (by decide)
  · intro hq
    have hmatch : d.Matches a := by
      refine ⟨ht, hM, hm, ?_⟩
      rw [hd, hb]
      rcases hq with hq | hq <;> rw [hq] <;> decide
    exact congrArg some (evalRules_hit true false mode a [d]
      ⟨d, List.mem_singleton.mpr rfl, guardsPass_of_Matches d a ha hmatch,
        accessPass_of_Matches true d a ha hmatch⟩)

/-- A read-only rule for any block device with major 8, asked for Read|Write and for
Read on `(Block,8,1)`. -/
theorem read_only_rule_subset_test_witness :
    run (buildProgram Mode.AllowList [DeviceSpec.mk "" BlockDevice ReadAccess 8 (-1)])
      (pack (Attempt.mk 1 8 1 6)) = some 0 ∧
    run (buildProgram Mode.AllowList [DeviceSpec.mk "" BlockDevice ReadAccess 8 (-1)])
      (pack (Attempt.mk 1 8 1 2)) = some 1 :=
  ⟨(read_only_rule_subset_test Mode.AllowList (DeviceSpec.mk "" BlockDevice ReadAccess 8 (-1))
      (Attempt.mk 1 8 1 6) rfl (by decide) (by decide) (by decide) (by decide)).1 rfl,
   (read_only_rule_subset_test Mode.AllowList (DeviceSpec.mk "" BlockDevice ReadAccess 8 (-1))
      (Attempt.mk 1 8 1 2) rfl (by decide) (by decide) (by decide) (by decide)).2 (Or.inl rfl)⟩

/-- C8, as stated, fails: the device string `c:1:3:` gives the rule `(Char,1,3)` with
accessMask 0; in front of the rule for `/dev/zero` under AllowList it satisfies the subset
test of an attempt on `(Char,1,3)` that requests no access bits (`0 & 0 = 0`) and grants
it, while the list without that rule denies it. -/
theorem zero_mask_rule_matches_empty_request :
    parseDevice "c:1:3:" = .ok (DeviceSpec.mk "" CharDevice 0 1 3) ∧
    (([DeviceSpec.mk "" CharDevice 0 1 3,
        DeviceSpec.mk "" CharDevice AllAccess 1 5] : DeviceList).map DeviceSpec.Label).Nodup ∧
    (Attempt.mk 2 1 3 0).valid ∧
    run (buildProgram Mode.AllowList
        [DeviceSpec.mk "" CharDevice 0 1 3, DeviceSpec.mk "" CharDevice AllAccess 1 5])
      (pack (Attempt.mk 2 1 3 0)) = some 1 ∧
    run (buildProgram Mode.AllowList [DeviceSpec.mk "" CharDevice AllAccess 1 5])
      (pack (Attempt.mk 2 1 3 0)) = some 0 := by
  refine ⟨rfl, ?_, ?_, ?_, ?_⟩ <;> decide

/-- C8, amended: a rule `z` with a zero access mask is compiled like any other: the
program for `L1 ++ z :: L2` is `head` (the prologue and the blocks of `L1`), the block of
`z`, the blocks of `L2` and the terminal blocks. For every Mode, every such list with
pairwise distinct labels and every access attempt that requests at least one access bit,
in every configuration of the run whose current instruction is at a position `k` in the
block of `z`, that instruction does not branch to the match label; and the program
returns the same verdict as the program for the list with `z` removed. -/
theorem zero_mask_rule_removable (mode : Mode) (L1 L2 : DeviceList) (z : DeviceSpec)
    (a : Attempt) (hz : z.AccessMask = 0)
    (hL : ((L1 ++ z :: L2).map DeviceSpec.Label).Nodup) (ha : a.valid)
    (hq : a.requested ≠ 0) :
    (∃ head : Instructions,
      buildProgram mode (L1 ++ z :: L2) =
        head ++ (addDevice z mode (jumpDst mode L2) ++
          (addDevicesFrom mode L2 ++ finishProgram [] mode)) ∧
      ∀ (n k : Nat) (i : Instruction) (rest : Instructions) (r : Regs),
        stepsN (buildProgram mode (L1 ++ z :: L2)) (pack a) n
          (buildProgram mode (L1 ++ z :: L2), initRegs) = some (i :: rest, r) →
        (buildProgram mode (L1 ++ z :: L2)).drop k = i :: rest →
        head.length ≤ k → k < head.length + (addDevice z mode (jumpDst mode L2)).length →
        ∀ l r1, step (pack a) r i.op = .goto l r1 → l ≠ matchDst mode) ∧
    ∃ v, run (buildProgram mode (L1 ++ z :: L2)) (pack a) = some v ∧
      run (buildProgram mode (L1 ++ L2)) (pack a) = some v := by
  have hz1 := not_accessPass_zero z a hz hq
  have hL2 : ((L1 ++ L2).map DeviceSpec.Label).Nodup := by
    refine hL.sublist (List.Sublist.map _ ?_)
    exact List.Sublist.append_left (List.sublist_cons_self z L2) L1
  refine ⟨failed_access_block_no_match mode L1 z L2 a hL ha hz1, _,
    run_buildProgram mode _ a hL ha, ?_⟩
  rw [run_buildProgram mode _ a hL2 ha]
  refine congrArg some (evalRules_congr_hit true mode a _ _ ?_)
  constructor
  · rintro ⟨d, hd, hp⟩
    rcases List.mem_append.mp hd with h | h
    · exact ⟨d, List.mem_append_left _ h, hp⟩
    · exact ⟨d, List.mem_append_right _ (List.mem_cons_of_mem _ h), hp⟩
  · rintro ⟨d, hd, hp⟩
    rcases List.mem_append.mp hd with h | h
    · exact ⟨d, List.mem_append_left _ h, hp⟩
    · rcases List.mem_cons.mp h with e | e
      · exact absurd (e ▸ hp.2) hz1
      · exact ⟨d, List.mem_append_right _ e, hp⟩

/-- The rule of `c:1:3:` in front of the basic preset and a Read request on `/dev/null`:
the three guards of the zero-mask block pass, its access test falls through to the block
of `/dev/null`, and the verdict is that of the basic preset alone. -/
theorem zero_mask_rule_removable_witness :
    (DeviceSpec.mk "" CharDevice 0 1 3).AccessMask = 0 ∧
    ((([] : DeviceList) ++ DeviceSpec.mk "" CharDevice 0 1 3 :: BasicDevices).map
      DeviceSpec.Label).Nodup ∧
    (Attempt.mk 2 1 3 2).valid ∧ (Attempt.mk 2 1 3 2).requested ≠ 0 ∧
    (∃ head : Instructions,
      buildProgram Mode.AllowList ([] ++ DeviceSpec.mk "" CharDevice 0 1 3 :: BasicDevices) =
        head ++ (addDevice (DeviceSpec.mk "" CharDevice 0 1 3) Mode.AllowList
            (jumpDst Mode.AllowList BasicDevices) ++
          (addDevicesFrom Mode.AllowList BasicDevices ++ finishProgram [] Mode.AllowList)) ∧
      ∀ (n k : Nat) (i : Instruction) (rest : Instructions) (r : Regs),
        stepsN (buildProgram Mode.AllowList
            ([] ++ DeviceSpec.mk "" CharDevice 0 1 3 :: BasicDevices)) (pack (Attempt.mk 2 1 3 2)) n
          (buildProgram Mode.AllowList
            ([] ++ DeviceSpec.mk "" CharDevice 0 1 3 :: BasicDevices), initRegs) =
          some (i :: rest, r) →
        (buildProgram Mode.AllowList
            ([] ++ DeviceSpec.mk "" CharDevice 0 1 3 :: BasicDevices)).drop k = i :: rest →
        head.length ≤ k →
        k < head.length + (addDevice (DeviceSpec.mk "" CharDevice 0 1 3) Mode.AllowList
            (jumpDst Mode.AllowList BasicDevices)).length →
        ∀ l r1, step (pack (Attempt.mk 2 1 3 2)) r i.op = .goto l r1 →
          l ≠ matchDst Mode.AllowList) ∧
    ∃ v, run (buildProgram Mode.AllowList
          ([] ++ DeviceSpec.mk "" CharDevice 0 1 3 :: BasicDevices))
        (pack (Attempt.mk 2 1 3 2)) = some v ∧
      run (buildProgram Mode.AllowList ([] ++ BasicDevices)) (pack (Attempt.mk 2 1 3 2)) =
        some v :=
  ⟨rfl, by decide, by decide, by decide,
   zero_mask_rule_removable Mode.AllowList [] BasicDevices
     (DeviceSpec.mk "" CharDevice 0 1 3) (Attempt.mk 2 1 3 2) rfl (by decide) (by decide)
     (by decide)⟩

/-- C9: the label identifies the rule tuple. For all DeviceSpecs `a` and `b` with a
device type of Any, Block or Char, an access mask that is a combination of the Mknod,
Read and Write bits, and major and minor each -1 or non-negative, `a.Label() = b.Label()`
if and only if `a` and `b` have the same device type, major, minor and access mask; the
name plays no part. -/
theorem Label_eq_iff (a b : DeviceSpec) (ha : a.WellFormed) (hb : b.WellFormed) :
    a.Label = b.Label ↔
      a.DeviceType = b.DeviceType ∧ a.Major = b.Major ∧ a.Minor = b.Minor ∧
        a.AccessMask = b.AccessMask := by
  obtain ⟨at1, am1, aM1, an1⟩ := ha
  obtain ⟨bt1, bm1, bM1, bn1⟩ := hb
  constructor
  · intro h
    rw [String.ext_iff, Label_data, Label_data] at h
    obtain ⟨e1, h1⟩ := append_colon_inj _ _ _ _ (typeString_no_colon _) (typeString_no_colon _) h
    obtain ⟨e2, h2⟩ := append_colon_inj _ _ _ _ (numberString_no_colon _ aM1)
      (numberString_no_colon _ bM1) h1
    obtain ⟨e3, e4⟩ := append_colon_inj _ _ _ _ (numberString_no_colon _ an1)
      (numberString_no_colon _ bn1) h2
    exact ⟨typeString_injective _ _ at1 bt1 (String.ext e1),
      numberString_injective _ _ aM1 bM1 (String.ext e2),
      numberString_injective _ _ an1 bn1 (String.ext e3),
      maskString_injective _ _ am1 bm1 (String.ext e4)⟩
  · rintro ⟨e1, e2, e3, e4⟩
    unfold DeviceSpec.Label
    rw [e1, e2, e3, e4]

/-- The rule of `/dev/null` under another name has the same label, that of `/dev/zero` a
different one. -/
theorem Label_eq_iff_witness :
    (DeviceSpec.mk "/dev/null" CharDevice AllAccess 1 3).WellFormed ∧
    (DeviceSpec.mk "null" CharDevice AllAccess 1 3).WellFormed ∧
    (DeviceSpec.mk "/dev/zero" CharDevice AllAccess 1 5).WellFormed ∧
    (DeviceSpec.mk "/dev/null" CharDevice AllAccess 1 3).Label =
      (DeviceSpec.mk "null" CharDevice AllAccess 1 3).Label ∧
    (DeviceSpec.mk "/dev/null" CharDevice AllAccess 1 3).Label ≠
      (DeviceSpec.mk "/dev/zero" CharDevice AllAccess 1 5).Label :=
  ⟨by decide, by decide, by decide,
   (Label_eq_iff (DeviceSpec.mk "/dev/null" CharDevice AllAccess 1 3)
     (DeviceSpec.mk "null" CharDevice AllAccess 1 3) (by decide) (by decide)).mpr
     ⟨rfl, rfl, rfl, rfl⟩,
   fun h => absurd ((Label_eq_iff (DeviceSpec.mk "/dev/null" CharDevice AllAccess 1 3)
     (DeviceSpec.mk "/dev/zero" CharDevice AllAccess 1 5) (by decide) (by decide)).mp h).2.2.1
     (by decide)⟩

/-- C10: with the basic preset under AllowList, the program of `buildProgram` returns 1
for every attempt on `(Char,1,3)`, `(Char,1,5)`, `(Char,1,7)`, `(Char,1,8)` or
`(Char,1,9)` whose requested access is a subset of AllAccess, and returns 0 for every
attempt on any other `(type, major, minor)`, whatever access it requests. -/
theorem basicDevices_allowList (a : Attempt) (ha : a.valid) :
    (((a.type : Int) = CharDevice ∧ a.major = 1 ∧
        (a.minor = 3 ∨ a.minor = 5 ∨ a.minor = 7 ∨ a.minor = 8 ∨ a.minor = 9)) →
      a.requested &&& bits32 AllAccess = a.requested →
      run (buildProgram Mode.AllowList BasicDevices) (pack a) = some 1) ∧
    (¬ ((a.type : Int) = CharDevice ∧ a.major = 1 ∧
        (a.minor = 3 ∨ a.minor = 5 ∨ a.minor = 7 ∨ a.minor = 8 ∨ a.minor = 9)) →
      run (buildProgram Mode.AllowList BasicDevices) (pack a) = some 0) := by
  have hL : (BasicDevices.map DeviceSpec.Label).Nodup := by decide
  have s1 : sext64 1 = 1 := by decide
  have s2 : sext64 CharDevice = 2 := by decide
  have s3 : sext64 3 = 3 := by decide
  have s5 : sext64 5 = 5 := by decide
  have s7 : sext64 7 = 7 := by decide
  have s8 : sext64 8 = 8 := by decide
  have s9 : sext64 9 = 9 := by decide
  have hc : CharDevice = (2 : Int) := rfl
  rw [run_buildProgram Mode.AllowList BasicDevices a hL ha]
  constructor
  · rintro ⟨ht, hM, hm⟩ _
    have ht2 : a.type = 2 := by rw [hc] at ht; omega
    refine congrArg some (evalRules_hit true false Mode.AllowList a BasicDevices ?_)
    rcases hm with h | h | h | h | h
    · exact ⟨DeviceSpec.mk "/dev/null" CharDevice AllAccess 1 3, by simp [BasicDevices],
        ⟨Or.inr (by rw [s2]; exact ht2), Or.inr (by rw [s1]; exact hM),
          Or.inr (by rw [s3]; exact h)⟩, Or.inl ⟨rfl, rfl⟩⟩
    · exact ⟨DeviceSpec.mk "/dev/zero" CharDevice AllAccess 1 5, by simp [BasicDevices],
        ⟨Or.inr (by rw [s2]; exact ht2), Or.inr (by rw [s1]; exact hM),
          Or.inr (by rw [s5]; exact h)⟩, Or.inl ⟨rfl, rfl⟩⟩
    · exact ⟨DeviceSpec.mk "/dev/full" CharDevice AllAccess 1 7, by simp [BasicDevices],
        ⟨Or.inr (by rw [s2]; exact ht2), Or.inr (by rw [s1]; exact hM),
          Or.inr (by rw [s7]; exact h)⟩, Or.inl ⟨rfl, rfl⟩⟩
    · exact ⟨DeviceSpec.mk "/dev/random" CharDevice AllAccess 1 8, by simp [BasicDevices],
        ⟨Or.inr (by rw [s2]; exact ht2), Or.inr (by rw [s1]; exact hM),
          Or.inr (by rw [s8]; exact h)⟩, Or.inl ⟨rfl, rfl⟩⟩
    · exact ⟨DeviceSpec.mk "/dev/urandom" CharDevice AllAccess 1 9, by simp [BasicDevices],
        ⟨Or.inr (by rw [s2]; exact ht2), Or.inr (by rw [s1]; exact hM),
          Or.inr (by rw [s9]; exact h)⟩, Or.inl ⟨rfl, rfl⟩⟩
  · intro hno
    refine congrArg some (evalRules_miss true Mode.AllowList a BasicDevices ?_)
    intro d hd hp
    apply hno
    have hany : CharDevice ≠ AnyDevice := by decide
    have hneg : (1 : Int) ≠ -1 := by decide
    simp only [BasicDevices, List.mem_cons, List.mem_singleton, List.not_mem_nil, or_false] at hd
    rcases hd with rfl | rfl | rfl | rfl | rfl <;>
    · obtain ⟨⟨g1, g2, g3⟩, _⟩ := hp
      simp only [hany, hneg, false_or, s1, s2, s3, s5, s7, s8, s9] at g1 g2 g3
      have g3a := g3.resolve_left (by decide)
      refine ⟨by rw [hc, g1]; rfl, g2, ?_⟩
      rw [g3a]
      simp

/-- A Write on `/dev/full` is granted, any access to `(Block,1,3)` is denied. -/
theorem basicDevices_allowList_witness :
    run (buildProgram Mode.AllowList BasicDevices) (pack (Attempt.mk 2 1 7 4)) = some 1 ∧
    run (buildProgram Mode.AllowList BasicDevices) (pack (Attempt.mk 1 1 3 4)) = some 0 :=
  ⟨(basicDevices_allowList (Attempt.mk 2 1 7 4) (by decide)).1 (by decide) (by decide),
   (basicDevices_allowList (Attempt.mk 1 1 3 4) (by decide)).2 (by decide)⟩

/-- C11: for every DeviceSpec, `Label()` is the four fields joined by `:` in the order
type, major, minor, access. The type is `b` for Block, `c` for Char and `*` for Any;
major and minor are `*` when -1 and otherwise their decimal representation (digits that
denote the number when it is non-negative); the access part is exactly three characters,
`r` or `-` for the Read bit, `w` or `-` for the Write bit, `m` or `-` for the Mknod bit.
The rule of `/dev/null` has the label `c:1:3:rwm`. -/
theorem Label_format (d : DeviceSpec) :
    (∃ t M m acc : String,
      d.Label = t ++ ":" ++ M ++ ":" ++ m ++ ":" ++ acc ∧
      (d.DeviceType = BlockDevice → t = "b") ∧ (d.DeviceType = CharDevice → t = "c") ∧
      (d.DeviceType = AnyDevice → t = "*") ∧
      (d.Major = -1 → M = "*") ∧ (d.Major ≠ -1 → M = toString d.Major) ∧
      (0 ≤ d.Major → (∀ c ∈ M.data, IsDigitChar c) ∧ (ofDigitChars 0 M.data : Int) = d.Major) ∧
      (d.Minor = -1 → m = "*") ∧ (d.Minor ≠ -1 → m = toString d.Minor) ∧
      (0 ≤ d.Minor → (∀ c ∈ m.data, IsDigitChar c) ∧ (ofDigitChars 0 m.data : Int) = d.Minor) ∧
      acc.data =
        [if (bits32 d.AccessMask).testBit 1 then 'r' else '-',
         if (bits32 d.AccessMask).testBit 2 then 'w' else '-',
         if (bits32 d.AccessMask).testBit 0 then 'm' else '-']) ∧
    (DeviceSpec.mk "/dev/null" CharDevice AllAccess 1 3).Label = "c:1:3:rwm" := by
  have hnum : ∀ x : Int, 0 ≤ x →
      (∀ c ∈ (DeviceNumber.String x).data, IsDigitChar c) ∧
        (ofDigitChars 0 (DeviceNumber.String x).data : Int) = x := by
    intro x hx
    obtain ⟨n, rfl⟩ := Int.eq_ofNat_of_zero_le hx
    rw [numberString_of_nonneg]
    exact ⟨repr_isDigit n, by rw [repr_value]⟩
  refine ⟨⟨DeviceType.String d.DeviceType, DeviceNumber.String d.Major,
    DeviceNumber.String d.Minor, AccessMask.String d.AccessMask, rfl, ?_, ?_, ?_, ?_, ?_,
    hnum _, ?_, ?_, hnum _, maskString_data _⟩, rfl⟩
  · intro h; rw [h]; rfl
  · intro h; rw [h]; rfl
  · intro h; rw [h]; rfl
  · intro h; rw [h]; rfl
  · intro h; unfold DeviceNumber.String; rw [if_neg h, fmtInt_eq_toString]
  · intro h; rw [h]; rfl
  · intro h; unfold DeviceNumber.String; rw [if_neg h, fmtInt_eq_toString]

/-! ## Device strings -/

/-- C12, as stated, fails: `parseDevice` accepts `c:-5:3:r`, whose major segment `-5` is
neither `*` nor a non-negative integer, and the DeviceSpec it returns has the major -5,
which is neither the wildcard nor non-negative. -/
theorem parseDevice_accepts_negative :
    parseDevice "c:-5:3:r" = .ok (DeviceSpec.mk "" CharDevice ReadAccess (-5) 3) ∧
    Split ':' "c:-5:3:r".data = ["c".data, "-5".data, "3".data, "r".data] ∧
    "-5".data ≠ ['*'] ∧ (∀ n, IsNumeral "-5".data n → n = -5) ∧
    ¬ ((-5 : Int) = -1 ∨ 0 ≤ (-5 : Int)) := by
  refine ⟨rfl, rfl, by decide, ?_, by decide⟩
  intro n hn
  exact IsNumeral_unique _ n (-5) hn
    ⟨['-'], ['5'], rfl, Or.inr (Or.inr rfl), by decide, by decide, by decide⟩

/-- C12, amended: `parseDevice` accepts a string only if it splits on `:` into exactly
the four segments type, major, minor, accessmask, in which the major and the minor
segment are each `*` or a decimal integer with an optional sign (a negative one
included); a DeviceSpec it returns has a major (minor) that is the wildcard -1 or
non-negative whenever that segment is `*` or denotes an integer from 0 to 2^31-1. -/
theorem parseDevice_accepts_only (s : String) (d : DeviceSpec) (h : parseDevice s = .ok d) :
    ∃ p0 p1 p2 p3, Split ':' s.data = [p0, p1, p2, p3] ∧
      (p1 = ['*'] ∨ ∃ n, IsNumeral p1 n) ∧ (p2 = ['*'] ∨ ∃ n, IsNumeral p2 n) ∧
      ((p1 = ['*'] ∨ ∃ n, IsNumeral p1 n ∧ 0 ≤ n ∧ n < 2147483648) →
        d.Major = -1 ∨ 0 ≤ d.Major) ∧
      ((p2 = ['*'] ∨ ∃ n, IsNumeral p2 n ∧ 0 ≤ n ∧ n < 2147483648) →
        d.Minor = -1 ∨ 0 ≤ d.Minor) := by
  obtain ⟨p0, p1, p2, p3, hsp, _, hM, hm, _, _⟩ := (parseDevice_ok_iff s d).mp h
  exact ⟨p0, p1, p2, p3, hsp, parseNumber_numeral _ _ _ hM, parseNumber_numeral _ _ _ hm,
    parseNumber_nonneg _ _ _ hM, parseNumber_nonneg _ _ _ hm⟩

/-- The string `b:8:*:rw` is accepted, with major 8 and the wildcard as minor. -/
theorem parseDevice_accepts_only_witness :
    parseDevice "b:8:*:rw" = .ok (DeviceSpec.mk "" BlockDevice 6 8 (-1)) ∧
    ∃ p0 p1 p2 p3, Split ':' "b:8:*:rw".data = [p0, p1, p2, p3] ∧
      (p1 = ['*'] ∨ ∃ n, IsNumeral p1 n) ∧ (p2 = ['*'] ∨ ∃ n, IsNumeral p2 n) ∧
      ((p1 = ['*'] ∨ ∃ n, IsNumeral p1 n ∧ 0 ≤ n ∧ n < 2147483648) →
        (DeviceSpec.mk "" BlockDevice 6 8 (-1)).Major = -1 ∨
          0 ≤ (DeviceSpec.mk "" BlockDevice 6 8 (-1)).Major) ∧
      ((p2 = ['*'] ∨ ∃ n, IsNumeral p2 n ∧ 0 ≤ n ∧ n < 2147483648) →
        (DeviceSpec.mk "" BlockDevice 6 8 (-1)).Minor = -1 ∨
          0 ≤ (DeviceSpec.mk "" BlockDevice 6 8 (-1)).Minor) :=
  ⟨rfl, parseDevice_accepts_only "b:8:*:rw" (DeviceSpec.mk "" BlockDevice 6 8 (-1)) rfl⟩

/-- C13, as stated, fails: `c:9223372036854775808:0:r` has four segments, the type `c`,
a numeric major and minor and the access character `r`, so none of the listed defects,
and `parseDevice` returns an error for it: the major does not fit Go's `int`. -/
theorem parseDevice_rejects_large_number :
    Split ':' "c:9223372036854775808:0:r".data =
      ["c".data, "9223372036854775808".data, "0".data, "r".data] ∧
    TypeSegment "c".data ∧ IsNumeral "9223372036854775808".data 9223372036854775808 ∧
    IsNumeral "0".data 0 ∧ AccessSegment "r".data ∧
    parseDevice "c:9223372036854775808:0:r" =
      .error "invalid major number 9223372036854775808" := by
  refine ⟨rfl, by decide, ?_, ?_, by decide, rfl⟩
  · exact ⟨[], "9223372036854775808".data, rfl, Or.inl rfl, by decide, by decide, by decide⟩
  · exact ⟨[], "0".data, rfl, Or.inl rfl, by decide, by decide, by decide⟩

/-- C13, amended: `parseDevice` returns an error for every malformed device string:
whenever the string does not split on `:` into exactly 4 segments, or the type segment
is none of `c`, `char`, `b`, `block`, or a major/minor segment is neither `*` nor a
decimal integer (with an optional sign) that fits the 64-bit `int`, or the access
segment contains a character other than `r`, `w`, `m`; and for every string that has
none of these defects it returns a DeviceSpec without error. -/
theorem parseDevice_error_iff (s : String) :
    ((Split ':' s.data).length ≠ 4 → ∃ e, parseDevice s = .error e) ∧
    (∀ p0 p1 p2 p3, Split ':' s.data = [p0, p1, p2, p3] →
      (¬ TypeSegment p0 ∨ ¬ NumberSegment p1 ∨ ¬ NumberSegment p2 ∨ ¬ AccessSegment p3) →
      ∃ e, parseDevice s = .error e) ∧
    (∀ p0 p1 p2 p3, Split ':' s.data = [p0, p1, p2, p3] →
      TypeSegment p0 → NumberSegment p1 → NumberSegment p2 → AccessSegment p3 →
      ∃ d, parseDevice s = .ok d) := by
  refine ⟨?_, ?_, ?_⟩
  · intro hlen
    rcases except_cases (parseDevice s) with h | ⟨d, h⟩
    · exact h
    · obtain ⟨p0, p1, p2, p3, hsp, _⟩ := (parseDevice_ok_iff s d).mp h
      rw [hsp] at hlen
      exact absurd rfl hlen
  · intro p0 p1 p2 p3 hsp hbad
    rcases except_cases (parseDevice s) with h | ⟨d, h⟩
    · exact h
    · obtain ⟨q0, q1, q2, q3, hsq, ht, hM, hm, ha, _⟩ := (parseDevice_ok_iff s d).mp h
      rw [hsp] at hsq
      simp only [List.cons.injEq, and_true] at hsq
      obtain ⟨rfl, rfl, rfl, rfl⟩ := hsq
      rcases hbad with hb | hb | hb | hb
      · exact absurd ((parseType_isOk_iff p0).mp ⟨_, ht⟩) hb
      · exact absurd ((parseNumber_isOk_iff _ p1).mp ⟨_, hM⟩) hb
      · exact absurd ((parseNumber_isOk_iff _ p2).mp ⟨_, hm⟩) hb
      · exact absurd ((parseAccess_ok_iff p3 _).mp ha).1 hb
  · intro p0 p1 p2 p3 hsp ht hM hm ha
    obtain ⟨t, ht1⟩ := (parseType_isOk_iff p0).mpr ht
    obtain ⟨M, hM1⟩ := (parseNumber_isOk_iff "major" p1).mpr hM
    obtain ⟨m, hm1⟩ := (parseNumber_isOk_iff "minor" p2).mpr hm
    exact ⟨DeviceSpec.mk "" t _ M m,
      (parseDevice_ok_iff s _).mpr ⟨p0, p1, p2, p3, hsp, ht1, hM1, hm1, parseAccess_ok p3 ha, rfl⟩⟩

/-- Three segments are an error, an unknown access character is an error, and
`char:+7:*:wr` is accepted. -/
theorem parseDevice_error_iff_witness :
    (∃ e, parseDevice "c:1:3" = .error e) ∧
    (∃ e, parseDevice "c:1:3:rx" = .error e) ∧
    (∃ d, parseDevice "char:+7:*:wr" = .ok d) :=
  ⟨(parseDevice_error_iff "c:1:3").1 (by decide),
   (parseDevice_error_iff "c:1:3:rx").2.1 "c".data "1".data "3".data "rx".data rfl
     (Or.inr (Or.inr (Or.inr (by decide)))),
   (parseDevice_error_iff "char:+7:*:wr").2.2 "char".data "+7".data "*".data "wr".data rfl
     (by decide)
     (Or.inr ⟨7, ⟨['+'], ['7'], rfl, Or.inr (Or.inl rfl), by decide, by decide, by decide⟩,
       by decide, by decide⟩)
     (Or.inl rfl) (by decide)⟩

/-- C14: the access-mask segment is order- and duplicate-insensitive. For any two strings
that `parseDevice` accepts, that agree on the type, major and minor segments and whose
access segments contain the same of the characters `r`, `w`, `m`, the returned
DeviceSpecs are equal; and the returned accessMask is exactly the or of Read, Write and
Mknod for the characters that occur: Read (2) for `r`, Write (4) for `w`, Mknod (1) for
`m`, and 0 for an empty segment. -/
theorem parseDevice_access_insensitive (s1 s2 : String) (d1 d2 : DeviceSpec)
    (t M m a1 a2 : List Char)
    (h1 : parseDevice s1 = .ok d1) (h2 : parseDevice s2 = .ok d2)
    (hs1 : Split ':' s1.data = [t, M, m, a1]) (hs2 : Split ':' s2.data = [t, M, m, a2])
    (hset : ∀ c, c = 'r' ∨ c = 'w' ∨ c = 'm' → (c ∈ a1 ↔ c ∈ a2)) :
    d1 = d2 ∧
    d1.AccessMask = maskOf (decide ('r' ∈ a1)) (decide ('w' ∈ a1)) (decide ('m' ∈ a1)) ∧
    d1.AccessMask =
      (if 'r' ∈ a1 then 2 else 0) + (if 'w' ∈ a1 then 4 else 0) + (if 'm' ∈ a1 then 1 else 0) ∧
    (a1 = [] → d1.AccessMask = 0) := by
  obtain ⟨p0, p1, p2, p3, hp, ht, hM, hm, ha, hn⟩ := (parseDevice_ok_iff s1 d1).mp h1
  obtain ⟨q0, q1, q2, q3, hq, ht2, hM2, hm2, ha2, hn2⟩ := (parseDevice_ok_iff s2 d2).mp h2
  rw [hs1] at hp
  rw [hs2] at hq
  simp only [List.cons.injEq, and_true] at hp hq
  obtain ⟨rfl, rfl, rfl, rfl⟩ := hp
  obtain ⟨rfl, rfl, rfl, rfl⟩ := hq
  have e1 := ((parseAccess_ok_iff a1 _).mp ha).2
  have e2 := ((parseAccess_ok_iff a2 _).mp ha2).2
  have hr : decide ('r' ∈ a2) = decide ('r' ∈ a1) :=
    decide_eq_decide.mpr (hset 'r' (Or.inl rfl)).symm
  have hw : decide ('w' ∈ a2) = decide ('w' ∈ a1) :=
    decide_eq_decide.mpr (hset 'w' (Or.inr (Or.inl rfl))).symm
  have hk : decide ('m' ∈ a2) = decide ('m' ∈ a1) :=
    decide_eq_decide.mpr (hset 'm' (Or.inr (Or.inr rfl))).symm
  rw [hr, hw, hk] at e2
  refine ⟨?_, e1, ?_, ?_⟩
  · rw [ht] at ht2
    rw [hM] at hM2
    rw [hm] at hm2
    have t1 := Except.ok.inj ht2
    have t2 := Except.ok.inj hM2
    have t3 := Except.ok.inj hm2
    cases d1
    cases d2
    simp only at hn hn2 t1 t2 t3 e1 e2
    simp only [DeviceSpec.mk.injEq]
    exact ⟨by rw [hn, hn2], t1, by rw [e1, e2], t2, t3⟩
  · rw [e1, maskOf_value]
    simp
  · intro hnil
    rw [e1, hnil]
    decide

/-- The strings `c:1:3:rwm` and `c:1:3:mwrrw` give the same DeviceSpec, with the mask 7. -/
theorem parseDevice_access_insensitive_witness :
    parseDevice "c:1:3:rwm" = .ok (DeviceSpec.mk "" CharDevice AllAccess 1 3) ∧
    parseDevice "c:1:3:mwrrw" = .ok (DeviceSpec.mk "" CharDevice AllAccess 1 3) ∧
    (DeviceSpec.mk "" CharDevice AllAccess 1 3).AccessMask = maskOf true true true :=
  have h := parseDevice_access_insensitive "c:1:3:rwm" "c:1:3:mwrrw"
    (DeviceSpec.mk "" CharDevice AllAccess 1 3) (DeviceSpec.mk "" CharDevice AllAccess 1 3)
    "c".data "1".data "3".data "rwm".data "mwrrw".data rfl rfl rfl rfl
    (by
      intro c hc
      rcases hc with rfl | rfl | rfl <;> decide)
  ⟨rfl, rfl, h.2.1⟩

/-! ## Dispatch of the commands -/

/-- C15 fails on the code: for the arguments `replace <link pin> <prog pin>`,
`parseOptions` succeeds and stores `replaceProg`, and the `switch` of `main` has no case
for it: it takes the `default` branch and returns the error `Unknown action 4`. The
actions of the other five commands are dispatched to a handler. -/
theorem replace_not_dispatched :
    (parseOptions false "devcgprog" ["replace", "/sys/fs/bpf/link", "/sys/fs/bpf/prog"]).map
      (fun o => o.action) = .ok action.replaceProg ∧
    dispatch action.replaceProg = .error "Unknown action 4" ∧
    ∀ a : action, a ≠ action.replaceProg → ∃ h, dispatch a = .ok h := by
  refine ⟨rfl, rfl, ?_⟩
  intro a ha
  cases a
  · exact ⟨_, rfl⟩
  · exact ⟨_, rfl⟩
  · exact ⟨_, rfl⟩
  · exact ⟨_, rfl⟩
  · exact absurd rfl ha
  · exact ⟨_, rfl⟩

/-! ## The prologue and the control flow -/

/-- C16: for every input of three 32-bit words `w0`, `w1`, `w2`, after the six prologue
instructions of `initProgram` `R2` holds the low 16 bits of `w0`, `R3` the high 16 bits
of `w0` shifted right by 16, `R4` holds `w1` and `R5` holds `w2`, each zero-extended;
no instruction of a rule block writes `R2`, `R3`, `R4` or `R5`, and the four registers
keep these values in every later step of the program. -/
theorem prologue_fields_kept (mode : Mode) (L : DeviceList) (inp : Input)
    (h0 : inp.w0 < 4294967296) (h1 : inp.w1 < 4294967296) (h2 : inp.w2 < 4294967296) :
    (∃ r, stepsN (buildProgram mode L) inp 6 (buildProgram mode L, initRegs) =
        some (addDevicesFrom mode L ++ finishProgram [] mode, r) ∧
      r.r2 = inp.w0 % 65536 ∧ r.r3 = inp.w0 / 65536 ∧ r.r4 = inp.w1 ∧ r.r5 = inp.w2) ∧
    (∀ ins ∈ addDevicesFrom mode L, ins.op.KeepsFields) ∧
    (∀ (n : Nat) (cur : Instructions) (r : Regs),
      stepsN (buildProgram mode L) inp (6 + n) (buildProgram mode L, initRegs) = some (cur, r) →
      r.r2 = inp.w0 % 65536 ∧ r.r3 = inp.w0 / 65536 ∧ r.r4 = inp.w1 ∧ r.r5 = inp.w2) := by
  have e2 : (inp.w0 % 4294967296) &&& 65535 = inp.w0 % 65536 := by
    have := Nat.and_pow_two_sub_one_eq_mod (inp.w0 % 4294967296) 16
    norm_num at this
    rw [this]
  have e3 : (inp.w0 % 4294967296) >>> 16 = inp.w0 / 65536 := by
    rw [Nat.shiftRight_eq_div_pow]
    norm_num
    omega
  have e4 : inp.w1 % 4294967296 = inp.w1 := Nat.mod_eq_of_lt h1
  have e5 : inp.w2 % 4294967296 = inp.w2 := Nat.mod_eq_of_lt h2
  have hrules : ∀ ins ∈ addDevicesFrom mode L, ins.op.KeepsFields := by
    rw [addDevicesFrom_eq]
    exact keepsFields_addDevicesWith true mode L
  have hX : ∀ ins ∈ addDevicesFrom mode L ++ finishProgram [] mode, ins.op.KeepsFields := by
    intro ins hm
    rcases List.mem_append.mp hm with h | h
    · exact hrules ins h
    · exact keepsFields_terminalWith false mode ins h
  have hpro := stepsN_prologue (addDevicesFrom mode L ++ finishProgram [] mode) inp
  rw [e2, e3, e4, e5] at hpro
  rw [buildProgram_split]
  refine ⟨⟨_, hpro, rfl, rfl, rfl, rfl⟩, hrules, ?_⟩
  intro n cur r hn
  rw [stepsN_add, hpro] at hn
  have hk := stepsN_keeps _ inp ⟨inp.w0 % 65536, inp.w1, inp.w2, inp.w0 / 65536⟩ hX n _ (cur, r)
    ⟨fun ins hm => hm, ⟨rfl, rfl, rfl, rfl⟩⟩ hn
  exact ⟨hk.2.1, hk.2.2.1, hk.2.2.2.1, hk.2.2.2.2⟩

/-- The packed word 0x00060002 (Read|Write on a char device), major 1 and minor 3 under
the basic preset: after the prologue and after two more steps. -/
theorem prologue_fields_kept_witness :
    (∃ r, stepsN (buildProgram Mode.AllowList BasicDevices) ⟨393218, 1, 3⟩ 6
        (buildProgram Mode.AllowList BasicDevices, initRegs) =
        some (addDevicesFrom Mode.AllowList BasicDevices ++ finishProgram [] Mode.AllowList, r) ∧
      r.r2 = 2 ∧ r.r3 = 6 ∧ r.r4 = 1 ∧ r.r5 = 3) ∧
    (∃ cur r, stepsN (buildProgram Mode.AllowList BasicDevices) ⟨393218, 1, 3⟩ (6 + 2)
        (buildProgram Mode.AllowList BasicDevices, initRegs) = some (cur, r) ∧
      r.r2 = 2 ∧ r.r3 = 6 ∧ r.r4 = 1 ∧ r.r5 = 3) :=
  have h := prologue_fields_kept Mode.AllowList BasicDevices ⟨393218, 1, 3⟩ (by decide)
    (by decide) (by decide)
  ⟨h.1, ⟨_, _, rfl, h.2.2 2 _ _ rfl⟩⟩

/-- C17: for every Mode and every DeviceList with pairwise distinct labels, every branch
or jump in the output of `buildProgram` targets an instruction at a strictly greater
position than its own, and the last instruction is a return; executing the program on
any input returns a verdict, 0 or 1, within as many steps as the program has
instructions. -/
theorem buildProgram_forward_and_halts (mode : Mode) (L : DeviceList)
    (hL : (L.map DeviceSpec.Label).Nodup) :
    (∀ (i : Nat) (ins : Instruction) (l : String),
      (buildProgram mode L)[i]? = some ins → ins.op.reference = some l →
      ∃ t, i < t ∧ t < (buildProgram mode L).length ∧
        findLabel l (buildProgram mode L) = some ((buildProgram mode L).drop t)) ∧
    (∃ ins, (buildProgram mode L).getLast? = some ins ∧ ins.op = Op.Return) ∧
    (∀ inp : Input, ∃ v,
      exec (buildProgram mode L) inp (buildProgram mode L).length (buildProgram mode L)
        initRegs = some v ∧ (v = 0 ∨ v = 1)) := by
  refine ⟨?_, ⟨_, getLast_buildProgram mode L, rfl⟩, ?_⟩
  · intro i ins l hi hl
    rw [buildProgram_eq] at hi ⊢
    exact forward_compileWith true false mode L hL i ins l hi hl
  · intro inp
    have hlink := (linkable_compileWith true false mode L).mpr hL
    have hrun := run_compileWith true false mode L inp hlink
    unfold run at hrun
    rw [if_pos hlink] at hrun
    rw [buildProgram_eq]
    exact ⟨_, hrun, evalRules_range true false mode (decode inp) L⟩

/-- In the program for the basic preset under AllowList (30 instructions) the branch at
position 6 targets position 10, and the program denies `(Block,1,3)`. -/
theorem buildProgram_forward_and_halts_witness :
    (BasicDevices.map DeviceSpec.Label).Nodup ∧
    (∃ t, 6 < t ∧ t < (buildProgram Mode.AllowList BasicDevices).length ∧
      findLabel "c:1:5:rwm" (buildProgram Mode.AllowList BasicDevices) =
        some ((buildProgram Mode.AllowList BasicDevices).drop t)) ∧
    (∃ v, exec (buildProgram Mode.AllowList BasicDevices) ⟨1, 1, 3⟩
        (buildProgram Mode.AllowList BasicDevices).length
        (buildProgram Mode.AllowList BasicDevices) initRegs = some v ∧ (v = 0 ∨ v = 1)) :=
  have h := buildProgram_forward_and_halts Mode.AllowList BasicDevices (by decide)
  ⟨by decide,
   h.1 6 (((Op.JNEImm .R2 2 "c:1:5:rwm").ins.WithSymbol "c:1:3:rwm").WithSource "/dev/null")
     "c:1:5:rwm" rfl rfl,
   h.2.2 ⟨1, 1, 3⟩⟩

/-! ## Device numbers and presets on the command line -/

/-- C18 fails on the code: `parseDevice` accepts `c:4294967297:3:rwm`, whose major
segment denotes 4294967297, and the conversion of the 64-bit `int` to `DeviceNumber`
keeps the low 32 bits: the returned major is 1, the rule of `/dev/null`. In the same
way the major segment `4294967295` gives -1, the wildcard. -/
theorem parseDevice_narrows_number :
    IsNumeral "4294967297".data 4294967297 ∧
    parseDevice "c:4294967297:3:rwm" = .ok (DeviceSpec.mk "" CharDevice AllAccess 1 3) ∧
    IsNumeral "4294967295".data 4294967295 ∧
    parseDevice "c:4294967295:0:r" = .ok (DeviceSpec.mk "" CharDevice ReadAccess (-1) 0) := by
  refine ⟨?_, rfl, ?_, rfl⟩
  · exact ⟨[], "4294967297".data, rfl, Or.inl rfl, by decide, by decide, by decide⟩
  · exact ⟨[], "4294967295".data, rfl, Or.inl rfl, by decide, by decide, by decide⟩

/-- C19: `parseDevices` does not enforce label uniqueness. It accepts the argument lists
`basic standard` and `c:1:3:rwm basic`, and each resulting DeviceList holds two rules
with the label `c:1:3:rwm`; each of the presets `BasicDevices` and `StandardDevices`
taken alone has pairwise distinct labels. -/
theorem parseDevices_duplicate_labels :
    (∃ o, parseDevices emptyOptions ["basic", "standard"] = .ok o ∧
      ¬ (o.devices.map DeviceSpec.Label).Nodup ∧
      (o.devices.map DeviceSpec.Label).count "c:1:3:rwm" = 2) ∧
    (∃ o, parseDevices emptyOptions ["c:1:3:rwm", "basic"] = .ok o ∧
      ¬ (o.devices.map DeviceSpec.Label).Nodup ∧
      (o.devices.map DeviceSpec.Label).count "c:1:3:rwm" = 2) ∧
    (BasicDevices.map DeviceSpec.Label).Nodup ∧
    (StandardDevices.map DeviceSpec.Label).Nodup := by
  refine ⟨⟨_, rfl, by decide, by decide⟩, ⟨_, rfl, by decide, by decide⟩, by decide, by decide⟩

/-! ## Totality and termination of the compiled program -/

/-- C20: `buildProgram` is total. For every Mode and every DeviceList, `addDevice` emits
at least one instruction for each rule, so the assignment to `ins[0]` is in range, and
`addDevices` reads `devices[i+1]` only when it exists: the compiler with these index
operations checked returns the program of `buildProgram`. The output has the 6
instructions of the prologue, one block of 1 to 6 instructions per rule, and 4 terminal
instructions. -/
theorem buildProgram_total (mode : Mode) (L : DeviceList) :
    buildProgramChecked mode L = some (buildProgram mode L) ∧
    (∀ (d : DeviceSpec) (j : String),
      addDeviceChecked d mode j = some (addDevice d mode j) ∧
      1 ≤ (addDevice d mode j).length ∧ (addDevice d mode j).length ≤ 6) ∧
    (∃ blocks : List Instructions,
      blocks.length = L.length ∧ (∀ b ∈ blocks, 1 ≤ b.length ∧ b.length ≤ 6) ∧
      buildProgram mode L = initProgram ++ blocks.flatten ++ finishProgram [] mode) ∧
    initProgram.length = 6 ∧ (finishProgram [] mode).length = 4 := by
  refine ⟨buildProgramChecked_eq mode L,
    fun d j => ⟨addDeviceChecked_eq d mode j, addDevice_length d mode j⟩,
    ⟨deviceBlocks mode L, deviceBlocks_length mode L, deviceBlocks_bounds mode L, ?_⟩,
    rfl, ?_⟩
  · rw [← addDevicesFrom_eq_join]
    unfold buildProgram addDevices finishProgram addAllowRule addDenyRule
    split <;> simp
  · cases mode <;> rfl

end Devcg
